import Mathlib

/-!
Verification of the code-complexity analysis engine of the
`deno-lint-plugin-do-try` repository (`src/quality/...` and the module-graph
analyzer).  The TypeScript sources are shallowly embedded: every scoring
function becomes a pure Lean function over an explicit AST type, the mutable
`ComplexityContext` becomes explicit state passing, and JavaScript `number`
scores are modelled as rationals (`Rat`).  Node identity (JavaScript object
identity, used by the `visitedNodes` cycle guard) is modelled by a `Nat` tag
carried on every AST node; a parser always produces trees with pairwise
distinct tags, but the embedding does not assume it, so the circular-reference
branches of the source are reachable and testable.

Source-position bookkeeping (`lineInfo`, produced by the external syntax
facade) and purely diagnostic metadata entries are not modelled; of the
`metadata` map only the `truncated` / `circular` flags (which the spec's
claims mention) are kept, as `Bool` fields of `ComplexityResult`.
-/

namespace Quality

/-- Syntax-node kind tags (the subset of `ts.SyntaxKind` the engine
dispatches on; every other kind is `otherExpression` / `otherStatement`). -/
inductive NodeKind where
  | binaryExpression
  | prefixUnaryExpression
  | postfixUnaryExpression
  | conditionalExpression
  | callExpression
  | propertyAccessExpression
  | elementAccessExpression
  | objectLiteralExpression
  | arrayLiteralExpression
  | identifierExpression
  | otherExpression
  | expressionStatement
  | variableStatement
  | ifStatement
  | forStatement
  | forOfStatement
  | forInStatement
  | whileStatement
  | doStatement
  | switchStatement
  | tryStatement
  | throwStatement
  | returnStatement
  | blockNode
  | functionDeclaration
  | classDeclaration
  | interfaceDeclaration
  | importDeclaration
  | variableDeclaration
  | otherStatement
  | sourceFileNode
  deriving DecidableEq, Repr

/-- Binary-operator categories.  `getBinaryOperatorComplexity` only
distinguishes the logical operators, the eight comparison operators, and
everything else; variable-mutation tracking additionally distinguishes plain
assignment (`=`) and the five compound assignments (`+=` `-=` `*=` `/=` `%=`). -/
inductive BinOp where
  | logicalAnd
  | logicalOr
  | comparison
  | assign
  | compoundAssign
  | otherOp
  deriving DecidableEq, Repr

/-- Prefix unary operators: `!` (scored 0.3), `++`/`--` (tracked as
mutations), and the rest (`+` `-` `~`). -/
inductive PreOp where
  | bang
  | preIncDec
  | otherPre
  deriving DecidableEq, Repr

mutual
/-- Embedded TypeScript expressions.  Each node carries a `Nat` identity tag
modelling JavaScript object identity for the `visitedNodes` set. -/
inductive Expr where
  | binary (id : Nat) (op : BinOp) (left right : Expr)
  | prefixUnary (id : Nat) (op : PreOp) (operand : Expr)
  | postfixUnary (id : Nat) (operand : Expr)
  | conditional (id : Nat) (cond whenTrue whenFalse : Expr)
  | call (id : Nat) (callee : Expr) (args : List Expr)
  | propertyAccess (id : Nat) (obj : Expr) (name : String)
  | elementAccess (id : Nat) (obj : Expr) (index : Expr)
  | objectLiteral (id : Nat) (props : List ObjectProp)
  | arrayLiteral (id : Nat) (elems : List Expr)
  | identifier (id : Nat) (name : String)
  | otherExpr (id : Nat)
  deriving Repr

/-- An object-literal member: either a property assignment with an expression
initializer (scored), or any other member form (skipped by the scorer but
still counted in `propertyCount`). -/
inductive ObjectProp where
  | propertyAssignment (init : Expr)
  | otherProp
  deriving Repr
end

/-- Identity tag of an expression node. -/
def Expr.nodeId : Expr → Nat
  | .binary id _ _ _ => id
  | .prefixUnary id _ _ => id
  | .postfixUnary id _ => id
  | .conditional id _ _ _ => id
  | .call id _ _ => id
  | .propertyAccess id _ _ => id
  | .elementAccess id _ _ => id
  | .objectLiteral id _ => id
  | .arrayLiteral id _ => id
  | .identifier id _ => id
  | .otherExpr id => id

/-- Kind tag of an expression node. -/
def Expr.kind : Expr → NodeKind
  | .binary _ _ _ _ => .binaryExpression
  | .prefixUnary _ _ _ => .prefixUnaryExpression
  | .postfixUnary _ _ => .postfixUnaryExpression
  | .conditional _ _ _ _ => .conditionalExpression
  | .call _ _ _ => .callExpression
  | .propertyAccess _ _ _ => .propertyAccessExpression
  | .elementAccess _ _ _ => .elementAccessExpression
  | .objectLiteral _ _ => .objectLiteralExpression
  | .arrayLiteral _ _ => .arrayLiteralExpression
  | .identifier _ _ => .identifierExpression
  | .otherExpr _ => .otherExpression

/-- One variable declaration inside a declaration list: an optional binding
name (`none` models destructuring patterns) and an optional initializer. -/
structure VarDecl where
  name : Option String
  init : Option Expr
  deriving Repr

mutual
/-- Embedded TypeScript statements.  A block statement carries its statement
list directly: in the TypeScript AST the block *is* the statement node, so it
shares one identity tag (which matters for the `visitedNodes` guard). -/
inductive Stmt where
  | exprStmt (id : Nat) (e : Expr)
  | varStmt (id : Nat) (isLet : Bool) (decls : List VarDecl)
  | ifStmt (id : Nat) (cond : Expr) (thenS : Stmt) (elseS : Option Stmt)
  | forStmt (id : Nat) (finit : Option ForInit) (cond incr : Option Expr)
      (body : Stmt)
  | forOfStmt (id : Nat) (isForIn : Bool) (declIsLet : Bool)
      (declInits : List VarDecl) (iter : Expr) (body : Stmt)
  | whileStmt (id : Nat) (cond : Expr) (body : Stmt)
  | doStmt (id : Nat) (body : Stmt) (cond : Expr)
  | switchStmt (id : Nat) (disc : Expr) (clauses : List SwitchClause)
  | tryStmt (id : Nat) (tryBlock : Blk) (catchC : Option CatchClause)
      (finallyBlock : Option Blk)
  | throwStmt (id : Nat) (e : Option Expr)
  | returnStmt (id : Nat) (e : Option Expr)
  | blockStmt (id : Nat) (stmts : List Stmt)
  | funcDecl (id : Nat) (paramCount : Nat) (body : List Stmt) (bodyId : Nat)
  | classDecl (id : Nat) (memberCount : Nat) (hasHeritage : Bool)
  | interfaceDecl (id : Nat) (memberCount : Nat)
  | importDecl (id : Nat) (specifier : Option String) (hasDefault : Bool)
      (binding : ImportBinding)
  | otherStmt (id : Nat)
  deriving Repr

/-- The initializer slot of a classic `for` statement; a declaration list
carries the `let` flag of the underlying `VariableDeclarationList`. -/
inductive ForInit where
  | declList (isLet : Bool) (decls : List VarDecl)
  | exprInit (e : Expr)
  deriving Repr

/-- A `switch` clause. -/
inductive SwitchClause where
  | caseClause (e : Expr) (stmts : List Stmt)
  | defaultClause (stmts : List Stmt)
  deriving Repr

/-- A standalone block (try/catch/finally bodies), with its own identity and
its source line span (`endLine - startLine + 1`, provided by the facade). -/
inductive Blk where
  | mk (id : Nat) (lines : Nat) (stmts : List Stmt)
  deriving Repr

/-- A `catch` clause: whether it binds a variable, plus its block. -/
inductive CatchClause where
  | mk (hasVariableDeclaration : Bool) (block : Blk)
  deriving Repr

/-- Named import bindings of an import clause. -/
inductive ImportBinding where
  | named (count : Nat)
  | namespaceBinding
  | noBinding
  deriving Repr
end

/-- Identity tag of a statement node. -/
def Stmt.nodeId : Stmt → Nat
  | .exprStmt id _ => id
  | .varStmt id _ _ => id
  | .ifStmt id _ _ _ => id
  | .forStmt id _ _ _ _ => id
  | .forOfStmt id _ _ _ _ _ => id
  | .whileStmt id _ _ => id
  | .doStmt id _ _ => id
  | .switchStmt id _ _ => id
  | .tryStmt id _ _ _ => id
  | .throwStmt id _ => id
  | .returnStmt id _ => id
  | .blockStmt id _ => id
  | .funcDecl id _ _ _ => id
  | .classDecl id _ _ => id
  | .interfaceDecl id _ => id
  | .importDecl id _ _ _ => id
  | .otherStmt id => id

/-- Kind tag of a statement node. -/
def Stmt.kind : Stmt → NodeKind
  | .exprStmt _ _ => .expressionStatement
  | .varStmt _ _ _ => .variableStatement
  | .ifStmt _ _ _ _ => .ifStatement
  | .forStmt _ _ _ _ _ => .forStatement
  | .forOfStmt _ isForIn _ _ _ _ =>
      if isForIn then .forInStatement else .forOfStatement
  | .whileStmt _ _ _ => .whileStatement
  | .doStmt _ _ _ => .doStatement
  | .switchStmt _ _ _ => .switchStatement
  | .tryStmt _ _ _ _ => .tryStatement
  | .throwStmt _ _ => .throwStatement
  | .returnStmt _ _ => .returnStatement
  | .blockStmt _ _ => .blockNode
  | .funcDecl _ _ _ _ => .functionDeclaration
  | .classDecl _ _ _ => .classDeclaration
  | .interfaceDecl _ _ => .interfaceDeclaration
  | .importDecl _ _ _ _ => .importDeclaration
  | .otherStmt _ => .otherStatement

/-- A parsed source file (output of the external syntax facade). -/
structure SourceFileAst where
  statements : List Stmt
  deriving Repr

/-- `ComplexityResult` (common.ts / complexity.ts): score, node kind and
recursive children, plus the `truncated` / `circular` metadata flags. -/
structure ComplexityResult where
  score : Rat
  nodeType : NodeKind
  children : List ComplexityResult
  truncated : Bool := false
  circular : Bool := false
  deriving Repr

/-- Sum of the scores of a result's direct children. -/
def childScoreSum (r : ComplexityResult) : Rat :=
  (r.children.map ComplexityResult.score).sum

/-- `ComplexityContext` (common.ts): the mutable traversal state, threaded
explicitly.  `currentDepth` is an `Int` because the depth-restoration bug in
complexity.ts drives it below zero. -/
structure Ctx where
  visitedNodes : List Nat
  maxDepth : Int
  currentDepth : Int
  deriving Repr

/-- `createComplexityContext` with the default options (maxDepth 20). -/
def createComplexityContext : Ctx :=
  { visitedNodes := [], maxDepth := 20, currentDepth := 0 }

/-- `getBinaryOperatorComplexity` (complexity.ts / expression.ts). -/
def getBinaryOperatorComplexity : BinOp → Rat
  | .logicalAnd => 1/2
  | .logicalOr => 1/2
  | .comparison => 3/10
  | _ => 1/10

/-- `createTruncatedResult` (common.ts / complexity.ts). -/
def createTruncatedResult (kind : NodeKind) : ComplexityResult :=
  { score := 1, nodeType := kind, children := [], truncated := true }

/-- `createCircularReferenceResult` (complexity.ts / expression.ts): a
kind-only estimate for an expression already in `visitedNodes`. -/
def createCircularReferenceResult (e : Expr) : ComplexityResult :=
  let baseScore : Rat :=
    match e with
    | .binary _ op _ _ => 1 + getBinaryOperatorComplexity op
    | .conditional _ _ _ _ => 1 + 1
    | .call _ _ args => 1 + (args.length : Rat) * (1/5)
    | _ => 1
  { score := baseScore, nodeType := e.kind, children := [], circular := true }

/-- `createCircularReferenceStatementResult` (complexity.ts / statement.ts). -/
def createCircularReferenceStatementResult (s : Stmt) : ComplexityResult :=
  let baseScore : Rat :=
    match s with
    | .ifStmt _ _ _ _ => 1 + 1/2
    | .forStmt _ _ _ _ _ => 1 + 4/5
    | .forOfStmt _ _ _ _ _ _ => 1 + 4/5
    | .whileStmt _ _ _ => 1 + 4/5
    | .doStmt _ _ _ => 1 + 1
    | .switchStmt _ _ _ => 1 + 3/2
    | .tryStmt _ _ _ _ => 1 + 3
    | .throwStmt _ _ => 1 + 1
    | _ => 1
  { score := baseScore, nodeType := s.kind, children := [], circular := true }

mutual
/-- `calculateExpressionComplexityWithPattern` (expression.ts and, with the
same text, complexity.ts): depth guard, cycle guard, then mark the node
visited, descend with `currentDepth` incremented, and restore the depth. -/
def calculateExpressionComplexityWithPattern (e : Expr) (ctx : Ctx) :
    ComplexityResult × Ctx :=
  if ctx.currentDepth ≥ ctx.maxDepth then
    (createTruncatedResult e.kind, ctx)
  else if ctx.visitedNodes.contains e.nodeId then
    (createCircularReferenceResult e, ctx)
  else
    let ctx1 : Ctx :=
      { ctx with
        visitedNodes := e.nodeId :: ctx.visitedNodes
        currentDepth := ctx.currentDepth + 1 }
    let p := calculateNodeComplexity e ctx1
    (p.1, { p.2 with currentDepth := p.2.currentDepth - 1 })

/-- `calculateNodeComplexity` (expression.ts): dispatch on the expression
kind; unrecognized kinds get the base score 1 with no children. -/
def calculateNodeComplexity (e : Expr) (ctx : Ctx) : ComplexityResult × Ctx :=
  match e with
  | .binary _ op l r =>
      let pl := calculateExpressionComplexityWithPattern l ctx
      let pr := calculateExpressionComplexityWithPattern r pl.2
      ({ score := pl.1.score + pr.1.score + getBinaryOperatorComplexity op + 1,
         nodeType := .binaryExpression, children := [pl.1, pr.1] }, pr.2)
  | .prefixUnary _ op operand =>
      let po := calculateExpressionComplexityWithPattern operand ctx
      let opC : Rat := if op = .bang then 3/10 else 1/10
      ({ score := 1 + po.1.score + opC,
         nodeType := .prefixUnaryExpression, children := [po.1] }, po.2)
  | .postfixUnary _ operand =>
      let po := calculateExpressionComplexityWithPattern operand ctx
      ({ score := 1 + po.1.score + 1/5,
         nodeType := .postfixUnaryExpression, children := [po.1] }, po.2)
  | .conditional _ c t f =>
      let pc := calculateExpressionComplexityWithPattern c ctx
      let pt := calculateExpressionComplexityWithPattern t pc.2
      let pf := calculateExpressionComplexityWithPattern f pt.2
      ({ score := 1 + pc.1.score + pt.1.score + pf.1.score,
         nodeType := .conditionalExpression,
         children := [pc.1, pt.1, pf.1] }, pf.2)
  | .call _ callee args =>
      let pc := calculateExpressionComplexityWithPattern callee ctx
      let pa := calculateExpressionList args pc.2
      let argMultiplier : Rat := max 1 ((args.length : Rat) * (1/5))
      ({ score := 1 + pc.1.score + pa.2.1 * argMultiplier,
         nodeType := .callExpression, children := pc.1 :: pa.1 }, pa.2.2)
  | .propertyAccess _ obj _ =>
      let po := calculateExpressionComplexityWithPattern obj ctx
      ({ score := 1 + po.1.score,
         nodeType := .propertyAccessExpression, children := [po.1] }, po.2)
  | .elementAccess _ obj index =>
      let po := calculateExpressionComplexityWithPattern obj ctx
      let px := calculateExpressionComplexityWithPattern index po.2
      ({ score := 1 + po.1.score + px.1.score,
         nodeType := .elementAccessExpression,
         children := [po.1, px.1] }, px.2)
  | .objectLiteral _ props =>
      let pp := calculatePropertyList props ctx
      ({ score := 1 + pp.2.1,
         nodeType := .objectLiteralExpression, children := pp.1 }, pp.2.2)
  | .arrayLiteral _ elems =>
      let pe := calculateExpressionList elems ctx
      ({ score := 1 + pe.2.1,
         nodeType := .arrayLiteralExpression, children := pe.1 }, pe.2.2)
  | .identifier _ _ =>
      ({ score := 1, nodeType := .identifierExpression, children := [] }, ctx)
  | .otherExpr _ =>
      ({ score := 1, nodeType := .otherExpression, children := [] }, ctx)

/-- Scores a list of expressions in order (the argument / element loops of
the source), returning the child results, their score sum, and the state. -/
def calculateExpressionList (es : List Expr) (ctx : Ctx) :
    List ComplexityResult × Rat × Ctx :=
  match es with
  | [] => ([], 0, ctx)
  | e :: rest =>
      let p := calculateExpressionComplexityWithPattern e ctx
      let q := calculateExpressionList rest p.2
      (p.1 :: q.1, p.1.score + q.2.1, q.2.2)

/-- The property loop of `calculateObjectLiteralExpressionComplexity`: only
property assignments with an expression initializer are scored. -/
def calculatePropertyList (ps : List ObjectProp) (ctx : Ctx) :
    List ComplexityResult × Rat × Ctx :=
  match ps with
  | [] => ([], 0, ctx)
  | .propertyAssignment init :: rest =>
      let p := calculateExpressionComplexityWithPattern init ctx
      let q := calculatePropertyList rest p.2
      (p.1 :: q.1, p.1.score + q.2.1, q.2.2)
  | .otherProp :: rest => calculatePropertyList rest ctx
end

/-- The initializer loop of the variable-statement scorers: scores the
initializer of every declaration that has one (declarations without an
initializer produce no child). -/
def scoreDeclInitializers (decls : List VarDecl) (ctx : Ctx) :
    List ComplexityResult × Rat × Ctx :=
  match decls with
  | [] => ([], 0, ctx)
  | d :: rest =>
      match d.init with
      | some e =>
          let p := calculateExpressionComplexityWithPattern e ctx
          let q := scoreDeclInitializers rest p.2
          (p.1 :: q.1, p.1.score + q.2.1, q.2.2)
      | none => scoreDeclInitializers rest ctx

/-- An `if (slot) { score it and push it }` step of the source, for an
optional expression slot (for-condition, for-incrementor, thrown or returned
expression): scores the expression when present. -/
def scoreOptionalExpression (o : Option Expr) (ctx : Ctx) :
    List ComplexityResult × Rat × Ctx :=
  match o with
  | none => ([], 0, ctx)
  | some e =>
      let p := calculateExpressionComplexityWithPattern e ctx
      ([p.1], p.1.score, p.2)

/-- The initializer block of the `for` branch: a declaration list is scored
declaration-wise, a plain expression initializer directly. -/
def scoreForInitializer (o : Option ForInit) (ctx : Ctx) :
    List ComplexityResult × Rat × Ctx :=
  match o with
  | none => ([], 0, ctx)
  | some (.declList _ ds) => scoreDeclInitializers ds ctx
  | some (.exprInit e) =>
      let p := calculateExpressionComplexityWithPattern e ctx
      ([p.1], p.1.score, p.2)

/-- The per-statement weighting of `calculateFileComplexity` (file.ts and
complexity.ts): classes are boosted by member count and heritage, interfaces
by member count, function declarations dampened by parameter count. -/
def fileStatementWeight : Stmt → Rat
  | .classDecl _ memberCount hasHeritage =>
      (1 + (memberCount : Rat) * (1/10)) + (if hasHeritage then 1/2 else 0)
  | .interfaceDecl _ memberCount => 1 + (memberCount : Rat) * (1/20)
  | .funcDecl _ paramCount _ _ => 4/5 + (paramCount : Rat) * (1/20)
  | _ => 1

/-- Stable insertion of `x` into a list already sorted by score descending;
`x` goes after every element whose score is at least as large.  JavaScript's
`Array.prototype.sort` with the comparator `(a, b) => b.score - a.score` is
specified to be stable, and every stable descending sort computes the same
list, so insertion sort is an exact model. -/
def insertScoreDesc (score : α → Rat) (x : α) : List α → List α
  | [] => [x]
  | y :: ys =>
      if score x < score y then y :: insertScoreDesc score x ys
      else x :: y :: ys

/-- Stable sort by score descending (the `.sort((a, b) => b.score - a.score)`
calls of utils.ts and metrics.ts). -/
def sortScoreDesc (score : α → Rat) : List α → List α
  | [] => []
  | x :: xs => insertScoreDesc score x (sortScoreDesc score xs)


namespace Mono

/-!
The legacy monolithic scorer of `src/quality/core/complexity.ts`.  Its
statement path decrements `context.currentDepth` twice per call: once in
`calculateStatementComplexityWithPattern` (line 754) and once more at the end
of `calculateStatementNodeComplexity` (line 1117), although only the former
function incremented it.
-/

mutual
/-- `calculateStatementComplexityWithPattern` (complexity.ts lines 732-757). -/
def calculateStatementComplexityWithPattern (s : Stmt) (ctx : Ctx) :
    ComplexityResult × Ctx :=
  if ctx.currentDepth ≥ ctx.maxDepth then
    (createTruncatedResult s.kind, ctx)
  else if ctx.visitedNodes.contains s.nodeId then
    (createCircularReferenceStatementResult s, ctx)
  else
    let ctx1 : Ctx :=
      { ctx with
        visitedNodes := s.nodeId :: ctx.visitedNodes
        currentDepth := ctx.currentDepth + 1 }
    let p := calculateStatementNodeComplexity s ctx1
    (p.1, { p.2 with currentDepth := p.2.currentDepth - 1 })

/-- `calculateStatementNodeComplexity` (complexity.ts lines 816-1126),
including the spurious `context.currentDepth--` before the return. -/
def calculateStatementNodeComplexity (s : Stmt) (ctx : Ctx) :
    ComplexityResult × Ctx :=
  let p : (Rat × List ComplexityResult) × Ctx :=
    match s with
    | .exprStmt _ e =>
        let pe := calculateExpressionComplexityWithPattern e ctx
        ((1 + pe.1.score, [pe.1]), pe.2)
    | .varStmt _ isLet decls =>
        let pd := scoreDeclInitializers decls ctx
        let score := 1 + pd.2.1
        ((if isLet then score + 1/2 else score, pd.1), pd.2.2)
    | .ifStmt _ cond thenS elseS =>
        let pc := calculateExpressionComplexityWithPattern cond ctx
        let pt := calculateStatementComplexityWithPattern thenS pc.2
        (match elseS with
         | some els =>
             let pe := calculateStatementComplexityWithPattern els pt.2
             ((1 + pc.1.score + pt.1.score + pe.1.score + 1/2,
               [pc.1, pt.1, pe.1]), pe.2)
         | none =>
             ((1 + pc.1.score + pt.1.score + 1/2, [pc.1, pt.1]), pt.2))
    | .forStmt _ finit cond incr body =>
        let pf := scoreForInitializer finit ctx
        let pc := scoreOptionalExpression cond pf.2.2
        let px := scoreOptionalExpression incr pc.2.2
        let pb := calculateStatementComplexityWithPattern body px.2.2
        ((1 + pf.2.1 + pc.2.1 + px.2.1 + pb.1.score + 1,
          pf.1 ++ pc.1 ++ px.1 ++ [pb.1]), pb.2)
    | .forOfStmt _ _ _ declInits iter body =>
        let pd := scoreDeclInitializers declInits ctx
        let pe := calculateExpressionComplexityWithPattern iter pd.2.2
        let pb := calculateStatementComplexityWithPattern body pe.2
        ((1 + pd.2.1 + pe.1.score + pb.1.score + 4/5,
          pd.1 ++ [pe.1, pb.1]), pb.2)
    | .whileStmt _ cond body =>
        let pc := calculateExpressionComplexityWithPattern cond ctx
        let pb := calculateStatementComplexityWithPattern body pc.2
        ((1 + pc.1.score + pb.1.score + 4/5, [pc.1, pb.1]), pb.2)
    | .doStmt _ body cond =>
        let pb := calculateStatementComplexityWithPattern body ctx
        let pc := calculateExpressionComplexityWithPattern cond pb.2
        ((1 + pb.1.score + pc.1.score + 1, [pb.1, pc.1]), pc.2)
    | .switchStmt _ disc clauses =>
        let pc := calculateExpressionComplexityWithPattern disc ctx
        let pk := scoreSwitchClauses clauses pc.2
        ((1 + pc.1.score + pk.2.1 + (clauses.length : Rat) * (1/2),
          pc.1 :: pk.1), pk.2.2)
    | .tryStmt _ tryBlock catchC finallyBlock =>
        let pt :=
          match tryBlock with
          | .mk bid _ stmts => calculateBlockComplexity bid stmts ctx
        let pcat := scoreCatchClause catchC pt.2
        let pfin := scoreFinallyBlock finallyBlock pcat.2.2
        ((1 + pt.1.score + pcat.2.1 + pfin.2.1 + 1,
          pt.1 :: (pcat.1 ++ pfin.1)), pfin.2.2)
    | .throwStmt _ e =>
        let pe := scoreOptionalExpression e ctx
        ((1 + pe.2.1 + 1, pe.1), pe.2.2)
    | .returnStmt _ e =>
        let pe := scoreOptionalExpression e ctx
        ((1 + pe.2.1, pe.1), pe.2.2)
    | .blockStmt bid stmts =>
        let pb := calculateBlockComplexity bid stmts ctx
        ((1 + pb.1.score, [pb.1]), pb.2)
    | .funcDecl _ _ _ _ => ((1, []), ctx)
    | .classDecl _ _ _ => ((1, []), ctx)
    | .interfaceDecl _ _ => ((1, []), ctx)
    | .importDecl _ _ _ _ => ((1, []), ctx)
    | .otherStmt _ => ((1, []), ctx)
  ({ score := p.1.1, nodeType := s.kind, children := p.1.2 },
   { p.2 with currentDepth := p.2.currentDepth - 1 })

/-- The catch-clause block of the try branch: children pushed, and the score
contribution `[0.5 if a variable is bound] + score(catchBlock) + 2`. -/
def scoreCatchClause (o : Option CatchClause) (ctx : Ctx) :
    List ComplexityResult × Rat × Ctx :=
  match o with
  | none => ([], 0, ctx)
  | some (.mk hasVar (.mk bid _ stmts)) =>
      let pb := calculateBlockComplexity bid stmts ctx
      ([pb.1], (if hasVar then 1/2 else 0) + pb.1.score + 2, pb.2)

/-- The finally block of the try branch: `score(finallyBlock) + 1.5`. -/
def scoreFinallyBlock (o : Option Blk) (ctx : Ctx) :
    List ComplexityResult × Rat × Ctx :=
  match o with
  | none => ([], 0, ctx)
  | some (.mk bid _ stmts) =>
      let pb := calculateBlockComplexity bid stmts ctx
      ([pb.1], pb.1.score + 3/2, pb.2)

/-- The clause loop of the switch branch: a case expression is pushed as a
full child but contributes only `0.3 ×` its score; clause-body statements
contribute fully. -/
def scoreSwitchClauses (cs : List SwitchClause) (ctx : Ctx) :
    List ComplexityResult × Rat × Ctx :=
  match cs with
  | [] => ([], 0, ctx)
  | .caseClause e stmts :: rest =>
      let pe := calculateExpressionComplexityWithPattern e ctx
      let ps := scoreStatementList stmts pe.2
      let pr := scoreSwitchClauses rest ps.2.2
      (pe.1 :: (ps.1 ++ pr.1),
       pe.1.score * (3/10) + ps.2.1 + pr.2.1, pr.2.2)
  | .defaultClause stmts :: rest =>
      let ps := scoreStatementList stmts ctx
      let pr := scoreSwitchClauses rest ps.2.2
      (ps.1 ++ pr.1, ps.2.1 + pr.2.1, pr.2.2)

/-- Scores a list of statements in order, summing their scores. -/
def scoreStatementList (ss : List Stmt) (ctx : Ctx) :
    List ComplexityResult × Rat × Ctx :=
  match ss with
  | [] => ([], 0, ctx)
  | s :: rest =>
      let p := calculateStatementComplexityWithPattern s ctx
      let q := scoreStatementList rest p.2
      (p.1 :: q.1, p.1.score + q.2.1, q.2.2)

/-- `calculateBlockComplexity` (complexity.ts lines 1134-1187), applied to a
block with identity `bid` and statement list `stmts`. -/
def calculateBlockComplexity (bid : Nat) (stmts : List Stmt) (ctx : Ctx) :
    ComplexityResult × Ctx :=
  if ctx.currentDepth ≥ ctx.maxDepth then
    (createTruncatedResult .blockNode, ctx)
  else if ctx.visitedNodes.contains bid then
    ({ score := 1, nodeType := .blockNode, children := [], circular := true },
     ctx)
  else
    let ctx1 : Ctx :=
      { ctx with
        visitedNodes := bid :: ctx.visitedNodes
        currentDepth := ctx.currentDepth + 1 }
    let p := scoreStatementList stmts ctx1
    ({ score := 1 + p.2.1 + (stmts.length : Rat) * (1/10),
       nodeType := .blockNode, children := p.1 },
     { p.2.2 with currentDepth := p.2.2.currentDepth - 1 })
end

/-- `calculateStatementComplexity` (complexity.ts): alias of the pattern
implementation. -/
def calculateStatementComplexity (s : Stmt) (ctx : Ctx) :
    ComplexityResult × Ctx :=
  calculateStatementComplexityWithPattern s ctx

/-- The statement loop of `calculateFileComplexity`: each statement is scored
with the shared (mutating) context and its score is weighted by
`fileStatementWeight`. -/
def scoreFileStatements (ss : List Stmt) (ctx : Ctx) :
    List ComplexityResult × Rat × Ctx :=
  match ss with
  | [] => ([], 0, ctx)
  | s :: rest =>
      let p := calculateStatementComplexity s ctx
      let q := scoreFileStatements rest p.2
      (p.1 :: q.1, p.1.score * fileStatementWeight s + q.2.1, q.2.2)

/-- `calculateFileComplexity` (complexity.ts lines 1195-1252): fresh context,
then the weighted statement fold starting from the base score 1. -/
def calculateFileComplexity (file : SourceFileAst) : ComplexityResult :=
  let p := scoreFileStatements file.statements createComplexityContext
  { score := 1 + p.2.1, nodeType := .sourceFileNode, children := p.1 }

end Mono

namespace Split

/-!
The refactored scorer of `src/quality/core/complexity/` (`statement.ts`,
`block.ts`, `file.ts`).  Depth handling is balanced (`try`/`finally` pairs),
the `let` penalty is the multiplier `1 + 0.5 × declarationCount`, and the
statement dispatch (`selectStatementCalculator`) only recognizes expression,
variable, `if`, loop and block statements — every other statement kind falls
back to the base score 1.
-/

/-- `calculateExpressionStatementNodeComplexity` (statement.ts). -/
def calculateExpressionStatementNodeComplexity (s : Expr) (ctx : Ctx) :
    ComplexityResult × Ctx :=
  let pe := calculateExpressionComplexityWithPattern s ctx
  ({ score := 1 + pe.1.score, nodeType := .expressionStatement,
     children := [pe.1] }, pe.2)

/-- `calculateVariableStatementNodeComplexity` (statement.ts lines 196-236):
`1 + Σ score(initializer)`, multiplied by `1 + 0.5 × declarationCount` when
the declaration list is a `let` list. -/
def calculateVariableStatementNodeComplexity (isLet : Bool)
    (decls : List VarDecl) (ctx : Ctx) : ComplexityResult × Ctx :=
  let declarationCount := decls.length
  let pd := scoreDeclInitializers decls ctx
  let score := 1 + pd.2.1
  let letMultiplier : Rat := 1 + (declarationCount : Rat) * (1/2)
  ({ score := if isLet then score * letMultiplier else score,
     nodeType := .variableStatement, children := pd.1 }, pd.2.2)

mutual
/-- `calculateStatementComplexityWithPattern` (statement.ts lines 80-101):
early-return guards, then visit, descend, and restore the depth in a
`finally`. -/
def calculateStatementComplexityWithPattern (s : Stmt) (ctx : Ctx) :
    ComplexityResult × Ctx :=
  if ctx.currentDepth ≥ ctx.maxDepth then
    (createTruncatedResult s.kind, ctx)
  else if ctx.visitedNodes.contains s.nodeId then
    (createCircularReferenceStatementResult s, ctx)
  else
    let ctx1 : Ctx :=
      { ctx with
        visitedNodes := s.nodeId :: ctx.visitedNodes
        currentDepth := ctx.currentDepth + 1 }
    let p := calculateStatementNodeComplexity s ctx1
    (p.1, { p.2 with currentDepth := p.2.currentDepth - 1 })

/-- `calculateStatementNodeComplexity` (statement.ts lines 485-500): bumps
the depth once more around the selected calculator and restores it. -/
def calculateStatementNodeComplexity (s : Stmt) (ctx : Ctx) :
    ComplexityResult × Ctx :=
  let ctx1 : Ctx := { ctx with currentDepth := ctx.currentDepth + 1 }
  let p := selectStatementCalculator s ctx1
  (p.1, { p.2 with currentDepth := p.2.currentDepth - 1 })

/-- `selectStatementCalculator` (statement.ts lines 434-477) together with
the immediate invocation of the selected calculator. -/
def selectStatementCalculator (s : Stmt) (ctx : Ctx) :
    ComplexityResult × Ctx :=
  match s with
  | .exprStmt _ e => calculateExpressionStatementNodeComplexity e ctx
  | .varStmt _ isLet decls =>
      calculateVariableStatementNodeComplexity isLet decls ctx
  | .ifStmt _ cond thenS elseS =>
      let pc := calculateExpressionComplexityWithPattern cond ctx
      let pt := calculateStatementComplexityWithPattern thenS pc.2
      (match elseS with
       | some els =>
           let pe := calculateStatementComplexityWithPattern els pt.2
           ({ score := 1 + pc.1.score + pt.1.score + pe.1.score + 1/2,
              nodeType := .ifStatement, children := [pc.1, pt.1, pe.1] },
            pe.2)
       | none =>
           ({ score := 1 + pc.1.score + pt.1.score + 1/2,
              nodeType := .ifStatement, children := [pc.1, pt.1] }, pt.2))
  | .forStmt _ finit cond incr body =>
      let pf := scoreForInitializer finit ctx
      let pc := scoreOptionalExpression cond pf.2.2
      let px := scoreOptionalExpression incr pc.2.2
      let pb := calculateStatementComplexityWithPattern body px.2.2
      ({ score := 1 + pf.2.1 + pc.2.1 + px.2.1 + 1 + pb.1.score,
         nodeType := .forStatement,
         children := pf.1 ++ pc.1 ++ px.1 ++ [pb.1] }, pb.2)
  | .forOfStmt _ isForIn _ declInits iter body =>
      let pd := scoreDeclInitializers declInits ctx
      let pe := calculateExpressionComplexityWithPattern iter pd.2.2
      let pb := calculateStatementComplexityWithPattern body pe.2
      ({ score := 1 + pd.2.1 + pe.1.score + 4/5 + pb.1.score,
         nodeType := if isForIn then .forInStatement else .forOfStatement,
         children := pd.1 ++ [pe.1, pb.1] }, pb.2)
  | .whileStmt _ cond body =>
      let pc := calculateExpressionComplexityWithPattern cond ctx
      let pb := calculateStatementComplexityWithPattern body pc.2
      ({ score := 1 + pc.1.score + 4/5 + pb.1.score,
         nodeType := .whileStatement, children := [pc.1, pb.1] }, pb.2)
  | .doStmt _ body cond =>
      let pc := calculateExpressionComplexityWithPattern cond ctx
      let pb := calculateStatementComplexityWithPattern body pc.2
      ({ score := 1 + pc.1.score + 1 + pb.1.score,
         nodeType := .doStatement, children := [pc.1, pb.1] }, pb.2)
  | .blockStmt bid stmts =>
      let pb := calculateBlockComplexity bid stmts ctx
      ({ score := 1 + pb.1.score, nodeType := .blockNode,
         children := [pb.1] }, pb.2)
  | s =>
      ({ score := 1, nodeType := s.kind, children := [] }, ctx)

/-- Scores a list of statements in order, summing their scores. -/
def scoreStatementList (ss : List Stmt) (ctx : Ctx) :
    List ComplexityResult × Rat × Ctx :=
  match ss with
  | [] => ([], 0, ctx)
  | s :: rest =>
      let p := calculateStatementComplexityWithPattern s ctx
      let q := scoreStatementList rest p.2
      (p.1 :: q.1, p.1.score + q.2.1, q.2.2)

/-- `calculateBlockComplexity` (block.ts lines 23-68). -/
def calculateBlockComplexity (bid : Nat) (stmts : List Stmt) (ctx : Ctx) :
    ComplexityResult × Ctx :=
  if ctx.currentDepth ≥ ctx.maxDepth then
    (createTruncatedResult .blockNode, ctx)
  else if ctx.visitedNodes.contains bid then
    ({ score := 1, nodeType := .blockNode, children := [], circular := true },
     ctx)
  else
    let ctx1 : Ctx :=
      { ctx with
        visitedNodes := bid :: ctx.visitedNodes
        currentDepth := ctx.currentDepth + 1 }
    let p := scoreStatementList stmts ctx1
    ({ score := 1 + p.2.1 + (stmts.length : Rat) * (1/10),
       nodeType := .blockNode, children := p.1 },
     { p.2.2 with currentDepth := p.2.2.currentDepth - 1 })
end

/-- `calculateStatementComplexity` (statement.ts): alias of the pattern
implementation. -/
def calculateStatementComplexity (s : Stmt) (ctx : Ctx) :
    ComplexityResult × Ctx :=
  calculateStatementComplexityWithPattern s ctx

/-- The weighted statement loop of `calculateFileComplexity` (file.ts). -/
def scoreFileStatements (ss : List Stmt) (ctx : Ctx) :
    List ComplexityResult × Rat × Ctx :=
  match ss with
  | [] => ([], 0, ctx)
  | s :: rest =>
      let p := calculateStatementComplexity s ctx
      let q := scoreFileStatements rest p.2
      (p.1 :: q.1, p.1.score * fileStatementWeight s + q.2.1, q.2.2)

/-- `calculateFileComplexity` (file.ts lines 162-219 of the utils.ts bundle):
fresh context, then the weighted statement fold from the base score 1. -/
def calculateFileComplexity (file : SourceFileAst) : ComplexityResult :=
  let p := scoreFileStatements file.statements createComplexityContext
  { score := 1 + p.2.1, nodeType := .sourceFileNode, children := p.1 }

end Split

namespace Metrics

/-!
The flat-metrics analyzer of `src/quality/core/` (`parser.ts` providing
`countScopeSymbols`, `trackVariableMutations` and `visitNode`, and
`metrics.ts` providing `initializeMetrics`, `addHotspot`, its own
`calculateExpressionComplexity`, `analyzeCodeComplexity` and
`calculateComplexityScore`), plus the comparator of `comparator.ts`.
Hotspot entries keep the node kind and score; their source line and reason
string are facade position data / display text, not modelled.
-/

/-- One hotspot entry of `CodeComplexityMetrics`. -/
structure Hotspot where
  nodeType : NodeKind
  score : Rat
  deriving DecidableEq, Repr

/-- `CodeComplexityMetrics` (types.ts). -/
structure CodeComplexityMetrics where
  totalScore : Rat
  variableMutabilityScore : Rat
  scopeComplexityScore : Rat
  assignmentScore : Rat
  functionComplexityScore : Rat
  conditionalComplexityScore : Rat
  exceptionHandlingScore : Rat
  hotspots : List Hotspot
  deriving Repr

/-- `ComplexityWeights` (types.ts). -/
structure ComplexityWeights where
  variableMutabilityWeight : Rat
  scopeComplexityWeight : Rat
  assignmentWeight : Rat
  functionComplexityWeight : Rat
  conditionalComplexityWeight : Rat
  exceptionHandlingWeight : Rat
  deriving Repr

/-- `DEFAULT_COMPLEXITY_WEIGHTS` (types.ts). -/
def DEFAULT_COMPLEXITY_WEIGHTS : ComplexityWeights :=
  { variableMutabilityWeight := 3/2
    scopeComplexityWeight := 1
    assignmentWeight := 6/5
    functionComplexityWeight := 1
    conditionalComplexityWeight := 2
    exceptionHandlingWeight := 3/2 }

/-- `initializeMetrics` (metrics.ts): base total score 1, all category
scores 0, no hotspots. -/
def initializeMetrics : CodeComplexityMetrics :=
  { totalScore := 1
    variableMutabilityScore := 0
    scopeComplexityScore := 0
    assignmentScore := 0
    functionComplexityScore := 0
    conditionalComplexityScore := 0
    exceptionHandlingScore := 0
    hotspots := [] }

/-- `addHotspot` (metrics.ts lines 184-202): records the entry only when the
score is at least the fixed cutoff 3. -/
def addHotspot (m : CodeComplexityMetrics) (kind : NodeKind) (score : Rat) :
    CodeComplexityMetrics :=
  if 3 ≤ score then
    { m with hotspots := m.hotspots ++ [⟨kind, score⟩] }
  else m

/-- The paired `variableMutabilityScore += s; totalScore += s` update. -/
def addVariableMutability (m : CodeComplexityMetrics) (s : Rat) :
    CodeComplexityMetrics :=
  { m with variableMutabilityScore := m.variableMutabilityScore + s
           totalScore := m.totalScore + s }

/-- The paired `scopeComplexityScore += s; totalScore += s` update. -/
def addScope (m : CodeComplexityMetrics) (s : Rat) : CodeComplexityMetrics :=
  { m with scopeComplexityScore := m.scopeComplexityScore + s
           totalScore := m.totalScore + s }

/-- The paired `assignmentScore += s; totalScore += s` update. -/
def addAssignment (m : CodeComplexityMetrics) (s : Rat) :
    CodeComplexityMetrics :=
  { m with assignmentScore := m.assignmentScore + s
           totalScore := m.totalScore + s }

/-- The paired `functionComplexityScore += s; totalScore += s` update. -/
def addFunction (m : CodeComplexityMetrics) (s : Rat) :
    CodeComplexityMetrics :=
  { m with functionComplexityScore := m.functionComplexityScore + s
           totalScore := m.totalScore + s }

/-- The paired `conditionalComplexityScore += s; totalScore += s` update. -/
def addConditional (m : CodeComplexityMetrics) (s : Rat) :
    CodeComplexityMetrics :=
  { m with conditionalComplexityScore := m.conditionalComplexityScore + s
           totalScore := m.totalScore + s }

/-- The paired `exceptionHandlingScore += s; totalScore += s` update. -/
def addException (m : CodeComplexityMetrics) (s : Rat) :
    CodeComplexityMetrics :=
  { m with exceptionHandlingScore := m.exceptionHandlingScore + s
           totalScore := m.totalScore + s }

mutual
/-- The snippet-local `calculateExpressionComplexity` of metrics.ts (lines
204-274): unlike the tree scorer it adds nothing for non-logical,
non-comparison binary operators, and returns a bare number. -/
def calculateExpressionComplexity : Expr → Rat
  | .binary _ op l r =>
      1 + calculateExpressionComplexity l + calculateExpressionComplexity r +
        (match op with
         | .logicalAnd => 1/2
         | .logicalOr => 1/2
         | .comparison => 3/10
         | _ => 0)
  | .prefixUnary _ op e =>
      1 + calculateExpressionComplexity e +
        (if op = .bang then 3/10 else 0)
  | .postfixUnary _ e => 1 + calculateExpressionComplexity e
  | .conditional _ c t f =>
      1 + calculateExpressionComplexity c + calculateExpressionComplexity t +
        calculateExpressionComplexity f + 1
  | .call _ callee args =>
      1 + calculateExpressionComplexity callee + sumArgsComplexity args
  | .propertyAccess _ o _ => 1 + calculateExpressionComplexity o
  | .elementAccess _ o i =>
      1 + calculateExpressionComplexity o + calculateExpressionComplexity i
  | _ => 1

/-- The argument loop of the call branch. -/
def sumArgsComplexity : List Expr → Rat
  | [] => 0
  | e :: es => calculateExpressionComplexity e + sumArgsComplexity es
end

mutual
/-- `countScopeSymbols` (parser.ts lines 30-51) restricted to one statement:
counts variable declarations, parameters, function, class and interface
declarations in the subtree.  (Class and interface members and TypeScript
type aliases are not modelled, so a class or interface contributes 1.) -/
def countScopeSymbolsStmt : Stmt → Nat
  | .exprStmt _ _ => 0
  | .varStmt _ _ decls => decls.length
  | .ifStmt _ _ t e => countScopeSymbolsStmt t + countScopeSymbolsOptStmt e
  | .forStmt _ finit _ _ body =>
      countScopeSymbolsForInit finit + countScopeSymbolsStmt body
  | .forOfStmt _ _ _ decls _ body => decls.length + countScopeSymbolsStmt body
  | .whileStmt _ _ body => countScopeSymbolsStmt body
  | .doStmt _ body _ => countScopeSymbolsStmt body
  | .switchStmt _ _ clauses => countScopeSymbolsClauses clauses
  | .tryStmt _ (.mk _ _ ss) c f =>
      countScopeSymbolsList ss + countScopeSymbolsCatch c +
        countScopeSymbolsFinally f
  | .throwStmt _ _ => 0
  | .returnStmt _ _ => 0
  | .blockStmt _ ss => countScopeSymbolsList ss
  | .funcDecl _ params body _ => 1 + params + countScopeSymbolsList body
  | .classDecl _ _ _ => 1
  | .interfaceDecl _ _ => 1
  | .importDecl _ _ _ _ => 0
  | .otherStmt _ => 0

/-- Symbol count of a statement list. -/
def countScopeSymbolsList : List Stmt → Nat
  | [] => 0
  | s :: rest => countScopeSymbolsStmt s + countScopeSymbolsList rest

/-- Symbol count of an optional statement. -/
def countScopeSymbolsOptStmt : Option Stmt → Nat
  | none => 0
  | some s => countScopeSymbolsStmt s

/-- Symbol count of a `for` initializer. -/
def countScopeSymbolsForInit : Option ForInit → Nat
  | none => 0
  | some (.declList _ ds) => ds.length
  | some (.exprInit _) => 0

/-- Symbol count of switch clauses. -/
def countScopeSymbolsClauses : List SwitchClause → Nat
  | [] => 0
  | .caseClause _ ss :: rest =>
      countScopeSymbolsList ss + countScopeSymbolsClauses rest
  | .defaultClause ss :: rest =>
      countScopeSymbolsList ss + countScopeSymbolsClauses rest

/-- Symbol count of an optional catch clause (the bound catch variable is a
`VariableDeclaration` node and counts). -/
def countScopeSymbolsCatch : Option CatchClause → Nat
  | none => 0
  | some (.mk hasVar (.mk _ _ ss)) =>
      (if hasVar then 1 else 0) + countScopeSymbolsList ss

/-- Symbol count of an optional finally block. -/
def countScopeSymbolsFinally : Option Blk → Nat
  | none => 0
  | some (.mk _ _ ss) => countScopeSymbolsList ss
end

/-- `countScopeSymbols` applied to the whole source file. -/
def countScopeSymbolsFile (file : SourceFileAst) : Nat :=
  countScopeSymbolsList file.statements

/-- `VariableMutationMap` (types.ts), as an association list. -/
def MutationMap : Type := List (String × Nat)

/-- `mutationMap.get(name) || 0`. -/
def getMutations (m : MutationMap) (name : String) : Nat :=
  match List.find? (fun p => p.1 == name) m with
  | some p => p.2
  | none => 0

/-- `mutationMap.set(name, (mutationMap.get(name) || 0) + 1)`. -/
def bumpMutation (m : MutationMap) (name : String) : MutationMap :=
  match m with
  | [] => [(name, 1)]
  | p :: rest =>
      if p.1 == name then (p.1, p.2 + 1) :: rest
      else p :: bumpMutation rest name

/-- The mutation-detection step of `trackVariableMutations` (parser.ts lines
58-124) at one node: plain assignment to an identifier or to a property of
an identifier, compound assignment to an identifier, and prefix/postfix
increment or decrement of an identifier. -/
def detectMutation (e : Expr) (m : MutationMap) : MutationMap :=
  match e with
  | .binary _ .assign (.identifier _ name) _ => bumpMutation m name
  | .binary _ .assign (.propertyAccess _ (.identifier _ objName) propName) _ =>
      bumpMutation m (objName ++ "." ++ propName)
  | .binary _ .compoundAssign (.identifier _ name) _ => bumpMutation m name
  | .prefixUnary _ .preIncDec (.identifier _ name) => bumpMutation m name
  | .postfixUnary _ (.identifier _ name) => bumpMutation m name
  | _ => m

mutual
/-- `trackVariableMutations` over an expression: detect at this node, then
recurse into the children. -/
def trackExpr (e : Expr) (m : MutationMap) : MutationMap :=
  let m1 := detectMutation e m
  match e with
  | .binary _ _ l r => trackExpr r (trackExpr l m1)
  | .prefixUnary _ _ o => trackExpr o m1
  | .postfixUnary _ o => trackExpr o m1
  | .conditional _ c t f => trackExpr f (trackExpr t (trackExpr c m1))
  | .call _ callee args => trackExprList args (trackExpr callee m1)
  | .propertyAccess _ o _ => trackExpr o m1
  | .elementAccess _ o i => trackExpr i (trackExpr o m1)
  | .objectLiteral _ props => trackProps props m1
  | .arrayLiteral _ elems => trackExprList elems m1
  | .identifier _ _ => m1
  | .otherExpr _ => m1

/-- Mutation tracking over an expression list. -/
def trackExprList (es : List Expr) (m : MutationMap) : MutationMap :=
  match es with
  | [] => m
  | e :: rest => trackExprList rest (trackExpr e m)

/-- Mutation tracking over object-literal members. -/
def trackProps (ps : List ObjectProp) (m : MutationMap) : MutationMap :=
  match ps with
  | [] => m
  | .propertyAssignment init :: rest => trackProps rest (trackExpr init m)
  | .otherProp :: rest => trackProps rest m
end

mutual
/-- `trackVariableMutations` over a statement. -/
def trackStmt (s : Stmt) (m : MutationMap) : MutationMap :=
  match s with
  | .exprStmt _ e => trackExpr e m
  | .varStmt _ _ decls => trackDecls decls m
  | .ifStmt _ cond t e =>
      trackOptStmt e (trackStmt t (trackExpr cond m))
  | .forStmt _ finit cond incr body =>
      trackStmt body (trackOptExpr incr (trackOptExpr cond
        (trackForInit finit m)))
  | .forOfStmt _ _ _ decls iter body =>
      trackStmt body (trackExpr iter (trackDecls decls m))
  | .whileStmt _ cond body => trackStmt body (trackExpr cond m)
  | .doStmt _ body cond => trackExpr cond (trackStmt body m)
  | .switchStmt _ disc clauses => trackClauses clauses (trackExpr disc m)
  | .tryStmt _ (.mk _ _ ss) c f =>
      trackFinally f (trackCatch c (trackStmtList ss m))
  | .throwStmt _ e => trackOptExpr e m
  | .returnStmt _ e => trackOptExpr e m
  | .blockStmt _ ss => trackStmtList ss m
  | .funcDecl _ _ body _ => trackStmtList body m
  | .classDecl _ _ _ => m
  | .interfaceDecl _ _ => m
  | .importDecl _ _ _ _ => m
  | .otherStmt _ => m

/-- Mutation tracking over a statement list. -/
def trackStmtList (ss : List Stmt) (m : MutationMap) : MutationMap :=
  match ss with
  | [] => m
  | s :: rest => trackStmtList rest (trackStmt s m)

/-- Mutation tracking over an optional statement. -/
def trackOptStmt (o : Option Stmt) (m : MutationMap) : MutationMap :=
  match o with
  | none => m
  | some s => trackStmt s m

/-- Mutation tracking over an optional expression. -/
def trackOptExpr (o : Option Expr) (m : MutationMap) : MutationMap :=
  match o with
  | none => m
  | some e => trackExpr e m

/-- Mutation tracking over variable declarations (initializers only). -/
def trackDecls (ds : List VarDecl) (m : MutationMap) : MutationMap :=
  match ds with
  | [] => m
  | d :: rest => trackDecls rest (trackOptExpr d.init m)

/-- Mutation tracking over a `for` initializer. -/
def trackForInit (o : Option ForInit) (m : MutationMap) : MutationMap :=
  match o with
  | none => m
  | some (.declList _ ds) => trackDecls ds m
  | some (.exprInit e) => trackExpr e m

/-- Mutation tracking over switch clauses. -/
def trackClauses (cs : List SwitchClause) (m : MutationMap) : MutationMap :=
  match cs with
  | [] => m
  | .caseClause e ss :: rest => trackClauses rest (trackStmtList ss (trackExpr e m))
  | .defaultClause ss :: rest => trackClauses rest (trackStmtList ss m)

/-- Mutation tracking over an optional catch clause. -/
def trackCatch (o : Option CatchClause) (m : MutationMap) : MutationMap :=
  match o with
  | none => m
  | some (.mk _ (.mk _ _ ss)) => trackStmtList ss m

/-- Mutation tracking over an optional finally block. -/
def trackFinally (o : Option Blk) (m : MutationMap) : MutationMap :=
  match o with
  | none => m
  | some (.mk _ _ ss) => trackStmtList ss m
end

/-- `trackVariableMutations` over the whole source file. -/
def trackFile (file : SourceFileAst) (m : MutationMap) : MutationMap :=
  trackStmtList file.statements m

/-- The function-complexity branch of `visitNode` (parser.ts lines 209-257):
body complexity from top-level expression and return statements, an
estimated call count `max(1, ceil(bodyComplexity / 2))`, and the product
score. -/
def functionBranchScore (params : Nat) (body : List Stmt) : Rat :=
  let bodyComplexity : Rat := 1 +
    (body.map (fun s =>
      match s with
      | .exprStmt _ e => calculateExpressionComplexity e
      | .returnStmt _ (some e) => calculateExpressionComplexity e
      | _ => 0)).sum
  let estimatedCallCount : Int := max 1 (Int.ceil (bodyComplexity / 2))
  (estimatedCallCount : Rat) * (bodyComplexity + (params : Rat))

/-- The try-statement branch of `visitNode` (parser.ts lines 311-354):
1 plus half the try block's line span, plus catch and finally surcharges. -/
def tryBranchScore (tryLines : Nat) (c : Option CatchClause)
    (f : Option Blk) : Rat :=
  1 + (tryLines : Rat) * (1/2) +
    (match c with
     | none => 0
     | some (.mk hasVar _) => 2 + (if hasVar then 1/2 else 0)) +
    (match f with
     | none => 0
     | some _ => 3/2)

/-- The scope branch of `visitNode` (parser.ts lines 182-198) shared by
blocks and the source file: `symbolCount * 0.5` into the scope score, with a
hotspot when more than 5 symbols are in scope. -/
def scopeBranch (m : CodeComplexityMetrics) (kind : NodeKind)
    (symbolCount : Nat) : CodeComplexityMetrics :=
  let score : Rat := (symbolCount : Rat) * (1/2)
  let m1 := addScope m score
  if 5 < symbolCount then addHotspot m1 kind score else m1

/-- The variable-declaration branch of `visitNode` (parser.ts lines 152-179)
for one declaration of a `let` list. -/
def variableDeclarationBranch (mm : MutationMap) (m : CodeComplexityMetrics)
    (isLet : Bool) (d : VarDecl) : CodeComplexityMetrics :=
  if isLet then
    match d.name with
    | some name =>
        let mutations := getMutations mm name
        if 0 < mutations then
          addHotspot (addVariableMutability m (mutations : Rat))
            .variableDeclaration (mutations : Rat)
        else m
    | none => m
  else m

mutual
/-- `visitNode` (parser.ts lines 137-369) over an expression: the assignment
branch fires at plain-assignment binary expressions, then the traversal
recurses into the children. -/
def visitExpr (mm : MutationMap) (e : Expr) (m : CodeComplexityMetrics) :
    CodeComplexityMetrics :=
  let m1 :=
    match e with
    | .binary _ .assign _ _ => addAssignment m 1
    | _ => m
  match e with
  | .binary _ _ l r => visitExpr mm r (visitExpr mm l m1)
  | .prefixUnary _ _ o => visitExpr mm o m1
  | .postfixUnary _ o => visitExpr mm o m1
  | .conditional _ c t f => visitExpr mm f (visitExpr mm t (visitExpr mm c m1))
  | .call _ callee args => visitExprList mm args (visitExpr mm callee m1)
  | .propertyAccess _ o _ => visitExpr mm o m1
  | .elementAccess _ o i => visitExpr mm i (visitExpr mm o m1)
  | .objectLiteral _ props => visitProps mm props m1
  | .arrayLiteral _ elems => visitExprList mm elems m1
  | .identifier _ _ => m1
  | .otherExpr _ => m1

/-- `visitNode` over an expression list. -/
def visitExprList (mm : MutationMap) (es : List Expr)
    (m : CodeComplexityMetrics) : CodeComplexityMetrics :=
  match es with
  | [] => m
  | e :: rest => visitExprList mm rest (visitExpr mm e m)

/-- `visitNode` over object-literal members. -/
def visitProps (mm : MutationMap) (ps : List ObjectProp)
    (m : CodeComplexityMetrics) : CodeComplexityMetrics :=
  match ps with
  | [] => m
  | .propertyAssignment init :: rest => visitProps mm rest (visitExpr mm init m)
  | .otherProp :: rest => visitProps mm rest m
end

mutual
/-- `visitNode` over a statement: the per-kind branches of parser.ts fire at
the matching nodes and the traversal recurses into every child, including
each block child (where the scope branch fires) and each variable
declaration (where the mutability branch fires). -/
def visitStmt (mm : MutationMap) (s : Stmt) (m : CodeComplexityMetrics) :
    CodeComplexityMetrics :=
  match s with
  | .exprStmt _ e => visitExpr mm e m
  | .varStmt _ isLet decls => visitDecls mm isLet decls m
  | .ifStmt _ cond t e =>
      let complexity := calculateExpressionComplexity cond
      let m1 := addConditional m complexity
      let m2 := if 2 < complexity then addHotspot m1 .ifStatement complexity
                else m1
      visitOptStmt mm e (visitStmt mm t (visitExpr mm cond m2))
  | .forStmt _ finit cond incr body =>
      visitStmt mm body (visitOptExpr mm incr (visitOptExpr mm cond
        (visitForInit mm finit m)))
  | .forOfStmt _ _ declIsLet decls iter body =>
      visitStmt mm body (visitExpr mm iter (visitDecls mm declIsLet decls m))
  | .whileStmt _ cond body => visitStmt mm body (visitExpr mm cond m)
  | .doStmt _ body cond => visitExpr mm cond (visitStmt mm body m)
  | .switchStmt _ disc clauses =>
      let caseCount := clauses.length
      let score : Rat := (caseCount : Rat) * (1/2)
      let m1 := addConditional m score
      let m2 := if 5 < caseCount then addHotspot m1 .switchStatement score
                else m1
      visitClauses mm clauses (visitExpr mm disc m2)
  | .tryStmt _ (.mk _ tryLines ss) c f =>
      let score := tryBranchScore tryLines c f
      let m1 := addException m score
      let m2 := if 5 < score then addHotspot m1 .tryStatement score else m1
      visitFinally mm f (visitCatch mm c (visitBlockStmts mm ss m2))
  | .throwStmt _ e =>
      let score : Rat := 1 +
        (match e with
         | some ex => calculateExpressionComplexity ex
         | none => 0)
      visitOptExpr mm e (addException m score)
  | .returnStmt _ e => visitOptExpr mm e m
  | .blockStmt _ ss =>
      visitStmtList mm ss (scopeBranch m .blockNode (countScopeSymbolsList ss))
  | .funcDecl _ params body _ =>
      let score := functionBranchScore params body
      let m1 := addFunction m score
      let m2 := if 5 < score then addHotspot m1 .functionDeclaration score
                else m1
      visitBlockStmts mm body m2
  | .classDecl _ _ _ => m
  | .interfaceDecl _ _ => m
  | .importDecl _ _ _ _ => m
  | .otherStmt _ => m

/-- `visitNode` over a statement list. -/
def visitStmtList (mm : MutationMap) (ss : List Stmt)
    (m : CodeComplexityMetrics) : CodeComplexityMetrics :=
  match ss with
  | [] => m
  | s :: rest => visitStmtList mm rest (visitStmt mm s m)

/-- `visitNode` over a block node that is not itself a statement (try /
catch / finally bodies and function bodies): the scope branch fires at the
block, then the statements are visited. -/
def visitBlockStmts (mm : MutationMap) (ss : List Stmt)
    (m : CodeComplexityMetrics) : CodeComplexityMetrics :=
  visitStmtList mm ss (scopeBranch m .blockNode (countScopeSymbolsList ss))

/-- `visitNode` over an optional statement. -/
def visitOptStmt (mm : MutationMap) (o : Option Stmt)
    (m : CodeComplexityMetrics) : CodeComplexityMetrics :=
  match o with
  | none => m
  | some s => visitStmt mm s m

/-- `visitNode` over an optional expression. -/
def visitOptExpr (mm : MutationMap) (o : Option Expr)
    (m : CodeComplexityMetrics) : CodeComplexityMetrics :=
  match o with
  | none => m
  | some e => visitExpr mm e m

/-- `visitNode` over the declarations of one declaration list: the
mutability branch fires at each declaration, then its initializer is
visited. -/
def visitDecls (mm : MutationMap) (isLet : Bool) (ds : List VarDecl)
    (m : CodeComplexityMetrics) : CodeComplexityMetrics :=
  match ds with
  | [] => m
  | d :: rest =>
      visitDecls mm isLet rest
        (visitOptExpr mm d.init (variableDeclarationBranch mm m isLet d))

/-- `visitNode` over a `for` initializer. -/
def visitForInit (mm : MutationMap) (o : Option ForInit)
    (m : CodeComplexityMetrics) : CodeComplexityMetrics :=
  match o with
  | none => m
  | some (.declList isLet ds) => visitDecls mm isLet ds m
  | some (.exprInit e) => visitExpr mm e m

/-- `visitNode` over switch clauses. -/
def visitClauses (mm : MutationMap) (cs : List SwitchClause)
    (m : CodeComplexityMetrics) : CodeComplexityMetrics :=
  match cs with
  | [] => m
  | .caseClause e ss :: rest =>
      visitClauses mm rest (visitStmtList mm ss (visitExpr mm e m))
  | .defaultClause ss :: rest => visitClauses mm rest (visitStmtList mm ss m)

/-- `visitNode` over an optional catch clause (its block is a block node). -/
def visitCatch (mm : MutationMap) (o : Option CatchClause)
    (m : CodeComplexityMetrics) : CodeComplexityMetrics :=
  match o with
  | none => m
  | some (.mk _ (.mk _ _ ss)) => visitBlockStmts mm ss m

/-- `visitNode` over an optional finally block. -/
def visitFinally (mm : MutationMap) (o : Option Blk)
    (m : CodeComplexityMetrics) : CodeComplexityMetrics :=
  match o with
  | none => m
  | some (.mk _ _ ss) => visitBlockStmts mm ss m
end

/-- `visitNode` at the source-file root: the scope branch fires at the
`SourceFile` node, then every statement is visited. -/
def visitFile (mm : MutationMap) (file : SourceFileAst)
    (m : CodeComplexityMetrics) : CodeComplexityMetrics :=
  visitStmtList mm file.statements
    (scopeBranch m .sourceFileNode (countScopeSymbolsFile file))

/-- `analyzeCodeComplexity` (metrics.ts lines 281-303), taking the parsed
file (`createSourceFile` is the external parser): track mutations, visit the
tree, and sort the hotspots by score descending. -/
def analyzeCodeComplexity (file : SourceFileAst) : CodeComplexityMetrics :=
  let mm := trackFile file []
  let m := visitFile mm file initializeMetrics
  { m with hotspots := sortScoreDesc Hotspot.score m.hotspots }

/-- `calculateComplexityScore` (metrics.ts lines 311-323): the weighted sum
of the six category scores (lower is better). -/
def calculateComplexityScore (m : CodeComplexityMetrics)
    (w : ComplexityWeights) : Rat :=
  m.variableMutabilityScore * w.variableMutabilityWeight +
    m.scopeComplexityScore * w.scopeComplexityWeight +
    m.assignmentScore * w.assignmentWeight +
    m.functionComplexityScore * w.functionComplexityWeight +
    m.conditionalComplexityScore * w.conditionalComplexityWeight +
    m.exceptionHandlingScore * w.exceptionHandlingWeight

/-- The verdict of `compareCodeComplexity`. -/
inductive BetterCode where
  | A
  | B
  | NEITHER
  deriving DecidableEq, Repr

/-- `ComplexityComparisonResult` (types.ts). -/
structure ComplexityComparisonResult where
  metricsA : CodeComplexityMetrics
  metricsB : CodeComplexityMetrics
  scoreA : Rat
  scoreB : Rat
  betterCode : BetterCode
  deriving Repr

/-- `compareCodeComplexity` (comparator.ts lines 55-83), over parsed
snippets: analyze both independently, reduce each to the weighted scalar,
verdict `A` iff `scoreA < scoreB`, `B` iff `scoreB < scoreA`, else
`NEITHER`. -/
def compareCodeComplexity (codeA codeB : SourceFileAst)
    (w : ComplexityWeights) : ComplexityComparisonResult :=
  let metricsA := analyzeCodeComplexity codeA
  let metricsB := analyzeCodeComplexity codeB
  let scoreA := calculateComplexityScore metricsA w
  let scoreB := calculateComplexityScore metricsB w
  let betterCode : BetterCode :=
    if scoreA < scoreB then .A
    else if scoreB < scoreA then .B
    else .NEITHER
  { metricsA := metricsA
    metricsB := metricsB
    scoreA := scoreA
    scoreB := scoreB
    betterCode := betterCode }

end Metrics

/-- Every recorded hotspot meets the fixed cutoff 3. -/
def MetricsHotOk (m : Metrics.CodeComplexityMetrics) : Prop :=
  ∀ h ∈ m.hotspots, 3 ≤ h.score

mutual
/-- Depth-first pre-order list of all nodes of a result tree, root first. -/
def preorderNodes : ComplexityResult → List ComplexityResult
  | .mk score nodeType children truncated circular =>
      .mk score nodeType children truncated circular :: preorderForest children

/-- Pre-order lists of a forest, concatenated in order. -/
def preorderForest : List ComplexityResult → List ComplexityResult
  | [] => []
  | r :: rs => preorderNodes r ++ preorderForest rs
end

mutual
/-- `extractHotspots` (utils.ts lines 15-33): collect the node itself when
`score >= threshold`, recursively collect from the children (each recursive
call sorts its own sublist), and sort the collected list by score
descending. -/
def extractHotspots : ComplexityResult → Rat → List ComplexityResult
  | .mk score nodeType children truncated circular, threshold =>
      sortScoreDesc ComplexityResult.score
        ((if threshold ≤ score then
            [ComplexityResult.mk score nodeType children truncated circular]
          else []) ++
          extractHotspotsChildren children threshold)

/-- The child loop of `extractHotspots`. -/
def extractHotspotsChildren : List ComplexityResult → Rat → List ComplexityResult
  | [], _ => []
  | c :: cs, threshold =>
      extractHotspots c threshold ++ extractHotspotsChildren cs threshold
end

/-- One entry of the flattened tree (`flattenComplexityResult` projects each
node to `nodeType`, `score`, `lineInfo` and `metadata`; the latter two are
facade position data and diagnostics, not modelled). -/
structure FlatEntry where
  nodeType : NodeKind
  score : Rat
  deriving DecidableEq, Repr

mutual
/-- `flattenComplexityResult` (utils.ts lines 40-69): depth-first pre-order
projection of every node, root first. -/
def flattenComplexityResult : ComplexityResult → List FlatEntry
  | .mk score nodeType children _ _ =>
      ⟨nodeType, score⟩ :: flattenChildren children

/-- The child loop of `flattenComplexityResult`. -/
def flattenChildren : List ComplexityResult → List FlatEntry
  | [] => []
  | c :: cs => flattenComplexityResult c ++ flattenChildren cs
end

mutual
/-- The `processNode` closure of `summarizeComplexityResult`: threads the
`(nodeCount, maxDepth)` accumulator, raising `maxDepth` to the current depth
at every node and counting one per child. -/
def processNode : ComplexityResult → Nat → Nat × Nat → Nat × Nat
  | .mk _ _ children _ _, depth, acc =>
      processNodeChildren children depth (acc.1, max acc.2 depth)

/-- The child loop of `processNode`. -/
def processNodeChildren : List ComplexityResult → Nat → Nat × Nat → Nat × Nat
  | [], _, acc => acc
  | c :: cs, depth, acc =>
      processNodeChildren cs depth (processNode c (depth + 1) (acc.1 + 1, acc.2))
end

/-- The summary record returned by `summarizeComplexityResult` (its
`hotspots` field is named `topHotspots` in the spec). -/
structure ComplexitySummary where
  totalScore : Rat
  nodeCount : Nat
  maxDepth : Nat
  averageScore : Rat
  hotspots : List FlatEntry
  deriving Repr

/-- `summarizeComplexityResult` (utils.ts lines 76-139): total score, node
count and max depth via `processNode`, average score, and the top 5 flattened
entries by score descending. -/
def summarizeComplexityResult (r : ComplexityResult) : ComplexitySummary :=
  let totalScore := r.score
  let allNodes := flattenComplexityResult r
  let sortedNodes := sortScoreDesc FlatEntry.score allNodes
  let hotspots := sortedNodes.take 5
  let p := processNode r 1 (1, 0)
  { totalScore := totalScore
    nodeCount := p.1
    maxDepth := p.2
    averageScore := totalScore / (p.1 : Rat)
    hotspots := hotspots }

mutual
/-- Modelled from the spec: the length of the longest root-to-leaf path of a
result tree, counting the root as depth 1 (the reference value that claim C8
compares `summarize(...).maxDepth` against). -/
def specRootToLeafDepth : ComplexityResult → Nat
  | .mk _ _ children _ _ => 1 + specRootToLeafDepthForest children

/-- Modelled from the spec: the longest root-to-leaf path length over a
forest (0 for an empty forest). -/
def specRootToLeafDepthForest : List ComplexityResult → Nat
  | [] => 0
  | c :: cs => max (specRootToLeafDepth c) (specRootToLeafDepthForest cs)
end

/-- Proof helper: the largest node depth reached when the trees of forest `l`
are traversed with their roots at depth `d + 1` (0 when the forest is
empty). -/
def forestDepthFrom : List ComplexityResult → Nat → Nat
  | [], _ => 0
  | c :: cs, d =>
      max (d + 1 + specRootToLeafDepthForest c.children) (forestDepthFrom cs d)

/-- A bare `return;` statement (concrete input for the depth-accounting
check). -/
def returnOnlyStmt : Stmt := .returnStmt 0 none

/-- The statement `switch (x) \x7b case a > b: \x7d` with pairwise distinct node
identities. -/
def switchDemo : Stmt :=
  .switchStmt 10 (.identifier 11 "x")
    [.caseClause (.binary 12 .comparison (.identifier 13 "a")
      (.identifier 14 "b")) []]

/-- A source file of six parameterless function declarations. -/
def sixFunctionsFile : SourceFileAst :=
  { statements :=
      [.funcDecl 20 0 [] 40, .funcDecl 21 0 [] 41, .funcDecl 22 0 [] 42,
       .funcDecl 23 0 [] 43, .funcDecl 24 0 [] 44, .funcDecl 25 0 [] 45] }

/-- The statement `let x = a + b` (one declaration, one initializer). -/
def letBinaryStmt : Stmt :=
  .varStmt 30 true
    [⟨some "x", some (.binary 31 .otherOp (.identifier 32 "a")
      (.identifier 33 "b"))⟩]

/-- Per-node form of the monotonicity invariant: away from switch statements
the score dominates the children's score sum. -/
def NodeOk (r : ComplexityResult) : Prop :=
  r.nodeType ≠ .switchStatement → childScoreSum r ≤ r.score

/-- A well-formed scoring result: every node of the tree has score at least 1
and (away from switch statements) dominates its children's score sum. -/
def Good (r : ComplexityResult) : Prop :=
  ∀ sub ∈ preorderNodes r, 1 ≤ sub.score ∧ NodeOk sub

/-- All results of a child list are well-formed. -/
def GoodList (l : List ComplexityResult) : Prop := ∀ r ∈ l, Good r

/-!
The module analyzer of `src/quality/core/complexity/module.ts`: dependency
extraction and resolution, the cycle-pruning topological sort, and the
aggregation of module complexities over the dependency graph.  `Math.sqrt`
is an opaque real-valued primitive, modelled as a function parameter
`sqrt : Nat → Rat`; the recursive DFS of `visitModule` runs on an explicit
stack-depth budget (`fuel`), returning `none` when the budget is exhausted,
so a `some` result is honest evidence of termination.
-/

/-- `ModuleDependency` (module.ts lines 22-35).  The optional flags of the
interface default to `false` (JavaScript `undefined` is falsy). -/
structure ModuleDependency where
  path : String
  dependencies : List String
  fileComplexity : Option ComplexityResult
  moduleComplexity : Option Rat
  visited : Bool
  temporaryMark : Bool
  deriving Repr

/-- `ModuleComplexityResult` (module.ts lines 40-51). -/
structure ModuleComplexityResult where
  path : String
  fileComplexity : Rat
  moduleComplexity : Rat
  dependencies : List String
  details : Option ComplexityResult
  deriving Repr

/-- JavaScript `s.split(sep)` for a one-character separator, over the
character list: splitting the empty string yields one empty segment, and
adjacent separators yield empty segments. -/
def splitChars (sep : Char) : List Char → List (List Char)
  | [] => [[]]
  | c :: rest =>
      match splitChars sep rest with
      | [] => [[c]]
      | g :: gs => if c = sep then [] :: g :: gs else (c :: g) :: gs

/-- JavaScript `s.split(sep)` at the string level. -/
def jsSplit (s : String) (sep : Char) : List String :=
  (splitChars sep s.data).map (fun l => { data := l })

/-- JavaScript `parts.join(sep)` over character lists. -/
def joinChars (sep : Char) : List (List Char) → List Char
  | [] => []
  | [g] => g
  | g :: gs => g ++ sep :: joinChars sep gs

/-- JavaScript `parts.join(sep)` at the string level. -/
def jsJoin (sep : Char) (l : List String) : String :=
  { data := joinChars sep (l.map String.data) }

/-- JavaScript `s.startsWith(pre)`. -/
def jsStartsWith (s pre : String) : Bool := pre.data.isPrefixOf s.data

/-- JavaScript `s.endsWith(suf)`. -/
def jsEndsWith (s suf : String) : Bool := suf.data.isSuffixOf s.data

/-- The directory prefix `basePath.substring(0, basePath.lastIndexOf("/") +
1)` of `resolveImportPath` (module.ts line 172): everything up to and
including the last slash, or the empty string when there is no slash
(expressed through the split segments: all but the last, re-joined, with
the trailing slash restored). -/
def dirnameOf (basePath : String) : String :=
  let parts := jsSplit basePath '/'
  if parts.length ≤ 1 then ""
  else jsJoin '/' parts.dropLast ++ "/"

/-- The segment fold of `normalizePath` (module.ts lines 198-216): `.` and
empty segments are skipped, `..` pops the last collected segment (a pop on an
empty array is a no-op), anything else is pushed. -/
def normalizeParts (parts : List String) : List String :=
  parts.foldl
    (fun result part =>
      if part = "." ∨ part = "" then result
      else if part = ".." then result.dropLast
      else result ++ [part])
    []

/-- `normalizePath` (module.ts lines 198-216): split on `/`, fold the
segments, and re-join. -/
def normalizePath (path : String) : String :=
  jsJoin '/' (normalizeParts (jsSplit path '/'))

/-- The extension default of `resolveImportPath` (module.ts lines 181-183):
append `.ts` unless the path already ends in `.ts` or `.js`. -/
def ensureTsExtension (s : String) : String :=
  if ¬(jsEndsWith s ".ts" = true ∨ jsEndsWith s ".js" = true) then s ++ ".ts"
  else s

/-- The index-file default of `resolveImportPath` (module.ts lines 186-188):
append `index.ts` to a path ending in `/`. -/
def defaultIndexFile (s : String) : String :=
  if jsEndsWith s "/" then s ++ "index.ts" else s

/-- `resolveImportPath` (module.ts lines 170-191): join with the importing
file's directory, normalize, default the extension, then the index file. -/
def resolveImportPath (basePath importPath : String) : String :=
  defaultIndexFile (ensureTsExtension (normalizePath (dirnameOf basePath ++ importPath)))

/-- The import specifier of a statement, when it is an import declaration
with a string-literal module specifier. -/
def importSpecifierOf : Stmt → Option String
  | .importDecl _ sp _ _ => sp
  | _ => none

/-- The statement loop of `analyzeDependencies` (module.ts lines 72-88):
collect the resolved path of every relative (leading-dot) string-literal
specifier of an import, in statement order. -/
def analyzeDependenciesList (filePath : String) : List Stmt → List String
  | [] => []
  | s :: rest =>
      match importSpecifierOf s with
      | some spec =>
          if jsStartsWith spec "." then
            resolveImportPath filePath spec :: analyzeDependenciesList filePath rest
          else analyzeDependenciesList filePath rest
      | none => analyzeDependenciesList filePath rest

/-- `analyzeDependencies` (module.ts lines 65-91). -/
def analyzeDependencies (file : SourceFileAst) (filePath : String) : List String :=
  analyzeDependenciesList filePath file.statements

/-- Number of symbols bound by an import clause: 1 for a default import plus
the named-binding count (`n` named imports, 1 for a namespace import); a
side-effect import binds nothing. -/
def importSymbolCount (hasDefault : Bool) (binding : ImportBinding) : Nat :=
  (if hasDefault then 1 else 0) +
    (match binding with
     | .named n => n
     | .namespaceBinding => 1
     | .noBinding => 0)

/-- The statement loop of `analyzeImports` (module.ts lines 105-159):
`(libraryImports, localImports)` symbol counts, split on whether the
specifier starts with a dot. -/
def analyzeImportsList : List Stmt → Nat × Nat
  | [] => (0, 0)
  | .importDecl _ (some spec) hasDefault binding :: rest =>
      let p := analyzeImportsList rest
      if jsStartsWith spec "." then
        (p.1, p.2 + importSymbolCount hasDefault binding)
      else (p.1 + importSymbolCount hasDefault binding, p.2)
  | _ :: rest => analyzeImportsList rest

/-- `analyzeImports` (module.ts lines 98-162). -/
def analyzeImports (file : SourceFileAst) : Nat × Nat :=
  analyzeImportsList file.statements

mutual
/-- The `countLetDeclarations` traversal of `calculateModuleFileComplexity`
(module.ts lines 445-456): every variable statement whose declaration list
has the `let` flag contributes its declaration count; `ts.forEachChild`
descends through every nested statement. -/
def countLetStmt : Stmt → Nat
  | .varStmt _ isLet decls => if isLet then decls.length else 0
  | .ifStmt _ _ thenS (some elseS) => countLetStmt thenS + countLetStmt elseS
  | .ifStmt _ _ thenS none => countLetStmt thenS
  | .forStmt _ _ _ _ body => countLetStmt body
  | .forOfStmt _ _ _ _ _ body => countLetStmt body
  | .whileStmt _ _ body => countLetStmt body
  | .doStmt _ body _ => countLetStmt body
  | .switchStmt _ _ clauses => countLetClauses clauses
  | .tryStmt _ b (some c) (some f) =>
      countLetBlk b + countLetCatch c + countLetBlk f
  | .tryStmt _ b (some c) none => countLetBlk b + countLetCatch c
  | .tryStmt _ b none (some f) => countLetBlk b + countLetBlk f
  | .tryStmt _ b none none => countLetBlk b
  | .blockStmt _ ss => countLetStmts ss
  | .funcDecl _ _ body _ => countLetStmts body
  | _ => 0

/-- Let declarations in a statement list. -/
def countLetStmts : List Stmt → Nat
  | [] => 0
  | s :: rest => countLetStmt s + countLetStmts rest

/-- Let declarations in a switch-clause list. -/
def countLetClauses : List SwitchClause → Nat
  | [] => 0
  | .caseClause _ ss :: rest => countLetStmts ss + countLetClauses rest
  | .defaultClause ss :: rest => countLetStmts ss + countLetClauses rest

/-- Let declarations in a standalone block. -/
def countLetBlk : Blk → Nat
  | .mk _ _ ss => countLetStmts ss

/-- Let declarations in a catch clause. -/
def countLetCatch : CatchClause → Nat
  | .mk _ b => countLetBlk b
end

/-- `calculateModuleFileComplexity` (module.ts lines 418-480): the file.ts
score plus `3 × libraryImports + 1 × localImports`, the sum then multiplied
by `1 + 0.5 × letDeclarationCount` when the file declares any `let`
bindings (the metadata fields it also sets are display diagnostics, not
modelled). -/
def calculateModuleFileComplexity (file : SourceFileAst) : ComplexityResult :=
  let imports := analyzeImports file
  let result := Split.calculateFileComplexity file
  let importComplexity : Rat := (imports.1 : Rat) * 3 + (imports.2 : Rat) * 1
  let score1 := result.score + importComplexity
  let letDeclarationCount := countLetStmts file.statements
  let score2 :=
    if 0 < letDeclarationCount then
      score1 * (1 + (letDeclarationCount : Rat) * (1/2))
    else score1
  { result with score := score2 }

/-- The mutable array of `ModuleDependency` records that module.ts threads
through its phases (the `moduleMap` is a by-path view of the same objects,
modelled as by-path lookup and by-path in-place update). -/
abbrev ModState := List ModuleDependency

/-- `moduleMap.get(p)`: the first record with path `p`. -/
def findModule (st : ModState) (p : String) : Option ModuleDependency :=
  st.find? (fun m => m.path == p)

/-- In-place mutation of the record with path `p`. -/
def updateModule (st : ModState) (p : String)
    (f : ModuleDependency → ModuleDependency) : ModState :=
  st.map (fun m => if m.path == p then f m else m)

/-- Paths of the records, in array order. -/
def pathsOf (st : ModState) : List String := st.map (fun m => m.path)

/-- Visited flag of the record at `p` (false when absent). -/
def isVisited (st : ModState) (p : String) : Bool :=
  match findModule st p with
  | some m => m.visited
  | none => false

/-- Temporary (in-stack) mark of the record at `p` (false when absent). -/
def isMarked (st : ModState) (p : String) : Bool :=
  match findModule st p with
  | some m => m.temporaryMark
  | none => false

/-- Dependency list of the record at `p` (empty when absent). -/
def depsOf (st : ModState) (p : String) : List String :=
  match findModule st p with
  | some m => m.dependencies
  | none => []

/-- The `module.temporaryMark = true` write of `visitModule`. -/
def markModule (x : ModuleDependency) : ModuleDependency :=
  { x with temporaryMark := true }

/-- The `module.visited = true; module.temporaryMark = false` write of
`visitModule`. -/
def commitModule (x : ModuleDependency) : ModuleDependency :=
  { x with visited := true, temporaryMark := false }

/-- The `module.dependencies = module.dependencies.filter(p => p !==
depPath)` write of `visitModule` (cycle pruning). -/
def pruneDep (depPath : String) (x : ModuleDependency) : ModuleDependency :=
  { x with dependencies := x.dependencies.filter (fun q => q != depPath) }

/-- The flag reset of `topologicalSort` (module.ts lines 230-235). -/
def resetFlags (m : ModuleDependency) : ModuleDependency :=
  { m with visited := false, temporaryMark := false }

/-- The dependency restriction of `calculateModulesComplexity` (module.ts
lines 537-542): keep only dependencies that are known module paths. -/
def restrictDeps (known : List String) (m : ModuleDependency) :
    ModuleDependency :=
  { m with dependencies := m.dependencies.filter (fun d => known.contains d) }

/-- The file score of a record, 0 without a file complexity (the `||`
defaults of module.ts). -/
def initScore (m : ModuleDependency) : Rat :=
  match m.fileComplexity with
  | some fc => fc.score
  | none => 0

/-- The memo initialization of `calculateModuleComplexity` (module.ts lines
309-317): the module complexity starts as the file score (0 without a file
complexity). -/
def initComplexity (m : ModuleDependency) : ModuleDependency :=
  { m with moduleComplexity := some (initScore m) }

/-- The result projection of `calculateModulesComplexity` (module.ts lines
551-557). -/
def toResult (m : ModuleDependency) : ModuleComplexityResult :=
  { path := m.path
    fileComplexity := initScore m
    moduleComplexity := m.moduleComplexity.getD 0
    dependencies := m.dependencies
    details := m.fileComplexity }

mutual
/-- `visitModule` (module.ts lines 254-293): depth-first visit with a
temporary mark for cycle detection; a marked or already-visited module
returns immediately, otherwise the module is marked, its dependency list
snapshot is walked, and the module is committed (visited, unmarked) and
pushed onto the result.  `fuel` is the remaining recursion budget; `none`
models a blown stack and never occurs on the actual call depths. -/
def visitModule : Nat → String → ModState → List String →
    Option (ModState × List String)
  | 0, _, _, _ => none
  | fuel + 1, p, st, result =>
      match findModule st p with
      | none => some (st, result)
      | some m =>
          if m.temporaryMark then some (st, result)
          else if m.visited then some (st, result)
          else
            let st1 := updateModule st p markModule
            match visitDeps fuel m.dependencies p st1 result with
            | none => none
            | some (st2, r2) =>
                let st3 := updateModule st2 p commitModule
                some (st3, r2 ++ [p])
termination_by fuel _ _ _ => (fuel, 0)

/-- The dependency loop of `visitModule` (module.ts lines 274-285): the
`for`-`of` iterates the array snapshot taken at loop entry; a dependency on a
marked (in-stack) module is pruned out of the parent's current dependency
list, an unmarked existing dependency is visited recursively. -/
def visitDeps : Nat → List String → String → ModState → List String →
    Option (ModState × List String)
  | _, [], _, st, result => some (st, result)
  | fuel, depPath :: rest, parent, st, result =>
      match findModule st depPath with
      | none => visitDeps fuel rest parent st result
      | some depModule =>
          if depModule.temporaryMark then
            let st1 := updateModule st parent (pruneDep depPath)
            visitDeps fuel rest parent st1 result
          else
            match visitModule fuel depPath st result with
            | none => none
            | some (st2, r2) => visitDeps fuel rest parent st2 r2
termination_by fuel deps _ _ _ => (fuel, deps.length + 1)
end

/-- The module loop of `topologicalSort` (module.ts lines 238-242): visit
every not-yet-visited module in array order.  Each top-level DFS gets a fuel
budget of one more than the number of records, which bounds every chain of
nested `visitModule` frames (each proceeding frame marks a distinct module). -/
def topologicalSortLoop : List String → ModState → List String →
    Option (ModState × List String)
  | [], st, result => some (st, result)
  | p :: rest, st, result =>
      if isVisited st p then topologicalSortLoop rest st result
      else
        match visitModule (st.length + 1) p st result with
        | none => none
        | some (st2, r2) => topologicalSortLoop rest st2 r2

/-- `topologicalSort` (module.ts lines 223-246): reset the flags, run the
DFS from every module, and return the pushed modules in reverse push order.
A pushed module's record no longer changes (it is visited, so every later
frame returns early before touching it), so reading the final state at the
pushed paths reproduces the pushed objects. -/
def topologicalSort (modules : List ModuleDependency) :
    Option (List ModuleDependency) :=
  let st := modules.map resetFlags
  match topologicalSortLoop (pathsOf st) st [] with
  | none => none
  | some (st2, result) =>
      some ((result.filterMap (fun p => findModule st2 p)).reverse)

/-- The closure state of `calculateModuleComplexity` (module.ts lines
303-305): the module records plus the `calculatedModules` and
`processingModules` sets. -/
structure AggState where
  mods : ModState
  calculated : List String
  processing : List String

mutual
/-- `calculateDependencyComplexity` (module.ts lines 320-398): return the
memoized value past the depth ceiling of 10, for a missing file complexity,
for an already-calculated module, or for a module currently being processed;
otherwise mark the module as processing, take the file score plus its direct
children's scores, add the weighted dependency sum, unmark, memoize and mark
calculated. -/
def calculateDependencyComplexity (sqrt : Nat → Rat) (depth : Nat)
    (p : String) (st : AggState) : Rat × AggState :=
  if hd : 10 < depth then
    (match findModule st.mods p with
     | some m => m.moduleComplexity.getD 0
     | none => 0, st)
  else
    match findModule st.mods p with
    | none => (0, st)
    | some m =>
        if m.fileComplexity.isNone then (0, st)
        else if p ∈ st.calculated then (m.moduleComplexity.getD 0, st)
        else if p ∈ st.processing then (m.moduleComplexity.getD 0, st)
        else
          let st1 : AggState := { st with processing := p :: st.processing }
          let complexity : Rat :=
            match m.fileComplexity with
            | some fc => fc.score + childScoreSum fc
            | none => 0
          let pr := sumDependencyComplexities sqrt depth (Nat.le_of_not_lt hd)
            m.dependencies st1
          let st3 : AggState :=
            { pr.2 with processing := pr.2.processing.filter (fun q => q != p) }
          let complexity2 : Rat :=
            if 0 < m.dependencies.length then
              complexity + pr.1 * (1/2) / sqrt m.dependencies.length
            else complexity
          let st4 : AggState :=
            { st3 with
              mods := updateModule st3.mods p
                (fun x => { x with moduleComplexity := some complexity2 })
              calculated := p :: st3.calculated }
          (complexity2, st4)
termination_by ((11 - depth) * 2 + 1, 0)

/-- The dependency loop of `calculateDependencyComplexity` (module.ts lines
364-381): skip missing and currently-processing dependencies, recurse on the
rest with the depth increased, and accumulate.  The depth bound certificate
`hdepth` records that the caller was below the ceiling, which bounds the
recursion. -/
def sumDependencyComplexities (sqrt : Nat → Rat) (depth : Nat)
    (hdepth : depth ≤ 10) : List String → AggState → Rat × AggState
  | [], st => (0, st)
  | depPath :: rest, st =>
      match findModule st.mods depPath with
      | none => sumDependencyComplexities sqrt depth hdepth rest st
      | some _ =>
          if depPath ∈ st.processing then
            sumDependencyComplexities sqrt depth hdepth rest st
          else
            let pr := calculateDependencyComplexity sqrt (depth + 1) depPath st
            let pr2 := sumDependencyComplexities sqrt depth hdepth rest pr.2
            (pr.1 + pr2.1, pr2.2)
termination_by deps _ => ((11 - depth) * 2, deps.length)
end

/-- The module loop of `calculateModuleComplexity` (module.ts lines
400-406): process the records in reverse array order, skipping the ones
already calculated. -/
def calculateModuleComplexityLoop (sqrt : Nat → Rat) :
    List String → AggState → AggState
  | [], st => st
  | p :: rest, st =>
      if p ∈ st.calculated then calculateModuleComplexityLoop sqrt rest st
      else calculateModuleComplexityLoop sqrt rest
        (calculateDependencyComplexity sqrt 0 p st).2

/-- `calculateModuleComplexity` (module.ts lines 300-409): initialize every
memoized value to the file score, then run the dependency aggregation over
the reversed array, returning the records in array order. -/
def calculateModuleComplexity (sqrt : Nat → Rat)
    (modules : List ModuleDependency) : ModState :=
  let st0 : ModState := modules.map initComplexity
  (calculateModuleComplexityLoop sqrt (pathsOf st0).reverse
    { mods := st0, calculated := [], processing := [] }).mods

/-- The module-construction loop of `calculateModulesComplexity` (module.ts
lines 499-534): for each path with contents, analyze the dependencies and
the module file complexity (the parse of the contents is the facade's
pre-parsed AST). -/
def buildModules (fileContents : List (String × SourceFileAst)) :
    List String → List ModuleDependency
  | [] => []
  | fp :: rest =>
      match fileContents.find? (fun pr => pr.1 == fp) with
      | none => buildModules fileContents rest
      | some pr =>
          let dependencies := analyzeDependencies pr.2 fp
          let fileComplexity := calculateModuleFileComplexity pr.2
          { path := fp
            dependencies := dependencies
            fileComplexity := some fileComplexity
            moduleComplexity := some fileComplexity.score
            visited := false
            temporaryMark := false } :: buildModules fileContents rest

/-- `calculateModulesComplexity` (module.ts lines 489-558): build the module
records, drop every dependency that is not a known module path, sort
topologically, aggregate, and project to `ModuleComplexityResult`. -/
def calculateModulesComplexity (sqrt : Nat → Rat) (filePaths : List String)
    (fileContents : List (String × SourceFileAst)) :
    Option (List ModuleComplexityResult) :=
  let modules := buildModules fileContents filePaths
  let knownPaths := pathsOf modules
  let modules2 := modules.map (restrictDeps knownPaths)
  match topologicalSort modules2 with
  | none => none
  | some sortedModules =>
      some ((calculateModuleComplexity sqrt sortedModules).map toResult)

/-- Parsed `a.ts` of the two-file import cycle: `import a from "./b.ts";`. -/
def cyclicFileA : SourceFileAst :=
  { statements := [.importDecl 100 (some "./b.ts") true .noBinding] }

/-- Parsed `b.ts` of the two-file import cycle: `import b from "./a.ts";`. -/
def cyclicFileB : SourceFileAst :=
  { statements := [.importDecl 200 (some "./a.ts") true .noBinding] }

/-- Contents map of the two-file import cycle. -/
def cyclicContents : List (String × SourceFileAst) :=
  [("a.ts", cyclicFileA), ("b.ts", cyclicFileB)]

/-- File-level complexity detail of either cycle file: base 1 plus one
statement of score 1, plus import complexity 1 for the single local
default import. -/
def cyclicDetails : ComplexityResult :=
  { score := 3
    nodeType := .sourceFileNode
    children := [{ score := 1, nodeType := .importDeclaration, children := [] }] }

/-- Parsed `x.ts` of the acyclic aggregation demo: `import x from "./y.ts";`. -/
def aggFileX : SourceFileAst :=
  { statements := [.importDecl 100 (some "./y.ts") true .noBinding] }

/-- Parsed `y.ts` of the acyclic aggregation demo: an empty file. -/
def aggFileY : SourceFileAst := { statements := [] }

/-- Contents map of the acyclic aggregation demo. -/
def aggContents : List (String × SourceFileAst) :=
  [("x.ts", aggFileX), ("y.ts", aggFileY)]

/-- A concrete stand-in for `Math.sqrt` on the demo inputs (only its value
at 1 is ever used there, where the true square root is also 1). -/
def sqrtOne : Nat → Rat := fun _ => 1

/-- File-level complexity detail of the demo `x.ts`. -/
def aggDetailsX : ComplexityResult :=
  { score := 3
    nodeType := .sourceFileNode
    children := [{ score := 1, nodeType := .importDeclaration, children := [] }] }

/-- File-level complexity detail of the demo `y.ts`. -/
def aggDetailsY : ComplexityResult :=
  { score := 1, nodeType := .sourceFileNode, children := [] }

/-- Expected analysis of the demo `x.ts`: module complexity
`(3 + 1) + 1 × 0.5 / sqrt 1` with `sqrt 1 = 1`. -/
def aggOutX : ModuleComplexityResult :=
  { path := "x.ts"
    fileComplexity := 3
    moduleComplexity := 9/2
    dependencies := ["y.ts"]
    details := some aggDetailsX }

/-- Expected analysis of the demo `y.ts`. -/
def aggOutY : ModuleComplexityResult :=
  { path := "y.ts"
    fileComplexity := 1
    moduleComplexity := 1
    dependencies := []
    details := some aggDetailsY }

/-- Parsed `a.ts` of the unresolved-import demo: one import of the known
`./b.ts` and one of the nonexistent `./missing.ts`. -/
def dropFileA : SourceFileAst :=
  { statements := [.importDecl 100 (some "./b.ts") true .noBinding,
                   .importDecl 101 (some "./missing.ts") false (.named 2)] }

/-- Parsed `b.ts` of the unresolved-import demo: an empty file. -/
def dropFileB : SourceFileAst := { statements := [] }

/-- Contents map of the unresolved-import demo. -/
def dropContents : List (String × SourceFileAst) :=
  [("a.ts", dropFileA), ("b.ts", dropFileB)]

/-- File-level complexity detail of the demo `dropFileA`: base 1 plus two
statements of score 1, plus import complexity 3 for the three local
symbols (one default, two named). -/
def dropDetailsA : ComplexityResult :=
  { score := 6
    nodeType := .sourceFileNode
    children := [{ score := 1, nodeType := .importDeclaration, children := [] },
                 { score := 1, nodeType := .importDeclaration, children := [] }] }

/-- File-level complexity detail of the demo `dropFileB` (empty file). -/
def dropDetailsB : ComplexityResult :=
  { score := 1, nodeType := .sourceFileNode, children := [] }

/-- Expected analysis of the demo `a.ts`: the unresolved `./missing.ts`
edge is dropped from the dependency list, and the aggregate is
`(6 + 2) + 1 × 0.5 / sqrt 1` with `sqrt 1 = 1`. -/
def dropOutA : ModuleComplexityResult :=
  { path := "a.ts"
    fileComplexity := 6
    moduleComplexity := 17/2
    dependencies := ["b.ts"]
    details := some dropDetailsA }

/-- Expected analysis of the demo `b.ts`. -/
def dropOutB : ModuleComplexityResult :=
  { path := "b.ts"
    fileComplexity := 1
    moduleComplexity := 1
    dependencies := []
    details := some dropDetailsB }

/-- Path `d` was pushed strictly before path `p` in the DFS output list. -/
def pushedBefore (res : List String) (d p : String) : Prop :=
  ∃ pre suf, res = pre ++ p :: suf ∧ d ∈ pre

/-- Invariant of the cycle-pruning DFS of `topologicalSort`, relating the
record state to the list of pushed paths. -/
structure SortInv (st : ModState) (res : List String) : Prop where
  pathsNodup : (pathsOf st).Nodup
  resNodup : res.Nodup
  resVisited : ∀ p ∈ res, isVisited st p = true
  visitedRes : ∀ m ∈ st, m.visited = true → m.path ∈ res
  markedUnvisited : ∀ m ∈ st, m.temporaryMark = true → m.visited = false
  postorder : ∀ m ∈ st, m.visited = true → ∀ d ∈ m.dependencies,
    (findModule st d).isSome = true → pushedBefore res d m.path

/-- Evolution of one record along a DFS step: the identity fields are
unchanged, the visited flag only rises, the dependency list only shrinks,
and a record that was already visited is frozen. -/
def ModEvolves (m m' : ModuleDependency) : Prop :=
  m'.path = m.path ∧ m'.fileComplexity = m.fileComplexity
    ∧ m'.moduleComplexity = m.moduleComplexity
    ∧ (m.visited = true → m'.visited = true)
    ∧ m'.dependencies ⊆ m.dependencies
    ∧ (m.visited = true → m'.dependencies = m.dependencies)

/-- Pointwise (positional) evolution of the record array. -/
def StEvolves (st st' : ModState) : Prop := List.Forall₂ ModEvolves st st'

/-- Conclusion bundle of one DFS step (`visitModule` or its dependency
loop): the state evolves pointwise, the temporary marks are restored, the
invariant is re-established, and the push list is only extended. -/
structure VisitSpec (st : ModState) (res : List String)
    (st' : ModState) (res' : List String) : Prop where
  evolves : StEvolves st st'
  marks : ∀ q, isMarked st' q = isMarked st q
  inv : SortInv st' res'
  ext : ∃ Δ, res' = res ++ Δ

/-- Memoized module complexity at path `d` (the
`moduleMap.get(depPath)?.moduleComplexity || 0` read of the aggregation). -/
def memoAt (st : ModState) (d : String) : Rat :=
  match findModule st d with
  | some m => m.moduleComplexity.getD 0
  | none => 0

/-- The aggregate-formula claim for one record against a record state: the
memoized value equals the file score plus the direct children's scores,
plus the weighted dependency sum when there is at least one dependency. -/
def FormulaHolds (sqrt : Nat → Rat) (st : ModState) (m : ModuleDependency) :
    Prop :=
  ∃ fc, m.fileComplexity = some fc ∧
    m.moduleComplexity = some ((fc.score + childScoreSum fc) +
      (if m.dependencies = [] then 0
       else ((m.dependencies.map (memoAt st)).sum) * (1/2) /
         sqrt m.dependencies.length))

/-- Invariant of the aggregation loop of `calculateModuleComplexity`: no
module is mid-processing, paths are distinct, every record has a file
complexity, the calculated set is closed under dependencies, and every
calculated record satisfies the aggregate formula against the current
memoized values. -/
structure AggInv (sqrt : Nat → Rat) (st : AggState) : Prop where
  procEmpty : st.processing = []
  pathsNodup : (pathsOf st.mods).Nodup
  fcSome : ∀ m ∈ st.mods, m.fileComplexity.isSome = true
  calcSub : ∀ q ∈ st.calculated, q ∈ pathsOf st.mods
  depsCalc : ∀ m ∈ st.mods, m.path ∈ st.calculated →
    ∀ d ∈ m.dependencies, d ∈ st.calculated
  formula : ∀ m ∈ st.mods, m.path ∈ st.calculated → FormulaHolds sqrt st.mods m

theorem preorderNodes_def (r : ComplexityResult) :
    preorderNodes r = r :: preorderForest r.children := by
  cases r; rfl

theorem mem_preorderForest {sub : ComplexityResult}
    {l : List ComplexityResult} :
    sub ∈ preorderForest l ↔ ∃ c ∈ l, sub ∈ preorderNodes c := by
  induction l with
  | nil => simp [preorderForest]
  | cons r rs ih => simp [preorderForest, ih]

theorem good_score {r : ComplexityResult} (h : Good r) : 1 ≤ r.score :=
  (h r (by rw [preorderNodes_def]; exact List.mem_cons_self _ _)).1

theorem goodList_nil : GoodList [] := by intro r hr; simp at hr

theorem goodList_cons {r : ComplexityResult} {rs : List ComplexityResult} :
    GoodList (r :: rs) ↔ Good r ∧ GoodList rs := by
  simp only [GoodList, List.mem_cons]
  constructor
  · intro h
    exact ⟨h r (Or.inl rfl), fun x hx => h x (Or.inr hx)⟩
  · rintro ⟨h1, h2⟩ x (rfl | hx)
    · exact h1
    · exact h2 x hx

theorem goodList_append {l1 l2 : List ComplexityResult} :
    GoodList (l1 ++ l2) ↔ GoodList l1 ∧ GoodList l2 := by
  simp only [GoodList, List.mem_append]
  constructor
  · intro h
    exact ⟨fun x hx => h x (Or.inl hx), fun x hx => h x (Or.inr hx)⟩
  · rintro ⟨h1, h2⟩ x (hx | hx)
    · exact h1 x hx
    · exact h2 x hx

theorem scoreSum_nonneg {l : List ComplexityResult}
    (h : GoodList l) : 0 ≤ (l.map ComplexityResult.score).sum := by
  induction l with
  | nil => simp
  | cons r rs ih =>
      simp only [List.map_cons, List.sum_cons]
      have h1 := good_score (h r (by simp))
      have h2 : 0 ≤ (rs.map ComplexityResult.score).sum :=
        ih (fun x hx => h x (by simp [hx]))
      linarith

theorem calculateExpressionList_sum (es : List Expr) (ctx : Ctx) :
    (calculateExpressionList es ctx).2.1 =
      ((calculateExpressionList es ctx).1.map ComplexityResult.score).sum := by
  induction es generalizing ctx with
  | nil => simp [calculateExpressionList]
  | cons e rest ih => simp [calculateExpressionList, ih]

theorem calculatePropertyList_sum (ps : List ObjectProp) (ctx : Ctx) :
    (calculatePropertyList ps ctx).2.1 =
      ((calculatePropertyList ps ctx).1.map ComplexityResult.score).sum := by
  induction ps generalizing ctx with
  | nil => simp [calculatePropertyList]
  | cons p rest ih =>
      cases p with
      | propertyAssignment init => simp [calculatePropertyList, ih]
      | otherProp => simp [calculatePropertyList, ih]

theorem scoreDeclInitializers_sum (ds : List VarDecl) (ctx : Ctx) :
    (scoreDeclInitializers ds ctx).2.1 =
      ((scoreDeclInitializers ds ctx).1.map ComplexityResult.score).sum := by
  induction ds generalizing ctx with
  | nil => simp [scoreDeclInitializers]
  | cons d rest ih =>
      cases h : d.init with
      | some e => simp [scoreDeclInitializers, h, ih]
      | none => simp [scoreDeclInitializers, h, ih]

theorem mono_scoreStatementList_sum (ss : List Stmt) (ctx : Ctx) :
    (Mono.scoreStatementList ss ctx).2.1 =
      ((Mono.scoreStatementList ss ctx).1.map ComplexityResult.score).sum := by
  induction ss generalizing ctx with
  | nil => simp [Mono.scoreStatementList]
  | cons s rest ih => simp [Mono.scoreStatementList, ih]

theorem split_scoreStatementList_sum (ss : List Stmt) (ctx : Ctx) :
    (Split.scoreStatementList ss ctx).2.1 =
      ((Split.scoreStatementList ss ctx).1.map ComplexityResult.score).sum := by
  induction ss generalizing ctx with
  | nil => simp [Split.scoreStatementList]
  | cons s rest ih => simp [Split.scoreStatementList, ih]

theorem getBinaryOperatorComplexity_nonneg (op : BinOp) :
    0 ≤ getBinaryOperatorComplexity op := by
  cases op <;> norm_num [getBinaryOperatorComplexity]

theorem good_mk {score : Rat} {kind : NodeKind}
    {children : List ComplexityResult} {t c : Bool} (h1 : 1 ≤ score)
    (h2 : (children.map ComplexityResult.score).sum ≤ score)
    (h3 : GoodList children) :
    Good (ComplexityResult.mk score kind children t c) := by
  intro sub hsub
  rw [preorderNodes_def, List.mem_cons] at hsub
  rcases hsub with rfl | hsub
  · exact ⟨h1, fun _ => h2⟩
  · obtain ⟨ch, hch, hsub2⟩ := mem_preorderForest.mp hsub
    exact h3 ch hch sub hsub2

theorem good_mk_switch {score : Rat}
    {children : List ComplexityResult} {t c : Bool} (h1 : 1 ≤ score)
    (h3 : GoodList children) :
    Good (ComplexityResult.mk score .switchStatement children t c) := by
  intro sub hsub
  rw [preorderNodes_def, List.mem_cons] at hsub
  rcases hsub with rfl | hsub
  · exact ⟨h1, fun h => absurd rfl h⟩
  · obtain ⟨ch, hch, hsub2⟩ := mem_preorderForest.mp hsub
    exact h3 ch hch sub hsub2

theorem good_leaf {score : Rat} {kind : NodeKind} {t c : Bool}
    (h1 : 1 ≤ score) : Good (ComplexityResult.mk score kind [] t c) :=
  good_mk h1 (by simpa using le_trans zero_le_one h1) goodList_nil

theorem good_truncated (kind : NodeKind) : Good (createTruncatedResult kind) :=
  good_leaf le_rfl

theorem good_circularExpr (e : Expr) :
    Good (createCircularReferenceResult e) := by
  cases e with
  | binary id op l r =>
      apply good_leaf
      simp only [createCircularReferenceResult]
      nlinarith [getBinaryOperatorComplexity_nonneg op]
  | conditional id c t f =>
      apply good_leaf
      norm_num [createCircularReferenceResult]
  | call id callee args =>
      apply good_leaf
      simp only [createCircularReferenceResult]
      have h : (0 : Rat) ≤ (args.length : Rat) := Nat.cast_nonneg _
      nlinarith
  | _ => exact good_leaf le_rfl

mutual
theorem good_exprW (e : Expr) (ctx : Ctx) :
    Good (calculateExpressionComplexityWithPattern e ctx).1 := by
  simp only [calculateExpressionComplexityWithPattern]
  split
  · exact good_truncated _
  · split
    · exact good_circularExpr _
    · exact good_nodeC e _

theorem good_nodeC (e : Expr) (ctx : Ctx) :
    Good (calculateNodeComplexity e ctx).1 := by
  cases e with
  | binary id op l r =>
      have hl := good_exprW l ctx
      have hr := good_exprW r (calculateExpressionComplexityWithPattern l ctx).2
      have hop := getBinaryOperatorComplexity_nonneg op
      simp only [calculateNodeComplexity]
      refine good_mk ?_ ?_ (goodList_cons.mpr ⟨hl, goodList_cons.mpr ⟨hr, goodList_nil⟩⟩)
      · have := good_score hl; have := good_score hr; linarith
      · simp only [List.map_cons, List.map_nil, List.sum_cons, List.sum_nil]
        linarith
  | prefixUnary id op operand =>
      have ho := good_exprW operand ctx
      have hop : (0 : Rat) ≤ (if op = PreOp.bang then (3 : Rat)/10 else 1/10) := by
        split <;> norm_num
      simp only [calculateNodeComplexity]
      refine good_mk ?_ ?_ (goodList_cons.mpr ⟨ho, goodList_nil⟩)
      · have := good_score ho; linarith
      · simp only [List.map_cons, List.map_nil, List.sum_cons, List.sum_nil]
        linarith
  | postfixUnary id operand =>
      have ho := good_exprW operand ctx
      simp only [calculateNodeComplexity]
      refine good_mk ?_ ?_ (goodList_cons.mpr ⟨ho, goodList_nil⟩)
      · have := good_score ho; linarith
      · simp only [List.map_cons, List.map_nil, List.sum_cons, List.sum_nil]
        linarith
  | conditional id c t f =>
      have hc := good_exprW c ctx
      have ht := good_exprW t (calculateExpressionComplexityWithPattern c ctx).2
      have hf := good_exprW f
        (calculateExpressionComplexityWithPattern t
          (calculateExpressionComplexityWithPattern c ctx).2).2
      simp only [calculateNodeComplexity]
      refine good_mk ?_ ?_ (goodList_cons.mpr ⟨hc, goodList_cons.mpr ⟨ht,
        goodList_cons.mpr ⟨hf, goodList_nil⟩⟩⟩)
      · have := good_score hc; have := good_score ht; have := good_score hf; linarith
      · simp only [List.map_cons, List.map_nil, List.sum_cons, List.sum_nil]
        have := good_score hc; have := good_score ht; have := good_score hf; linarith
  | call id callee args =>
      have hc := good_exprW callee ctx
      have ha := good_exprList args
        (calculateExpressionComplexityWithPattern callee ctx).2
      have hsum := calculateExpressionList_sum args
        (calculateExpressionComplexityWithPattern callee ctx).2
      have hS : (0 : Rat) ≤ (calculateExpressionList args
          (calculateExpressionComplexityWithPattern callee ctx).2).2.1 := by
        rw [hsum]; exact scoreSum_nonneg ha
      have hm : (1 : Rat) ≤ max 1 ((args.length : Rat) * (1/5)) := le_max_left _ _
      simp only [calculateNodeComplexity]
      refine good_mk ?_ ?_ (goodList_cons.mpr ⟨hc, ha⟩)
      · have := good_score hc; nlinarith
      · simp only [List.map_cons, List.sum_cons]
        rw [← hsum]
        nlinarith
  | propertyAccess id obj name =>
      have ho := good_exprW obj ctx
      simp only [calculateNodeComplexity]
      refine good_mk ?_ ?_ (goodList_cons.mpr ⟨ho, goodList_nil⟩)
      · have := good_score ho; linarith
      · simp only [List.map_cons, List.map_nil, List.sum_cons, List.sum_nil]
        linarith
  | elementAccess id obj index =>
      have ho := good_exprW obj ctx
      have hx := good_exprW index
        (calculateExpressionComplexityWithPattern obj ctx).2
      simp only [calculateNodeComplexity]
      refine good_mk ?_ ?_ (goodList_cons.mpr ⟨ho, goodList_cons.mpr ⟨hx, goodList_nil⟩⟩)
      · have := good_score ho; have := good_score hx; linarith
      · simp only [List.map_cons, List.map_nil, List.sum_cons, List.sum_nil]
        have := good_score ho; have := good_score hx; linarith
  | objectLiteral id props =>
      have hp := good_propList props ctx
      have hsum := calculatePropertyList_sum props ctx
      have hS : (0 : Rat) ≤ (calculatePropertyList props ctx).2.1 := by
        rw [hsum]; exact scoreSum_nonneg hp
      simp only [calculateNodeComplexity]
      refine good_mk ?_ ?_ hp
      · linarith
      · rw [← hsum]; linarith
  | arrayLiteral id elems =>
      have hp := good_exprList elems ctx
      have hsum := calculateExpressionList_sum elems ctx
      have hS : (0 : Rat) ≤ (calculateExpressionList elems ctx).2.1 := by
        rw [hsum]; exact scoreSum_nonneg hp
      simp only [calculateNodeComplexity]
      refine good_mk ?_ ?_ hp
      · linarith
      · rw [← hsum]; linarith
  | identifier id name =>
      simp only [calculateNodeComplexity]
      exact good_leaf le_rfl
  | otherExpr id =>
      simp only [calculateNodeComplexity]
      exact good_leaf le_rfl

theorem good_exprList (es : List Expr) (ctx : Ctx) :
    GoodList (calculateExpressionList es ctx).1 := by
  match es with
  | [] =>
      simp only [calculateExpressionList]
      exact goodList_nil
  | e :: rest =>
      simp only [calculateExpressionList]
      exact goodList_cons.mpr ⟨good_exprW e ctx,
        good_exprList rest (calculateExpressionComplexityWithPattern e ctx).2⟩

theorem good_propList (ps : List ObjectProp) (ctx : Ctx) :
    GoodList (calculatePropertyList ps ctx).1 := by
  match ps with
  | [] =>
      simp only [calculatePropertyList]
      exact goodList_nil
  | .propertyAssignment init :: rest =>
      simp only [calculatePropertyList]
      exact goodList_cons.mpr ⟨good_exprW init ctx,
        good_propList rest (calculateExpressionComplexityWithPattern init ctx).2⟩
  | .otherProp :: rest =>
      simp only [calculatePropertyList]
      exact good_propList rest ctx
end

theorem good_declInits (ds : List VarDecl) (ctx : Ctx) :
    GoodList (scoreDeclInitializers ds ctx).1 := by
  induction ds generalizing ctx with
  | nil => simp only [scoreDeclInitializers]; exact goodList_nil
  | cons d rest ih =>
      cases h : d.init with
      | some e =>
          simp only [scoreDeclInitializers, h]
          exact goodList_cons.mpr ⟨good_exprW e ctx, ih _⟩
      | none => simp only [scoreDeclInitializers, h]; exact ih ctx

theorem scoreOptionalExpression_sum (o : Option Expr) (ctx : Ctx) :
    (scoreOptionalExpression o ctx).2.1 =
      ((scoreOptionalExpression o ctx).1.map ComplexityResult.score).sum := by
  cases o <;> simp [scoreOptionalExpression]

theorem good_optionalExpression (o : Option Expr) (ctx : Ctx) :
    GoodList (scoreOptionalExpression o ctx).1 := by
  cases o with
  | none => simp only [scoreOptionalExpression]; exact goodList_nil
  | some e =>
      simp only [scoreOptionalExpression]
      exact goodList_cons.mpr ⟨good_exprW e ctx, goodList_nil⟩

theorem scoreForInitializer_sum (o : Option ForInit) (ctx : Ctx) :
    (scoreForInitializer o ctx).2.1 =
      ((scoreForInitializer o ctx).1.map ComplexityResult.score).sum := by
  rcases o with _ | f
  · simp [scoreForInitializer]
  · cases f with
    | declList isLet ds =>
        simp only [scoreForInitializer]
        exact scoreDeclInitializers_sum ds ctx
    | exprInit e => simp [scoreForInitializer]

theorem good_forInitializer (o : Option ForInit) (ctx : Ctx) :
    GoodList (scoreForInitializer o ctx).1 := by
  rcases o with _ | f
  · simp only [scoreForInitializer]; exact goodList_nil
  · cases f with
    | declList isLet ds =>
        simp only [scoreForInitializer]
        exact good_declInits ds ctx
    | exprInit e =>
        simp only [scoreForInitializer]
        exact goodList_cons.mpr ⟨good_exprW e ctx, goodList_nil⟩

theorem good_circularStmt (s : Stmt) :
    Good (createCircularReferenceStatementResult s) := by
  cases s <;> (apply good_leaf; norm_num [createCircularReferenceStatementResult])

mutual
theorem good_monoStmtW (s : Stmt) (ctx : Ctx) :
    Good (Mono.calculateStatementComplexityWithPattern s ctx).1 := by
  simp only [Mono.calculateStatementComplexityWithPattern]
  split
  · exact good_truncated _
  · split
    · exact good_circularStmt _
    · exact good_monoStmtNode s _
termination_by (sizeOf s, 1)

theorem good_monoStmtNode (s : Stmt) (ctx : Ctx) :
    Good (Mono.calculateStatementNodeComplexity s ctx).1 := by
  cases s with
  | exprStmt id e =>
      have he := good_exprW e ctx
      simp only [Mono.calculateStatementNodeComplexity]
      refine good_mk ?_ ?_ (goodList_cons.mpr ⟨he, goodList_nil⟩)
      · have := good_score he; linarith
      · simp only [List.map_cons, List.map_nil, List.sum_cons, List.sum_nil]
        have := good_score he; linarith
  | varStmt id isLet decls =>
      have hd := good_declInits decls ctx
      have hsum := scoreDeclInitializers_sum decls ctx
      have hS : (0 : Rat) ≤ (scoreDeclInitializers decls ctx).2.1 := by
        rw [hsum]; exact scoreSum_nonneg hd
      simp only [Mono.calculateStatementNodeComplexity]
      refine good_mk ?_ ?_ hd
      · split <;> linarith
      · rw [← hsum]; split <;> linarith
  | ifStmt id cond thenS elseS =>
      have hc := good_exprW cond ctx
      have ht := good_monoStmtW thenS
        (calculateExpressionComplexityWithPattern cond ctx).2
      cases elseS with
      | some els =>
          have he := good_monoStmtW els
            (Mono.calculateStatementComplexityWithPattern thenS
              (calculateExpressionComplexityWithPattern cond ctx).2).2
          simp only [Mono.calculateStatementNodeComplexity]
          refine good_mk ?_ ?_ (goodList_cons.mpr ⟨hc, goodList_cons.mpr ⟨ht,
            goodList_cons.mpr ⟨he, goodList_nil⟩⟩⟩)
          · have := good_score hc; have := good_score ht; have := good_score he; linarith
          · simp only [List.map_cons, List.map_nil, List.sum_cons, List.sum_nil]
            linarith
      | none =>
          simp only [Mono.calculateStatementNodeComplexity]
          refine good_mk ?_ ?_ (goodList_cons.mpr ⟨hc, goodList_cons.mpr ⟨ht,
            goodList_nil⟩⟩)
          · have := good_score hc; have := good_score ht; linarith
          · simp only [List.map_cons, List.map_nil, List.sum_cons, List.sum_nil]
            linarith
  | forStmt id finit cond incr body =>
      have hf := good_forInitializer finit ctx
      have hfs := scoreForInitializer_sum finit ctx
      have hfS : (0 : Rat) ≤ (scoreForInitializer finit ctx).2.1 := by
        rw [hfs]; exact scoreSum_nonneg hf
      have hc := good_optionalExpression cond (scoreForInitializer finit ctx).2.2
      have hcs := scoreOptionalExpression_sum cond (scoreForInitializer finit ctx).2.2
      have hcS : (0 : Rat) ≤
          (scoreOptionalExpression cond (scoreForInitializer finit ctx).2.2).2.1 := by
        rw [hcs]; exact scoreSum_nonneg hc
      have hx := good_optionalExpression incr
        (scoreOptionalExpression cond (scoreForInitializer finit ctx).2.2).2.2
      have hxs := scoreOptionalExpression_sum incr
        (scoreOptionalExpression cond (scoreForInitializer finit ctx).2.2).2.2
      have hxS : (0 : Rat) ≤ (scoreOptionalExpression incr
          (scoreOptionalExpression cond (scoreForInitializer finit ctx).2.2).2.2).2.1 := by
        rw [hxs]; exact scoreSum_nonneg hx
      have hb := good_monoStmtW body
        (scoreOptionalExpression incr
          (scoreOptionalExpression cond (scoreForInitializer finit ctx).2.2).2.2).2.2
      simp only [Mono.calculateStatementNodeComplexity]
      refine good_mk ?_ ?_ (goodList_append.mpr ⟨goodList_append.mpr
        ⟨goodList_append.mpr ⟨hf, hc⟩, hx⟩, goodList_cons.mpr ⟨hb, goodList_nil⟩⟩)
      · have := good_score hb; linarith
      · simp only [List.map_append, List.sum_append, List.map_cons, List.map_nil,
          List.sum_cons, List.sum_nil]
        rw [← hfs, ← hcs, ← hxs]; linarith
  | forOfStmt id isForIn declIsLet declInits iter body =>
      have hd := good_declInits declInits ctx
      have hds := scoreDeclInitializers_sum declInits ctx
      have hdS : (0 : Rat) ≤ (scoreDeclInitializers declInits ctx).2.1 := by
        rw [hds]; exact scoreSum_nonneg hd
      have he := good_exprW iter (scoreDeclInitializers declInits ctx).2.2
      have hb := good_monoStmtW body
        (calculateExpressionComplexityWithPattern iter
          (scoreDeclInitializers declInits ctx).2.2).2
      simp only [Mono.calculateStatementNodeComplexity]
      refine good_mk ?_ ?_ (goodList_append.mpr ⟨hd, goodList_cons.mpr ⟨he,
        goodList_cons.mpr ⟨hb, goodList_nil⟩⟩⟩)
      · have := good_score he; have := good_score hb; linarith
      · simp only [List.map_append, List.sum_append, List.map_cons, List.map_nil,
          List.sum_cons, List.sum_nil]
        rw [← hds]; linarith
  | whileStmt id cond body =>
      have hc := good_exprW cond ctx
      have hb := good_monoStmtW body
        (calculateExpressionComplexityWithPattern cond ctx).2
      simp only [Mono.calculateStatementNodeComplexity]
      refine good_mk ?_ ?_ (goodList_cons.mpr ⟨hc, goodList_cons.mpr ⟨hb,
        goodList_nil⟩⟩)
      · have := good_score hc; have := good_score hb; linarith
      · simp only [List.map_cons, List.map_nil, List.sum_cons, List.sum_nil]
        linarith
  | doStmt id body cond =>
      have hb := good_monoStmtW body ctx
      have hc := good_exprW cond
        (Mono.calculateStatementComplexityWithPattern body ctx).2
      simp only [Mono.calculateStatementNodeComplexity]
      refine good_mk ?_ ?_ (goodList_cons.mpr ⟨hb, goodList_cons.mpr ⟨hc,
        goodList_nil⟩⟩)
      · have := good_score hc; have := good_score hb; linarith
      · simp only [List.map_cons, List.map_nil, List.sum_cons, List.sum_nil]
        linarith
  | switchStmt id disc clauses =>
      have hc := good_exprW disc ctx
      have hk := good_monoClauses clauses
        (calculateExpressionComplexityWithPattern disc ctx).2
      have hn : (0 : Rat) ≤ (clauses.length : Rat) := Nat.cast_nonneg _
      simp only [Mono.calculateStatementNodeComplexity]
      apply good_mk_switch
      · have := good_score hc; have := hk.2; nlinarith
      · exact goodList_cons.mpr ⟨hc, hk.1⟩
  | tryStmt id tryBlock catchC finallyBlock =>
      obtain ⟨bid, lines, stmts⟩ := tryBlock
      have ht := good_monoBlock bid stmts ctx
      have hcat := good_monoCatch catchC
        (Mono.calculateBlockComplexity bid stmts ctx).2
      have hfin := good_monoFinally finallyBlock
        (Mono.scoreCatchClause catchC
          (Mono.calculateBlockComplexity bid stmts ctx).2).2.2
      simp only [Mono.calculateStatementNodeComplexity]
      refine good_mk ?_ ?_ (goodList_cons.mpr ⟨ht,
        goodList_append.mpr ⟨hcat.1, hfin.1⟩⟩)
      · have := good_score ht; have := hcat.2.2; have := hfin.2.2; linarith
      · simp only [List.map_cons, List.sum_cons, List.map_append, List.sum_append]
        have := hcat.2.1; have := hfin.2.1; linarith
  | throwStmt id e =>
      have he := good_optionalExpression e ctx
      have hes := scoreOptionalExpression_sum e ctx
      have heS : (0 : Rat) ≤ (scoreOptionalExpression e ctx).2.1 := by
        rw [hes]; exact scoreSum_nonneg he
      simp only [Mono.calculateStatementNodeComplexity]
      refine good_mk ?_ ?_ he
      · linarith
      · rw [← hes]; linarith
  | returnStmt id e =>
      have he := good_optionalExpression e ctx
      have hes := scoreOptionalExpression_sum e ctx
      have heS : (0 : Rat) ≤ (scoreOptionalExpression e ctx).2.1 := by
        rw [hes]; exact scoreSum_nonneg he
      simp only [Mono.calculateStatementNodeComplexity]
      refine good_mk ?_ ?_ he
      · linarith
      · rw [← hes]; linarith
  | blockStmt bid stmts =>
      have hb := good_monoBlock bid stmts ctx
      simp only [Mono.calculateStatementNodeComplexity]
      refine good_mk ?_ ?_ (goodList_cons.mpr ⟨hb, goodList_nil⟩)
      · have := good_score hb; linarith
      · simp only [List.map_cons, List.map_nil, List.sum_cons, List.sum_nil]
        linarith
  | funcDecl id p b bid =>
      simp only [Mono.calculateStatementNodeComplexity]
      exact good_leaf le_rfl
  | classDecl id m h =>
      simp only [Mono.calculateStatementNodeComplexity]
      exact good_leaf le_rfl
  | interfaceDecl id m =>
      simp only [Mono.calculateStatementNodeComplexity]
      exact good_leaf le_rfl
  | importDecl id s hd b =>
      simp only [Mono.calculateStatementNodeComplexity]
      exact good_leaf le_rfl
  | otherStmt id =>
      simp only [Mono.calculateStatementNodeComplexity]
      exact good_leaf le_rfl
termination_by (sizeOf s, 0)

theorem good_monoCatch (o : Option CatchClause) (ctx : Ctx) :
    GoodList (Mono.scoreCatchClause o ctx).1 ∧
      ((Mono.scoreCatchClause o ctx).1.map ComplexityResult.score).sum ≤
        (Mono.scoreCatchClause o ctx).2.1 ∧
      0 ≤ (Mono.scoreCatchClause o ctx).2.1 := by
  cases o with
  | none =>
      simp only [Mono.scoreCatchClause]
      exact ⟨goodList_nil, by simp, le_rfl⟩
  | some c =>
      obtain ⟨hasVar, bid, lines, stmts⟩ := c
      have hb := good_monoBlock bid stmts ctx
      have hγ : (0 : Rat) ≤ (if hasVar then (1 : Rat)/2 else 0) := by
        split <;> norm_num
      simp only [Mono.scoreCatchClause]
      refine ⟨goodList_cons.mpr ⟨hb, goodList_nil⟩, ?_, ?_⟩
      · simp only [List.map_cons, List.map_nil, List.sum_cons, List.sum_nil]
        linarith
      · have := good_score hb; linarith
termination_by (sizeOf o, 0)

theorem good_monoFinally (o : Option Blk) (ctx : Ctx) :
    GoodList (Mono.scoreFinallyBlock o ctx).1 ∧
      ((Mono.scoreFinallyBlock o ctx).1.map ComplexityResult.score).sum ≤
        (Mono.scoreFinallyBlock o ctx).2.1 ∧
      0 ≤ (Mono.scoreFinallyBlock o ctx).2.1 := by
  cases o with
  | none =>
      simp only [Mono.scoreFinallyBlock]
      exact ⟨goodList_nil, by simp, le_rfl⟩
  | some b =>
      obtain ⟨bid, lines, stmts⟩ := b
      have hb := good_monoBlock bid stmts ctx
      simp only [Mono.scoreFinallyBlock]
      refine ⟨goodList_cons.mpr ⟨hb, goodList_nil⟩, ?_, ?_⟩
      · simp only [List.map_cons, List.map_nil, List.sum_cons, List.sum_nil]
        linarith
      · have := good_score hb; linarith
termination_by (sizeOf o, 0)

theorem good_monoClauses (cs : List SwitchClause) (ctx : Ctx) :
    GoodList (Mono.scoreSwitchClauses cs ctx).1 ∧
      0 ≤ (Mono.scoreSwitchClauses cs ctx).2.1 := by
  match cs with
  | [] =>
      simp only [Mono.scoreSwitchClauses]
      exact ⟨goodList_nil, le_rfl⟩
  | .caseClause e stmts :: rest =>
      have he := good_exprW e ctx
      have hs := good_monoStmtList stmts
        (calculateExpressionComplexityWithPattern e ctx).2
      have hss := mono_scoreStatementList_sum stmts
        (calculateExpressionComplexityWithPattern e ctx).2
      have hsS : (0 : Rat) ≤ (Mono.scoreStatementList stmts
          (calculateExpressionComplexityWithPattern e ctx).2).2.1 := by
        rw [hss]; exact scoreSum_nonneg hs
      have hr := good_monoClauses rest
        (Mono.scoreStatementList stmts
          (calculateExpressionComplexityWithPattern e ctx).2).2.2
      simp only [Mono.scoreSwitchClauses]
      refine ⟨goodList_cons.mpr ⟨he, goodList_append.mpr ⟨hs, hr.1⟩⟩, ?_⟩
      have := good_score he; have := hr.2; nlinarith
  | .defaultClause stmts :: rest =>
      have hs := good_monoStmtList stmts ctx
      have hss := mono_scoreStatementList_sum stmts ctx
      have hsS : (0 : Rat) ≤ (Mono.scoreStatementList stmts ctx).2.1 := by
        rw [hss]; exact scoreSum_nonneg hs
      have hr := good_monoClauses rest (Mono.scoreStatementList stmts ctx).2.2
      simp only [Mono.scoreSwitchClauses]
      refine ⟨goodList_append.mpr ⟨hs, hr.1⟩, ?_⟩
      have := hr.2; linarith
termination_by (sizeOf cs, 0)

theorem good_monoStmtList (ss : List Stmt) (ctx : Ctx) :
    GoodList (Mono.scoreStatementList ss ctx).1 := by
  match ss with
  | [] =>
      simp only [Mono.scoreStatementList]
      exact goodList_nil
  | s :: rest =>
      simp only [Mono.scoreStatementList]
      exact goodList_cons.mpr ⟨good_monoStmtW s ctx,
        good_monoStmtList rest
          (Mono.calculateStatementComplexityWithPattern s ctx).2⟩
termination_by (sizeOf ss, 1)

theorem good_monoBlock (bid : Nat) (stmts : List Stmt) (ctx : Ctx) :
    Good (Mono.calculateBlockComplexity bid stmts ctx).1 := by
  simp only [Mono.calculateBlockComplexity]
  split
  · exact good_truncated _
  · split
    · exact good_leaf le_rfl
    · have hs := good_monoStmtList stmts
        { ctx with
          visitedNodes := bid :: ctx.visitedNodes
          currentDepth := ctx.currentDepth + 1 }
      have hss := mono_scoreStatementList_sum stmts
        { ctx with
          visitedNodes := bid :: ctx.visitedNodes
          currentDepth := ctx.currentDepth + 1 }
      have hsS : (0 : Rat) ≤ (Mono.scoreStatementList stmts
          { ctx with
            visitedNodes := bid :: ctx.visitedNodes
            currentDepth := ctx.currentDepth + 1 }).2.1 := by
        rw [hss]; exact scoreSum_nonneg hs
      have hn : (0 : Rat) ≤ (stmts.length : Rat) := Nat.cast_nonneg _
      refine good_mk ?_ ?_ hs
      · nlinarith
      · rw [← hss]; nlinarith
termination_by (sizeOf stmts, 2)
end

/-- C1: inside the monolithic scorer (complexity.ts) the depth and cycle
guards behave as claimed, but `currentDepth` is decremented twice per
statement call (lines 754 and 1117), not once: a statement call entered with
`currentDepth = 0` completes with `currentDepth = -1`, while the expression
scorer, the block scorer, and the refactored statement.ts restore it to 0. -/
theorem mono_statement_call_leaves_depth_decremented :
    createComplexityContext.currentDepth = 0
    ∧ (Mono.calculateStatementComplexity returnOnlyStmt
        createComplexityContext).2.currentDepth = -1
    ∧ (Split.calculateStatementComplexity returnOnlyStmt
        createComplexityContext).2.currentDepth = 0
    ∧ (calculateExpressionComplexityWithPattern (.identifier 0 "x")
        createComplexityContext).2.currentDepth = 0
    ∧ (Mono.calculateBlockComplexity 0 []
        createComplexityContext).2.currentDepth = 0 := by
  refine ⟨rfl, ?_, ?_, ?_, ?_⟩ <;>
    simp +decide [Mono.calculateStatementComplexity,
      Mono.calculateStatementComplexityWithPattern,
      Mono.calculateStatementNodeComplexity, Mono.calculateBlockComplexity,
      Mono.scoreStatementList,
      Split.calculateStatementComplexity,
      Split.calculateStatementComplexityWithPattern,
      Split.calculateStatementNodeComplexity, Split.selectStatementCalculator,
      calculateExpressionComplexityWithPattern, calculateNodeComplexity,
      scoreOptionalExpression, createComplexityContext, returnOnlyStmt,
      Expr.nodeId, Expr.kind, Stmt.nodeId, Stmt.kind]

/-- C2 counterexample: the claimed invariant `score >= sum of children's
scores` fails at a switch statement (a case expression is pushed as a full
child but contributes only 0.3 of its score) and at the file-level root (a
parameterless function declaration is weighted 0.8): for
`switch (x) { case a > b: }` the node scores 3.49 against a children sum of
4.3, and a file of six parameterless function declarations scores 5.8 against
a children sum of 6. -/
theorem switch_and_file_root_score_below_children_sum :
    (Mono.calculateStatementComplexity switchDemo
        createComplexityContext).1.score <
      childScoreSum (Mono.calculateStatementComplexity switchDemo
        createComplexityContext).1
    ∧ (Split.calculateFileComplexity sixFunctionsFile).score <
        childScoreSum (Split.calculateFileComplexity sixFunctionsFile) := by
  constructor <;>
    · simp +decide [Mono.calculateStatementComplexity,
        Mono.calculateStatementComplexityWithPattern,
        Mono.calculateStatementNodeComplexity, Mono.scoreSwitchClauses,
        Mono.scoreStatementList,
        Split.calculateFileComplexity, Split.scoreFileStatements,
        Split.calculateStatementComplexity,
        Split.calculateStatementComplexityWithPattern,
        Split.calculateStatementNodeComplexity, Split.selectStatementCalculator,
        calculateExpressionComplexityWithPattern, calculateNodeComplexity,
        getBinaryOperatorComplexity, fileStatementWeight,
        createComplexityContext, switchDemo, sixFunctionsFile, childScoreSum,
        Expr.nodeId, Expr.kind, Stmt.nodeId, Stmt.kind]
      norm_num

/-- C2 as amended: every node produced by the statement, expression and block
scorers has score at least 1, and every such node other than a
switch-statement node has score at least the sum of its children's scores;
switch nodes and the weighted file-level root are the two exceptions. -/
theorem nonswitch_nodes_dominate_children_sum (s : Stmt) (e : Expr)
    (ctx1 ctx2 : Ctx) :
    (∀ sub ∈ preorderNodes (Mono.calculateStatementComplexity s ctx1).1,
      1 ≤ sub.score ∧
        (sub.nodeType ≠ .switchStatement → childScoreSum sub ≤ sub.score))
    ∧ (∀ sub ∈ preorderNodes
          (calculateExpressionComplexityWithPattern e ctx2).1,
      1 ≤ sub.score ∧
        (sub.nodeType ≠ .switchStatement → childScoreSum sub ≤ sub.score)) :=
  ⟨fun sub hsub => good_monoStmtW s ctx1 sub hsub,
   fun sub hsub => good_exprW e ctx2 sub hsub⟩

/-- C6 counterexample: for `let x = a + b` (declarationCount 1, initializer
score 3.1) the monolithic scorer of complexity.ts returns 4.6, which is the
flat form `1 + 3.1 + 0.5` and not the claimed multiplicative
`(1 + 3.1) * (1 + 0.5 * 1) = 6.15`; the refactored statement.ts returns
6.15. -/
theorem mono_let_statement_not_multiplicative :
    (Mono.calculateStatementComplexity letBinaryStmt
        createComplexityContext).1.score = 23/5
    ∧ ((1 : Rat) + 31/10) * (1 + 1 * (1/2)) = 123/20
    ∧ (Mono.calculateStatementComplexity letBinaryStmt
        createComplexityContext).1.score ≠
      ((1 : Rat) + 31/10) * (1 + 1 * (1/2))
    ∧ (Split.calculateStatementComplexity letBinaryStmt
        createComplexityContext).1.score = 123/20 := by
  refine ⟨?_, by norm_num, ?_, ?_⟩ <;>
    · simp +decide [Mono.calculateStatementComplexity,
        Mono.calculateStatementComplexityWithPattern,
        Mono.calculateStatementNodeComplexity,
        Split.calculateStatementComplexity,
        Split.calculateStatementComplexityWithPattern,
        Split.calculateStatementNodeComplexity, Split.selectStatementCalculator,
        Split.calculateVariableStatementNodeComplexity,
        scoreDeclInitializers, calculateExpressionComplexityWithPattern,
        calculateNodeComplexity, getBinaryOperatorComplexity,
        createComplexityContext, letBinaryStmt,
        Expr.nodeId, Expr.kind, Stmt.nodeId, Stmt.kind]
      norm_num

/-- C6 as amended: the pattern-based scorer of statement.ts
(`calculateVariableStatementNodeComplexity`) computes `1 + Σ
score(initializer)` and, for a `let` declaration list, multiplies the running
score by `1 + 0.5 × declarationCount` where `declarationCount` counts every
binding of the list; the legacy monolithic scorer of complexity.ts instead
adds a flat 0.5. -/
theorem split_variable_statement_let_multiplier (isLet : Bool)
    (decls : List VarDecl) (ctx : Ctx) :
    (Split.calculateVariableStatementNodeComplexity isLet decls ctx).1.score =
      (1 + childScoreSum
          (Split.calculateVariableStatementNodeComplexity isLet decls ctx).1) *
        (if isLet then 1 + (decls.length : Rat) * (1/2) else 1) := by
  have hsum := scoreDeclInitializers_sum decls ctx
  simp only [Split.calculateVariableStatementNodeComplexity, childScoreSum]
  rw [← hsum]
  cases isLet <;> simp

theorem insertScoreDesc_perm {α : Type} (f : α → Rat) (x : α) (l : List α) :
    (insertScoreDesc f x l).Perm (x :: l) := by
  induction l with
  | nil => simp [insertScoreDesc]
  | cons y ys ih =>
      simp only [insertScoreDesc]
      split
      · exact (List.Perm.cons y ih).trans (List.Perm.swap x y ys)
      · exact List.Perm.refl _

theorem sortScoreDesc_perm {α : Type} (f : α → Rat) (l : List α) :
    (sortScoreDesc f l).Perm l := by
  induction l with
  | nil => simp [sortScoreDesc]
  | cons x xs ih =>
      simp only [sortScoreDesc]
      exact (insertScoreDesc_perm f x (sortScoreDesc f xs)).trans
        (List.Perm.cons x ih)

theorem insertScoreDesc_sorted {α : Type} {f : α → Rat} {x : α} {l : List α}
    (h : l.Pairwise (fun a b => f b ≤ f a)) :
    (insertScoreDesc f x l).Pairwise (fun a b => f b ≤ f a) := by
  induction l with
  | nil => simp [insertScoreDesc]
  | cons y ys ih =>
      rw [List.pairwise_cons] at h
      simp only [insertScoreDesc]
      split
      · rename_i hlt
        rw [List.pairwise_cons]
        refine ⟨?_, ih h.2⟩
        intro z hz
        have hz2 := (insertScoreDesc_perm f x ys).mem_iff.mp hz
        rcases List.mem_cons.mp hz2 with rfl | hz3
        · linarith
        · exact h.1 z hz3
      · rename_i hge
        rw [List.pairwise_cons]
        refine ⟨?_, List.pairwise_cons.mpr h⟩
        intro z hz
        rcases List.mem_cons.mp hz with rfl | hz2
        · linarith [not_lt.mp hge]
        · have h1 := h.1 z hz2
          have h2 := not_lt.mp hge
          linarith

theorem sortScoreDesc_sorted {α : Type} (f : α → Rat) (l : List α) :
    (sortScoreDesc f l).Pairwise (fun a b => f b ≤ f a) := by
  induction l with
  | nil => simp [sortScoreDesc]
  | cons x xs ih =>
      simp only [sortScoreDesc]
      exact insertScoreDesc_sorted ih

theorem insertScoreDesc_filter {α : Type} (f : α → Rat) (x : α) (l : List α)
    (q : Rat) :
    (insertScoreDesc f x l).filter (fun y => f y == q) =
      if f x == q then x :: l.filter (fun y => f y == q)
      else l.filter (fun y => f y == q) := by
  induction l with
  | nil =>
      by_cases hx : f x == q
      · simp [insertScoreDesc, hx]
      · simp [insertScoreDesc, hx]
  | cons y ys ih =>
      simp only [insertScoreDesc]
      split
      · rename_i hlt
        rw [List.filter_cons, List.filter_cons, ih]
        by_cases hy : f y == q
        · have hyq : f y = q := by simpa using hy
          have hxq : ¬(f x == q) = true := by
            simp only [beq_iff_eq]
            intro hxe
            rw [hxe, hyq] at hlt
            exact lt_irrefl q hlt
          simp [hy, hxq]
        · simp [hy]
      · rw [List.filter_cons]

theorem sortScoreDesc_filter {α : Type} (f : α → Rat) (l : List α) (q : Rat) :
    (sortScoreDesc f l).filter (fun y => f y == q) =
      l.filter (fun y => f y == q) := by
  induction l with
  | nil => simp [sortScoreDesc]
  | cons x xs ih =>
      simp only [sortScoreDesc]
      rw [insertScoreDesc_filter, List.filter_cons]
      by_cases hx : f x == q
      · simp [hx, ih]
      · simp [hx, ih]

mutual
theorem extractHotspots_perm (r : ComplexityResult) (t : Rat) :
    (extractHotspots r t).Perm
      ((preorderNodes r).filter (fun n => decide (t ≤ n.score))) := by
  cases r with
  | mk score kind children tr ci =>
      simp only [extractHotspots, preorderNodes]
      refine (sortScoreDesc_perm _ _).trans ?_
      rw [List.filter_cons]
      by_cases ht : t ≤ score
      · simp only [ht, if_true, decide_True]
        exact List.Perm.cons _ (extractHotspotsChildren_perm children t)
      · simp only [ht, if_false, decide_False]
        exact extractHotspotsChildren_perm children t

theorem extractHotspotsChildren_perm (l : List ComplexityResult) (t : Rat) :
    (extractHotspotsChildren l t).Perm
      ((preorderForest l).filter (fun n => decide (t ≤ n.score))) := by
  cases l with
  | nil => simp [extractHotspotsChildren, preorderForest]
  | cons c cs =>
      simp only [extractHotspotsChildren, preorderForest, List.filter_append]
      exact List.Perm.append (extractHotspots_perm c t)
        (extractHotspotsChildren_perm cs t)
end

theorem extractHotspots_sorted (r : ComplexityResult) (t : Rat) :
    (extractHotspots r t).Pairwise (fun a b => b.score ≤ a.score) := by
  cases r with
  | mk score kind children tr ci =>
      simp only [extractHotspots]
      exact sortScoreDesc_sorted ComplexityResult.score _

mutual
theorem extractHotspots_scoreFilter (r : ComplexityResult) (t q : Rat) :
    (extractHotspots r t).filter (fun n => n.score == q) =
      ((preorderNodes r).filter
        (fun n => decide (t ≤ n.score))).filter (fun n => n.score == q) := by
  cases r with
  | mk score kind children tr ci =>
      simp only [extractHotspots, preorderNodes]
      rw [sortScoreDesc_filter, List.filter_append, List.filter_cons]
      by_cases ht : t ≤ score
      · simp only [ht, if_true, decide_True]
        rw [extractHotspotsChildren_scoreFilter children t q, List.filter_cons]
        by_cases hq : score == q
        · simp [hq]
        · simp [hq]
      · simp only [ht, if_false, decide_False]
        rw [List.filter_nil, List.nil_append]
        exact extractHotspotsChildren_scoreFilter children t q

theorem extractHotspotsChildren_scoreFilter (l : List ComplexityResult)
    (t q : Rat) :
    (extractHotspotsChildren l t).filter (fun n => n.score == q) =
      ((preorderForest l).filter
        (fun n => decide (t ≤ n.score))).filter (fun n => n.score == q) := by
  cases l with
  | nil => simp [extractHotspotsChildren, preorderForest]
  | cons c cs =>
      simp only [extractHotspotsChildren, preorderForest, List.filter_append]
      rw [extractHotspots_scoreFilter c t q,
        extractHotspotsChildren_scoreFilter cs t q]
end

mutual
theorem preorder_map_flatten (r : ComplexityResult) :
    (preorderNodes r).map (fun n => FlatEntry.mk n.nodeType n.score) =
      flattenComplexityResult r := by
  cases r with
  | mk score kind children tr ci =>
      simp only [preorderNodes, flattenComplexityResult, List.map_cons]
      rw [preorderForest_map_flatten children]

theorem preorderForest_map_flatten (l : List ComplexityResult) :
    (preorderForest l).map (fun n => FlatEntry.mk n.nodeType n.score) =
      flattenChildren l := by
  cases l with
  | nil => simp [preorderForest, flattenChildren]
  | cons c cs =>
      simp only [preorderForest, flattenChildren, List.map_append]
      rw [preorder_map_flatten c, preorderForest_map_flatten cs]
end

/-- C7: `extractHotspots(r, t)` is a permutation of the pre-order list of the
nodes of `r` (root included) whose score is at least `t`; it is sorted by
score descending; for every score value the sub-list of entries with that
score keeps the pre-order encounter order (stability of the tie-breaking);
and the pre-order node list projects exactly to `flatten(r)`, so the
hotspot list is a sub-collection of the flattened tree.  The embedding is a
pure function, so the input tree is unchanged. -/
theorem extractHotspots_contract (r : ComplexityResult) (t : Rat) :
    (extractHotspots r t).Perm
      ((preorderNodes r).filter (fun n => decide (t ≤ n.score)))
    ∧ (extractHotspots r t).Pairwise (fun a b => b.score ≤ a.score)
    ∧ (∀ q : Rat, (extractHotspots r t).filter (fun n => n.score == q) =
        ((preorderNodes r).filter
          (fun n => decide (t ≤ n.score))).filter (fun n => n.score == q))
    ∧ (preorderNodes r).map (fun n => FlatEntry.mk n.nodeType n.score) =
        flattenComplexityResult r :=
  ⟨extractHotspots_perm r t, extractHotspots_sorted r t,
   fun q => extractHotspots_scoreFilter r t q, preorder_map_flatten r⟩

mutual
theorem processNode_count (r : ComplexityResult) (d : Nat) (acc : Nat × Nat) :
    (processNode r d acc).1 = acc.1 + (flattenChildren r.children).length := by
  cases r with
  | mk score kind children tr ci =>
      simp only [processNode]
      rw [processNodeChildren_count children d]

theorem processNodeChildren_count (l : List ComplexityResult) (d : Nat)
    (acc : Nat × Nat) :
    (processNodeChildren l d acc).1 = acc.1 + (flattenChildren l).length := by
  cases l with
  | nil => simp [processNodeChildren, flattenChildren]
  | cons c cs =>
      simp only [processNodeChildren, flattenChildren]
      rw [processNodeChildren_count cs d, processNode_count c (d + 1)]
      cases c with
      | mk score kind children tr ci =>
          simp only [flattenComplexityResult, List.length_append,
            List.length_cons]
          omega
end

theorem forestDepthFrom_max (l : List ComplexityResult) (d : Nat) :
    max d (forestDepthFrom l d) = d + specRootToLeafDepthForest l := by
  induction l with
  | nil => simp [forestDepthFrom, specRootToLeafDepthForest]
  | cons c cs ih =>
      cases c with
      | mk score kind children tr ci =>
          simp only [forestDepthFrom, specRootToLeafDepthForest,
            specRootToLeafDepth] at *
          omega

mutual
theorem processNode_depth (r : ComplexityResult) (d : Nat) (acc : Nat × Nat) :
    (processNode r d acc).2 =
      max acc.2 (d + specRootToLeafDepthForest r.children) := by
  cases r with
  | mk score kind children tr ci =>
      simp only [processNode]
      rw [processNodeChildren_depth children d]
      have h := forestDepthFrom_max children d
      omega

theorem processNodeChildren_depth (l : List ComplexityResult) (d : Nat)
    (acc : Nat × Nat) :
    (processNodeChildren l d acc).2 = max acc.2 (forestDepthFrom l d) := by
  cases l with
  | nil => simp [processNodeChildren, forestDepthFrom]
  | cons c cs =>
      simp only [processNodeChildren, forestDepthFrom]
      rw [processNodeChildren_depth cs d, processNode_depth c (d + 1)]
      omega
end

/-- C8: `summarize` returns `totalScore = r.score`; `nodeCount` equal to the
length of `flatten(r)` (which is at least 1); `maxDepth` equal to the longest
root-to-leaf path length with the root counting as depth 1; `averageScore =
totalScore / nodeCount`; and `topHotspots` (field `hotspots`) equal to the
first 5 entries of `flatten(r)` sorted by score descending, independent of
any threshold. -/
theorem summarize_contract (r : ComplexityResult) :
    (summarizeComplexityResult r).totalScore = r.score
    ∧ (summarizeComplexityResult r).nodeCount =
        (flattenComplexityResult r).length
    ∧ 1 ≤ (summarizeComplexityResult r).nodeCount
    ∧ (summarizeComplexityResult r).maxDepth = specRootToLeafDepth r
    ∧ (summarizeComplexityResult r).averageScore =
        (summarizeComplexityResult r).totalScore /
          ((summarizeComplexityResult r).nodeCount : Rat)
    ∧ (summarizeComplexityResult r).hotspots =
        (sortScoreDesc FlatEntry.score (flattenComplexityResult r)).take 5 := by
  have hcount := processNode_count r 1 (1, 0)
  have hdepth := processNode_depth r 1 (1, 0)
  cases r with
  | mk score kind children tr ci =>
      simp only [summarizeComplexityResult, flattenComplexityResult,
        specRootToLeafDepth, List.length_cons] at *
      refine ⟨?_, ?_, ?_, ?_, ?_, ?_⟩ <;> first | trivial | omega


theorem hotOk_addHotspot {m : Metrics.CodeComplexityMetrics}
    (h : MetricsHotOk m) (kind : NodeKind) (s : Rat) :
    MetricsHotOk (Metrics.addHotspot m kind s) := by
  intro x hx
  simp only [Metrics.addHotspot] at hx
  split at hx
  · rename_i hs
    simp only [List.mem_append, List.mem_singleton] at hx
    rcases hx with hx | rfl
    · exact h x hx
    · exact hs
  · exact h x hx

theorem hotOk_addVariableMutability {m : Metrics.CodeComplexityMetrics}
    (h : MetricsHotOk m) (s : Rat) :
    MetricsHotOk (Metrics.addVariableMutability m s) := h

theorem hotOk_addScope {m : Metrics.CodeComplexityMetrics}
    (h : MetricsHotOk m) (s : Rat) : MetricsHotOk (Metrics.addScope m s) := h

theorem hotOk_addAssignment {m : Metrics.CodeComplexityMetrics}
    (h : MetricsHotOk m) (s : Rat) :
    MetricsHotOk (Metrics.addAssignment m s) := h

theorem hotOk_addFunction {m : Metrics.CodeComplexityMetrics}
    (h : MetricsHotOk m) (s : Rat) :
    MetricsHotOk (Metrics.addFunction m s) := h

theorem hotOk_addConditional {m : Metrics.CodeComplexityMetrics}
    (h : MetricsHotOk m) (s : Rat) :
    MetricsHotOk (Metrics.addConditional m s) := h

theorem hotOk_addException {m : Metrics.CodeComplexityMetrics}
    (h : MetricsHotOk m) (s : Rat) :
    MetricsHotOk (Metrics.addException m s) := h

theorem hotOk_scopeBranch {m : Metrics.CodeComplexityMetrics}
    (h : MetricsHotOk m) (kind : NodeKind) (n : Nat) :
    MetricsHotOk (Metrics.scopeBranch m kind n) := by
  simp only [Metrics.scopeBranch]
  split
  · exact hotOk_addHotspot (hotOk_addScope h _) _ _
  · exact hotOk_addScope h _

theorem hotOk_variableDeclarationBranch {m : Metrics.CodeComplexityMetrics}
    (h : MetricsHotOk m) (mm : Metrics.MutationMap) (isLet : Bool)
    (d : VarDecl) :
    MetricsHotOk (Metrics.variableDeclarationBranch mm m isLet d) := by
  simp only [Metrics.variableDeclarationBranch]
  split
  · split
    · split
      · exact hotOk_addHotspot (hotOk_addVariableMutability h _) _ _
      · exact h
    · exact h
  · exact h

mutual
theorem hotOk_visitExpr (mm : Metrics.MutationMap) (e : Expr)
    (m : Metrics.CodeComplexityMetrics) (h : MetricsHotOk m) :
    MetricsHotOk (Metrics.visitExpr mm e m) := by
  have h1 : MetricsHotOk
      (match e with
       | .binary _ .assign _ _ => Metrics.addAssignment m 1
       | _ => m) := by
    split
    · exact hotOk_addAssignment h _
    · exact h
  cases e with
  | binary id op l r =>
      simp only [Metrics.visitExpr]
      exact hotOk_visitExpr mm r _ (hotOk_visitExpr mm l _ h1)
  | prefixUnary id op o =>
      simp only [Metrics.visitExpr]
      exact hotOk_visitExpr mm o _ h1
  | postfixUnary id o =>
      simp only [Metrics.visitExpr]
      exact hotOk_visitExpr mm o _ h1
  | conditional id c t f =>
      simp only [Metrics.visitExpr]
      exact hotOk_visitExpr mm f _
        (hotOk_visitExpr mm t _ (hotOk_visitExpr mm c _ h1))
  | call id callee args =>
      simp only [Metrics.visitExpr]
      exact hotOk_visitExprList mm args _ (hotOk_visitExpr mm callee _ h1)
  | propertyAccess id o name =>
      simp only [Metrics.visitExpr]
      exact hotOk_visitExpr mm o _ h1
  | elementAccess id o i =>
      simp only [Metrics.visitExpr]
      exact hotOk_visitExpr mm i _ (hotOk_visitExpr mm o _ h1)
  | objectLiteral id props =>
      simp only [Metrics.visitExpr]
      exact hotOk_visitProps mm props _ h1
  | arrayLiteral id elems =>
      simp only [Metrics.visitExpr]
      exact hotOk_visitExprList mm elems _ h1
  | identifier id name =>
      simp only [Metrics.visitExpr]
      exact h1
  | otherExpr id =>
      simp only [Metrics.visitExpr]
      exact h1
termination_by (sizeOf e, 0)

theorem hotOk_visitExprList (mm : Metrics.MutationMap) (es : List Expr)
    (m : Metrics.CodeComplexityMetrics) (h : MetricsHotOk m) :
    MetricsHotOk (Metrics.visitExprList mm es m) := by
  match es with
  | [] =>
      simp only [Metrics.visitExprList]
      exact h
  | e :: rest =>
      simp only [Metrics.visitExprList]
      exact hotOk_visitExprList mm rest _ (hotOk_visitExpr mm e _ h)
termination_by (sizeOf es, 0)

theorem hotOk_visitProps (mm : Metrics.MutationMap) (ps : List ObjectProp)
    (m : Metrics.CodeComplexityMetrics) (h : MetricsHotOk m) :
    MetricsHotOk (Metrics.visitProps mm ps m) := by
  match ps with
  | [] =>
      simp only [Metrics.visitProps]
      exact h
  | .propertyAssignment init :: rest =>
      simp only [Metrics.visitProps]
      exact hotOk_visitProps mm rest _ (hotOk_visitExpr mm init _ h)
  | .otherProp :: rest =>
      simp only [Metrics.visitProps]
      exact hotOk_visitProps mm rest _ h
termination_by (sizeOf ps, 0)
end

theorem hotOk_visitOptExpr (mm : Metrics.MutationMap) (o : Option Expr)
    (m : Metrics.CodeComplexityMetrics) (h : MetricsHotOk m) :
    MetricsHotOk (Metrics.visitOptExpr mm o m) := by
  cases o with
  | none => exact h
  | some e => exact hotOk_visitExpr mm e m h

mutual
theorem hotOk_visitStmt (mm : Metrics.MutationMap) (s : Stmt)
    (m : Metrics.CodeComplexityMetrics) (h : MetricsHotOk m) :
    MetricsHotOk (Metrics.visitStmt mm s m) := by
  cases s with
  | exprStmt id e =>
      simp only [Metrics.visitStmt]
      exact hotOk_visitExpr mm e _ h
  | varStmt id isLet decls =>
      simp only [Metrics.visitStmt]
      exact hotOk_visitDecls mm isLet decls _ h
  | ifStmt id cond t e =>
      simp only [Metrics.visitStmt]
      refine hotOk_visitOptStmt mm e _ (hotOk_visitStmt mm t _
        (hotOk_visitExpr mm cond _ ?_))
      split
      · exact hotOk_addHotspot (hotOk_addConditional h _) _ _
      · exact hotOk_addConditional h _
  | forStmt id finit cond incr body =>
      simp only [Metrics.visitStmt]
      exact hotOk_visitStmt mm body _ (hotOk_visitOptExpr mm incr _
        (hotOk_visitOptExpr mm cond _ (hotOk_visitForInit mm finit _ h)))
  | forOfStmt id isForIn declIsLet decls iter body =>
      simp only [Metrics.visitStmt]
      exact hotOk_visitStmt mm body _ (hotOk_visitExpr mm iter _
        (hotOk_visitDecls mm declIsLet decls _ h))
  | whileStmt id cond body =>
      simp only [Metrics.visitStmt]
      exact hotOk_visitStmt mm body _ (hotOk_visitExpr mm cond _ h)
  | doStmt id body cond =>
      simp only [Metrics.visitStmt]
      exact hotOk_visitExpr mm cond _ (hotOk_visitStmt mm body _ h)
  | switchStmt id disc clauses =>
      simp only [Metrics.visitStmt]
      refine hotOk_visitClauses mm clauses _ (hotOk_visitExpr mm disc _ ?_)
      split
      · exact hotOk_addHotspot (hotOk_addConditional h _) _ _
      · exact hotOk_addConditional h _
  | tryStmt id tryBlock c f =>
      obtain ⟨bid, tryLines, ss⟩ := tryBlock
      simp only [Metrics.visitStmt]
      refine hotOk_visitFinally mm f _ (hotOk_visitCatch mm c _
        (hotOk_visitBlockStmts mm ss _ ?_))
      split
      · exact hotOk_addHotspot (hotOk_addException h _) _ _
      · exact hotOk_addException h _
  | throwStmt id e =>
      cases e with
      | none =>
          simp only [Metrics.visitStmt]
          exact hotOk_visitOptExpr mm none _ (hotOk_addException h _)
      | some ex =>
          simp only [Metrics.visitStmt]
          exact hotOk_visitOptExpr mm (some ex) _ (hotOk_addException h _)
  | returnStmt id e =>
      simp only [Metrics.visitStmt]
      exact hotOk_visitOptExpr mm e _ h
  | blockStmt id ss =>
      simp only [Metrics.visitStmt]
      exact hotOk_visitStmtList mm ss _ (hotOk_scopeBranch h _ _)
  | funcDecl id params body bodyId =>
      simp only [Metrics.visitStmt]
      refine hotOk_visitBlockStmts mm body _ ?_
      split
      · exact hotOk_addHotspot (hotOk_addFunction h _) _ _
      · exact hotOk_addFunction h _
  | classDecl id mc hh =>
      simp only [Metrics.visitStmt]
      exact h
  | interfaceDecl id mc =>
      simp only [Metrics.visitStmt]
      exact h
  | importDecl id sp hd b =>
      simp only [Metrics.visitStmt]
      exact h
  | otherStmt id =>
      simp only [Metrics.visitStmt]
      exact h
termination_by (sizeOf s, 0)

theorem hotOk_visitStmtList (mm : Metrics.MutationMap) (ss : List Stmt)
    (m : Metrics.CodeComplexityMetrics) (h : MetricsHotOk m) :
    MetricsHotOk (Metrics.visitStmtList mm ss m) := by
  match ss with
  | [] =>
      simp only [Metrics.visitStmtList]
      exact h
  | s :: rest =>
      simp only [Metrics.visitStmtList]
      exact hotOk_visitStmtList mm rest _ (hotOk_visitStmt mm s _ h)
termination_by (sizeOf ss, 0)

theorem hotOk_visitBlockStmts (mm : Metrics.MutationMap) (ss : List Stmt)
    (m : Metrics.CodeComplexityMetrics) (h : MetricsHotOk m) :
    MetricsHotOk (Metrics.visitBlockStmts mm ss m) := by
  simp only [Metrics.visitBlockStmts]
  exact hotOk_visitStmtList mm ss _ (hotOk_scopeBranch h _ _)
termination_by (sizeOf ss, 1)

theorem hotOk_visitOptStmt (mm : Metrics.MutationMap) (o : Option Stmt)
    (m : Metrics.CodeComplexityMetrics) (h : MetricsHotOk m) :
    MetricsHotOk (Metrics.visitOptStmt mm o m) := by
  match o with
  | none =>
      simp only [Metrics.visitOptStmt]
      exact h
  | some s =>
      simp only [Metrics.visitOptStmt]
      exact hotOk_visitStmt mm s _ h
termination_by (sizeOf o, 0)

theorem hotOk_visitDecls (mm : Metrics.MutationMap) (isLet : Bool)
    (ds : List VarDecl) (m : Metrics.CodeComplexityMetrics)
    (h : MetricsHotOk m) : MetricsHotOk (Metrics.visitDecls mm isLet ds m) := by
  match ds with
  | [] =>
      simp only [Metrics.visitDecls]
      exact h
  | d :: rest =>
      simp only [Metrics.visitDecls]
      refine hotOk_visitDecls mm isLet rest _ ?_
      have h2 := hotOk_variableDeclarationBranch h mm isLet d
      match hd : d.init with
      | none => exact h2
      | some e => exact hotOk_visitExpr mm e _ h2
termination_by (sizeOf ds, 0)

theorem hotOk_visitForInit (mm : Metrics.MutationMap) (o : Option ForInit)
    (m : Metrics.CodeComplexityMetrics) (h : MetricsHotOk m) :
    MetricsHotOk (Metrics.visitForInit mm o m) := by
  match o with
  | none =>
      simp only [Metrics.visitForInit]
      exact h
  | some (.declList isLet ds) =>
      simp only [Metrics.visitForInit]
      exact hotOk_visitDecls mm isLet ds _ h
  | some (.exprInit e) =>
      simp only [Metrics.visitForInit]
      exact hotOk_visitExpr mm e _ h

theorem hotOk_visitClauses (mm : Metrics.MutationMap)
    (cs : List SwitchClause) (m : Metrics.CodeComplexityMetrics)
    (h : MetricsHotOk m) : MetricsHotOk (Metrics.visitClauses mm cs m) := by
  match cs with
  | [] =>
      simp only [Metrics.visitClauses]
      exact h
  | .caseClause e ss :: rest =>
      simp only [Metrics.visitClauses]
      exact hotOk_visitClauses mm rest _
        (hotOk_visitStmtList mm ss _ (hotOk_visitExpr mm e _ h))
  | .defaultClause ss :: rest =>
      simp only [Metrics.visitClauses]
      exact hotOk_visitClauses mm rest _ (hotOk_visitStmtList mm ss _ h)
termination_by (sizeOf cs, 0)

theorem hotOk_visitCatch (mm : Metrics.MutationMap)
    (o : Option CatchClause) (m : Metrics.CodeComplexityMetrics)
    (h : MetricsHotOk m) : MetricsHotOk (Metrics.visitCatch mm o m) := by
  match o with
  | none =>
      simp only [Metrics.visitCatch]
      exact h
  | some (.mk hv (.mk bid lines ss)) =>
      simp only [Metrics.visitCatch]
      exact hotOk_visitBlockStmts mm ss _ h
termination_by (sizeOf o, 0)

theorem hotOk_visitFinally (mm : Metrics.MutationMap) (o : Option Blk)
    (m : Metrics.CodeComplexityMetrics) (h : MetricsHotOk m) :
    MetricsHotOk (Metrics.visitFinally mm o m) := by
  match o with
  | none =>
      simp only [Metrics.visitFinally]
      exact h
  | some (.mk bid lines ss) =>
      simp only [Metrics.visitFinally]
      exact hotOk_visitBlockStmts mm ss _ h
termination_by (sizeOf o, 0)
end

/-- C10: every hotspot recorded by `analyzeCodeComplexity` has score at
least 3 (`addHotspot` is the only writer of the hotspot list and gates on
the fixed cutoff), and the returned list is sorted by score descending. -/
theorem analyze_hotspots_cutoff_sorted (file : SourceFileAst) :
    (∀ h ∈ (Metrics.analyzeCodeComplexity file).hotspots, 3 ≤ h.score)
    ∧ (Metrics.analyzeCodeComplexity file).hotspots.Pairwise
        (fun a b => b.score ≤ a.score) := by
  have hvisit : MetricsHotOk (Metrics.visitFile (Metrics.trackFile file [])
      file Metrics.initializeMetrics) := by
    simp only [Metrics.visitFile]
    refine hotOk_visitStmtList _ _ _ (hotOk_scopeBranch ?_ _ _)
    intro x hx
    simp [Metrics.initializeMetrics] at hx
  constructor
  · intro x hx
    simp only [Metrics.analyzeCodeComplexity] at hx
    have hmem := (sortScoreDesc_perm Metrics.Hotspot.score _).mem_iff.mp hx
    exact hvisit x hmem
  · simp only [Metrics.analyzeCodeComplexity]
    exact sortScoreDesc_sorted Metrics.Hotspot.score _

/-- C9: the comparator verdict is antisymmetric (`A` for `compare(a, b)`
exactly when `B` for `compare(b, a)`, and `NEITHER` on both orders
simultaneously), `compare(a, a)` always reports `NEITHER`, and each scalar
is the weighted sum of the six category scores of the snippet-local
analysis of the corresponding input. -/
theorem compare_antisymmetry (a b : SourceFileAst)
    (w : Metrics.ComplexityWeights) :
    ((Metrics.compareCodeComplexity a b w).betterCode = .A ↔
      (Metrics.compareCodeComplexity b a w).betterCode = .B)
    ∧ ((Metrics.compareCodeComplexity a b w).betterCode = .B ↔
      (Metrics.compareCodeComplexity b a w).betterCode = .A)
    ∧ ((Metrics.compareCodeComplexity a b w).betterCode = .NEITHER ↔
      (Metrics.compareCodeComplexity b a w).betterCode = .NEITHER)
    ∧ (Metrics.compareCodeComplexity a a w).betterCode = .NEITHER
    ∧ (Metrics.compareCodeComplexity a b w).scoreA =
        Metrics.calculateComplexityScore (Metrics.analyzeCodeComplexity a) w
    ∧ (Metrics.compareCodeComplexity a b w).scoreB =
        Metrics.calculateComplexityScore (Metrics.analyzeCodeComplexity b) w := by
  simp only [Metrics.compareCodeComplexity]
  rcases lt_trichotomy
      (Metrics.calculateComplexityScore (Metrics.analyzeCodeComplexity a) w)
      (Metrics.calculateComplexityScore (Metrics.analyzeCodeComplexity b) w)
    with h | h | h
  · simp [h, not_lt.mpr (le_of_lt h), lt_irrefl]
  · simp [h, lt_irrefl]
  · simp [h, not_lt.mpr (le_of_lt h), lt_irrefl]


theorem mem_pathsOf {st : ModState} {p : String} :
    p ∈ pathsOf st ↔ ∃ m ∈ st, m.path = p := by
  simp [pathsOf, eq_comm]

theorem findModule_eq_some {st : ModState} {p : String} {m : ModuleDependency}
    (h : findModule st p = some m) : m.path = p ∧ m ∈ st := by
  refine ⟨?_, List.mem_of_find?_eq_some h⟩
  have := List.find?_some h
  simpa using this

theorem findModule_isSome {st : ModState} {p : String} :
    (findModule st p).isSome = true ↔ p ∈ pathsOf st := by
  induction st with
  | nil => simp [findModule, pathsOf]
  | cons m rest ih =>
      by_cases h : m.path = p
      · simp [findModule, pathsOf, List.find?_cons, h]
      · simp only [findModule, pathsOf] at ih ⊢
        rw [List.find?_cons]
        simp only [List.map_cons, List.mem_cons]
        have hb : (m.path == p) = false := by simp [h]
        simp [hb, ih, h, Ne.symm h]

theorem findModule_eq_none {st : ModState} {p : String} :
    findModule st p = none ↔ p ∉ pathsOf st := by
  rw [← findModule_isSome]
  cases findModule st p <;> simp

theorem findModule_mem_nodup {st : ModState} {m : ModuleDependency}
    (hnd : (pathsOf st).Nodup) (hm : m ∈ st) : findModule st m.path = some m := by
  induction st with
  | nil => simp at hm
  | cons x rest ih =>
      rcases List.mem_cons.mp hm with rfl | hm'
      · simp [findModule, List.find?_cons]
      · simp [pathsOf] at hnd
        have hx : x.path ≠ m.path := fun he => (hnd.1 m hm') he.symm
        have hnd' : (pathsOf rest).Nodup := by simp [pathsOf, hnd.2]
        have hb : (x.path == m.path) = false := by simp [hx]
        simp [findModule, List.find?_cons, hb] at ih ⊢
        exact ih hnd' hm'

theorem findModule_map {st : ModState} {p : String}
    {g : ModuleDependency → ModuleDependency}
    (hg : ∀ x, (g x).path = x.path) :
    findModule (st.map g) p = (findModule st p).map g := by
  have hpred : ((fun m : ModuleDependency => m.path == p) ∘ g) =
      (fun m : ModuleDependency => m.path == p) := by
    funext x
    simp [Function.comp, hg]
  rw [findModule, List.find?_map, hpred, findModule]

theorem pathsOf_map {st : ModState}
    {g : ModuleDependency → ModuleDependency}
    (hg : ∀ x, (g x).path = x.path) :
    pathsOf (st.map g) = pathsOf st := by
  simp [pathsOf, Function.comp, hg]

theorem findModule_update {st : ModState} {p q : String}
    {f : ModuleDependency → ModuleDependency}
    (hf : ∀ x, (f x).path = x.path) :
    findModule (updateModule st p f) q =
      if q = p then (findModule st p).map
        (fun x => if x.path == p then f x else x)
      else findModule st q := by
  have hg : ∀ x, ((fun x => if x.path == p then f x else x) x).path = x.path := by
    intro x
    by_cases h : x.path = p <;> simp [h, hf]
  rw [updateModule, findModule_map hg]
  by_cases h : q = p
  · subst h; simp
  · simp only [if_neg h]
    cases hfind : findModule st q with
    | none => rfl
    | some m =>
        have hm := (findModule_eq_some hfind).1
        have hb : (m.path == p) = false := by simp [hm, h]
        simp [hb]
        intro hcon
        exact absurd (hm.symm.trans hcon) h

theorem pathsOf_update {st : ModState} {p : String}
    {f : ModuleDependency → ModuleDependency}
    (hf : ∀ x, (f x).path = x.path) :
    pathsOf (updateModule st p f) = pathsOf st := by
  apply pathsOf_map
  intro x
  by_cases h : x.path = p <;> simp [h, hf]

theorem modEvolves_refl (m : ModuleDependency) : ModEvolves m m := by
  refine ⟨rfl, rfl, rfl, fun h => h, fun d hd => hd, fun _ => rfl⟩

theorem modEvolves_trans {a b c : ModuleDependency}
    (h1 : ModEvolves a b) (h2 : ModEvolves b c) : ModEvolves a c := by
  obtain ⟨p1, f1, c1, v1, s1, z1⟩ := h1
  obtain ⟨p2, f2, c2, v2, s2, z2⟩ := h2
  refine ⟨p2.trans p1, f2.trans f1, c2.trans c1, fun h => v2 (v1 h),
    fun d hd => s1 (s2 hd), fun h => ?_⟩
  rw [z2 (v1 h), z1 h]

theorem stEvolves_refl (st : ModState) : StEvolves st st := by
  induction st with
  | nil => exact List.Forall₂.nil
  | cons m rest ih => exact List.Forall₂.cons (modEvolves_refl m) ih

theorem stEvolves_trans {a b c : ModState}
    (h1 : StEvolves a b) (h2 : StEvolves b c) : StEvolves a c := by
  induction h1 generalizing c with
  | nil => cases h2; exact List.Forall₂.nil
  | cons hm hrest ih =>
      cases h2 with
      | cons hm2 hrest2 => exact List.Forall₂.cons (modEvolves_trans hm hm2) (ih hrest2)

theorem stEvolves_map {st : ModState} {g : ModuleDependency → ModuleDependency}
    (hg : ∀ x ∈ st, ModEvolves x (g x)) : StEvolves st (st.map g) := by
  induction st with
  | nil => exact List.Forall₂.nil
  | cons m rest ih =>
      exact List.Forall₂.cons (hg m (List.mem_cons_self m rest))
        (ih (fun x hx => hg x (List.mem_cons_of_mem m hx)))

theorem stEvolves_update {st : ModState} {p : String}
    {f : ModuleDependency → ModuleDependency}
    (hf : ∀ x ∈ st, x.path = p → ModEvolves x (f x)) :
    StEvolves st (updateModule st p f) := by
  apply stEvolves_map
  intro x hx
  by_cases h : x.path = p
  · simp only [h]
    simp
    exact hf x hx h
  · have hb : (x.path == p) = false := by simp [h]
    simp [hb]
    exact modEvolves_refl x

theorem stEvolves_pathsOf {st st' : ModState} (h : StEvolves st st') :
    pathsOf st' = pathsOf st := by
  induction h with
  | nil => rfl
  | cons hm hrest ih =>
      simp only [pathsOf, List.map_cons] at ih ⊢
      rw [ih, hm.1]

theorem stEvolves_find {st st' : ModState} (h : StEvolves st st') (p : String) :
    (findModule st p = none ∧ findModule st' p = none) ∨
      ∃ m m', findModule st p = some m ∧ findModule st' p = some m' ∧
        ModEvolves m m' := by
  induction h with
  | nil => exact Or.inl ⟨rfl, rfl⟩
  | cons hm hrest ih =>
      rename_i a b l1 l2
      by_cases hp : a.path = p
      · right
        refine ⟨a, b, ?_, ?_, hm⟩
        · simp [findModule, List.find?_cons, hp]
        · simp [findModule, List.find?_cons, hm.1, hp]
      · have h1 : (a.path == p) = false := by simp [hp]
        have h2 : (b.path == p) = false := by simp [hm.1, hp]
        rcases ih with ⟨hn, hn'⟩ | ⟨m, m', hs, hs', he⟩
        · left
          constructor
          · simpa [findModule, List.find?_cons, h1] using hn
          · simpa [findModule, List.find?_cons, h2] using hn'
        · right
          refine ⟨m, m', ?_, ?_, he⟩
          · simpa [findModule, List.find?_cons, h1] using hs
          · simpa [findModule, List.find?_cons, h2] using hs'

theorem stEvolves_find_some {st st' : ModState} (h : StEvolves st st')
    {p : String} {m : ModuleDependency} (hm : findModule st p = some m) :
    ∃ m', findModule st' p = some m' ∧ ModEvolves m m' := by
  rcases stEvolves_find h p with ⟨hn, _⟩ | ⟨a, a', hs, hs', he⟩
  · rw [hm] at hn; cases hn
  · rw [hm] at hs
    cases hs
    exact ⟨a', hs', he⟩

theorem stEvolves_isVisited {st st' : ModState} (h : StEvolves st st')
    {p : String} (hv : isVisited st p = true) : isVisited st' p = true := by
  rw [isVisited] at hv ⊢
  cases hfind : findModule st p with
  | none => rw [hfind] at hv; simp at hv
  | some m =>
      rw [hfind] at hv
      obtain ⟨m', hs', he⟩ := stEvolves_find_some h hfind
      rw [hs']
      exact he.2.2.2.1 hv

theorem stEvolves_depsOf {st st' : ModState} (h : StEvolves st st')
    (p : String) : depsOf st' p ⊆ depsOf st p := by
  rw [depsOf, depsOf]
  cases hfind : findModule st p with
  | none =>
      rcases stEvolves_find h p with ⟨_, hn'⟩ | ⟨m, m', hs, _, _⟩
      · rw [hn']
        exact fun d hd => hd
      · rw [hfind] at hs; cases hs
  | some m =>
      obtain ⟨m', hs', he⟩ := stEvolves_find_some h hfind
      rw [hs']
      exact he.2.2.2.2.1

theorem stEvolves_mem {st st' : ModState} (h : StEvolves st st')
    {m' : ModuleDependency} (hm : m' ∈ st') :
    ∃ m ∈ st, ModEvolves m m' := by
  induction h with
  | nil => simp at hm
  | cons hm1 hrest ih =>
      rcases List.mem_cons.mp hm with rfl | hm'
      · exact ⟨_, List.mem_cons_self _ _, hm1⟩
      · obtain ⟨m, hmem, he⟩ := ih hm'
        exact ⟨m, List.mem_cons_of_mem _ hmem, he⟩

theorem findModule_update_self {st : ModState} {p : String}
    {f : ModuleDependency → ModuleDependency}
    (hf : ∀ x, (f x).path = x.path) :
    findModule (updateModule st p f) p = (findModule st p).map f := by
  rw [findModule_update hf, if_pos rfl]
  cases hfind : findModule st p with
  | none => rfl
  | some m =>
      have := (findModule_eq_some hfind).1
      simp [this]

theorem findModule_update_other {st : ModState} {p q : String}
    {f : ModuleDependency → ModuleDependency}
    (hf : ∀ x, (f x).path = x.path) (h : q ≠ p) :
    findModule (updateModule st p f) q = findModule st q := by
  rw [findModule_update hf, if_neg h]

theorem isSome_update {st : ModState} {p q : String}
    {f : ModuleDependency → ModuleDependency}
    (hf : ∀ x, (f x).path = x.path) :
    (findModule (updateModule st p f) q).isSome = (findModule st q).isSome := by
  by_cases h : q = p
  · subst h
    rw [findModule_update_self hf]
    cases findModule st q <;> rfl
  · rw [findModule_update_other hf h]

theorem isVisited_update {st : ModState} {p : String}
    {f : ModuleDependency → ModuleDependency}
    (hf : ∀ x, (f x).path = x.path)
    (hv : ∀ x, (f x).visited = x.visited) (q : String) :
    isVisited (updateModule st p f) q = isVisited st q := by
  by_cases h : q = p
  · subst h
    rw [isVisited, isVisited, findModule_update_self hf]
    cases findModule st q with
    | none => rfl
    | some m => simp [hv]
  · rw [isVisited, isVisited, findModule_update_other hf h]

theorem isMarked_update {st : ModState} {p : String}
    {f : ModuleDependency → ModuleDependency}
    (hf : ∀ x, (f x).path = x.path)
    (hm : ∀ x, (f x).temporaryMark = x.temporaryMark) (q : String) :
    isMarked (updateModule st p f) q = isMarked st q := by
  by_cases h : q = p
  · subst h
    rw [isMarked, isMarked, findModule_update_self hf]
    cases findModule st q with
    | none => rfl
    | some m => simp [hm]
  · rw [isMarked, isMarked, findModule_update_other hf h]

theorem pushedBefore_append {res Δ : List String} {d p : String}
    (h : pushedBefore res d p) : pushedBefore (res ++ Δ) d p := by
  obtain ⟨pre, suf, hres, hd⟩ := h
  exact ⟨pre, suf ++ Δ, by rw [hres]; simp, hd⟩

theorem pushedBefore_last {res : List String} {d p : String}
    (h : d ∈ res) : pushedBefore (res ++ [p]) d p :=
  ⟨res, [], rfl, h⟩

theorem mem_updateModule {st : ModState} {p : String}
    {f : ModuleDependency → ModuleDependency} {m' : ModuleDependency}
    (h : m' ∈ updateModule st p f) :
    ∃ x ∈ st, m' = if x.path == p then f x else x := by
  rw [updateModule] at h
  obtain ⟨x, hx, he⟩ := List.mem_map.mp h
  exact ⟨x, hx, he.symm⟩

theorem sortInv_update {st : ModState} {res : List String} {p : String}
    {f : ModuleDependency → ModuleDependency}
    (hinv : SortInv st res)
    (hf_path : ∀ x, (f x).path = x.path)
    (hf_vis : ∀ x, (f x).visited = x.visited)
    (hf_deps : ∀ x ∈ st, x.path = p → x.visited = true →
      (f x).dependencies = x.dependencies)
    (hf_mark : ∀ x ∈ st, x.path = p → (f x).temporaryMark = true →
      x.visited = false) :
    SortInv (updateModule st p f) res := by
  refine ⟨?_, hinv.resNodup, ?_, ?_, ?_, ?_⟩
  · rw [pathsOf_update hf_path]
    exact hinv.pathsNodup
  · intro q hq
    rw [isVisited_update hf_path hf_vis]
    exact hinv.resVisited q hq
  · intro m' hm' hv
    obtain ⟨x, hx, he⟩ := mem_updateModule hm'
    by_cases hp : x.path = p
    · have hb : (x.path == p) = true := by simp [hp]
      rw [he, if_pos hb] at hv ⊢
      rw [hf_vis] at hv
      rw [hf_path]
      exact hinv.visitedRes x hx hv
    · have hb : (x.path == p) = false := by simp [hp]
      rw [he, if_neg (by simp [hb])] at hv ⊢
      exact hinv.visitedRes x hx hv
  · intro m' hm' hmk
    obtain ⟨x, hx, he⟩ := mem_updateModule hm'
    by_cases hp : x.path = p
    · have hb : (x.path == p) = true := by simp [hp]
      rw [he, if_pos hb] at hmk ⊢
      rw [hf_vis]
      exact hf_mark x hx hp hmk
    · have hb : (x.path == p) = false := by simp [hp]
      rw [he, if_neg (by simp [hb])] at hmk ⊢
      exact hinv.markedUnvisited x hx hmk
  · intro m' hm' hv d hd hsome
    obtain ⟨x, hx, he⟩ := mem_updateModule hm'
    have hsome' : (findModule st d).isSome = true := by
      rw [← isSome_update hf_path (p := p) (q := d)]  -- may need adjust
      exact hsome
    by_cases hp : x.path = p
    · have hb : (x.path == p) = true := by simp [hp]
      rw [he, if_pos hb] at hv hd ⊢
      rw [hf_vis] at hv
      rw [hf_deps x hx hp hv] at hd
      rw [hf_path]
      exact hinv.postorder x hx hv d hd hsome'
    · have hb : (x.path == p) = false := by simp [hp]
      rw [he, if_neg (by simp [hb])] at hv hd ⊢
      exact hinv.postorder x hx hv d hd hsome'

theorem isMarked_iff {st : ModState} {p : String} :
    isMarked st p = true ↔
      ∃ m, findModule st p = some m ∧ m.temporaryMark = true := by
  rw [isMarked]
  cases findModule st p <;> simp

theorem isVisited_iff {st : ModState} {p : String} :
    isVisited st p = true ↔
      ∃ m, findModule st p = some m ∧ m.visited = true := by
  rw [isVisited]
  cases findModule st p <;> simp

theorem modEvolves_mark (x : ModuleDependency) : ModEvolves x (markModule x) :=
  ⟨rfl, rfl, rfl, fun h => h, fun _ hd => hd, fun _ => rfl⟩

theorem modEvolves_commit (x : ModuleDependency) :
    ModEvolves x (commitModule x) :=
  ⟨rfl, rfl, rfl, fun _ => rfl, fun _ hd => hd, fun _ => rfl⟩

theorem modEvolves_prune {x : ModuleDependency} (d : String)
    (h : x.visited = false) : ModEvolves x (pruneDep d x) := by
  refine ⟨rfl, rfl, rfl, fun hv => hv, fun _ hd => List.mem_of_mem_filter hd, fun hv => ?_⟩
  rw [h] at hv
  cases hv

theorem visitSpec_trans {st st1 st2 : ModState} {res res1 res2 : List String}
    (h1 : VisitSpec st res st1 res1) (h2 : VisitSpec st1 res1 st2 res2) :
    VisitSpec st res st2 res2 := by
  refine ⟨stEvolves_trans h1.evolves h2.evolves,
    fun q => (h2.marks q).trans (h1.marks q), h2.inv, ?_⟩
  obtain ⟨d1, e1⟩ := h1.ext
  obtain ⟨d2, e2⟩ := h2.ext
  exact ⟨d1 ++ d2, by rw [e2, e1, List.append_assoc]⟩

theorem visitSpec_refl {st : ModState} {res : List String}
    (hinv : SortInv st res) : VisitSpec st res st res :=
  ⟨stEvolves_refl st, fun _ => rfl, hinv, ⟨[], by simp⟩⟩

theorem visitDeps_spec (fuel : Nat)
    (hV : ∀ p st res st' res', SortInv st res →
      visitModule fuel p st res = some (st', res') →
      VisitSpec st res st' res' ∧ ((findModule st p).isSome = true →
        isMarked st p = false → isVisited st' p = true)) :
    ∀ (deps : List String) (parent : String) (st : ModState)
      (res : List String) (st' : ModState) (res' : List String),
      SortInv st res → isMarked st parent = true →
      visitDeps fuel deps parent st res = some (st', res') →
      VisitSpec st res st' res' ∧
        ∀ d ∈ deps, d ∈ depsOf st' parent →
          (findModule st' d).isSome = true → isVisited st' d = true := by
  intro deps
  induction deps with
  | nil =>
      intro parent st res st' res' hinv _ h
      simp only [visitDeps, Option.some.injEq, Prod.mk.injEq] at h
      obtain ⟨rfl, rfl⟩ := h
      refine ⟨visitSpec_refl hinv, ?_⟩
      intro d hd
      simp at hd
  | cons d rest ih =>
      intro parent st res st' res' hinv hmark h
      cases hfind : findModule st d with
      | none =>
          simp only [visitDeps, hfind] at h
          obtain ⟨spec, hrest⟩ := ih parent st res st' res' hinv hmark h
          refine ⟨spec, ?_⟩
          intro e he hdep hsome
          rcases List.mem_cons.mp he with rfl | he'
          · exfalso
            have hpaths := stEvolves_pathsOf spec.evolves
            have hs : (findModule st e).isSome = true := by
              rw [findModule_isSome, ← hpaths, ← findModule_isSome]
              exact hsome
            rw [hfind] at hs
            simp at hs
          · exact hrest e he' hdep hsome
      | some dm =>
          obtain ⟨hdmpath, hdmmem⟩ := findModule_eq_some hfind
          by_cases hdm : dm.temporaryMark = true
          · -- cycle pruning
            simp only [visitDeps, hfind, hdm, if_true] at h
            have hpm : ∃ pm, findModule st parent = some pm ∧
                pm.temporaryMark = true := isMarked_iff.mp hmark
            obtain ⟨pm, hpmf, hpmmk⟩ := hpm
            have hpmvis : pm.visited = false :=
              hinv.markedUnvisited pm (findModule_eq_some hpmf).2 hpmmk
            have hxeq : ∀ x ∈ st, x.path = parent → x = pm := by
              intro x hx hxp
              have h1 : findModule st parent = some x := by
                rw [← hxp]
                exact findModule_mem_nodup hinv.pathsNodup hx
              rw [hpmf] at h1
              exact (Option.some.inj h1).symm
            have hpathf : ∀ x, (pruneDep d x).path = x.path := fun x => rfl
            have hinv1 : SortInv (updateModule st parent (pruneDep d)) res := by
              refine sortInv_update hinv hpathf (fun x => rfl) ?_ ?_
              · intro x hx hxp hxv
                rw [hxeq x hx hxp] at hxv
                rw [hpmvis] at hxv
                cases hxv
              · intro x hx _ hxm
                exact hinv.markedUnvisited x hx hxm
            have hev1 : StEvolves st (updateModule st parent (pruneDep d)) := by
              apply stEvolves_update
              intro x hx hxp
              apply modEvolves_prune
              rw [hxeq x hx hxp]
              exact hpmvis
            have hmks1 : ∀ q, isMarked (updateModule st parent (pruneDep d)) q =
                isMarked st q :=
              isMarked_update hpathf (fun x => rfl)
            have hmark1 : isMarked (updateModule st parent (pruneDep d)) parent
                = true := by
              rw [hmks1]
              exact hmark
            obtain ⟨spec, hrest⟩ := ih parent _ res st' res' hinv1 hmark1 h
            refine ⟨visitSpec_trans ⟨hev1, hmks1, hinv1, ⟨[], by simp⟩⟩ spec, ?_⟩
            intro e he hdep hsome
            rcases List.mem_cons.mp he with rfl | he'
            · exfalso
              have h1 : depsOf st' parent ⊆
                  depsOf (updateModule st parent (pruneDep e)) parent :=
                stEvolves_depsOf spec.evolves parent
              have h2 : depsOf (updateModule st parent (pruneDep e)) parent =
                  pm.dependencies.filter (fun q => q != e) := by
                rw [depsOf, findModule_update_self hpathf, hpmf]
                rfl
              have h3 := h1 hdep
              rw [h2] at h3
              have h4 := List.of_mem_filter h3
              simp at h4
            · exact hrest e he' hdep hsome
          · -- recursive visit
            have hdm' : dm.temporaryMark = false := by simpa using hdm
            simp only [visitDeps, hfind, hdm', Bool.false_eq_true, if_false] at h
            cases hvm : visitModule fuel d st res with
            | none =>
                rw [hvm] at h
                simp at h
            | some pr =>
                obtain ⟨st2, r2⟩ := pr
                rw [hvm] at h
                obtain ⟨spec1, htar⟩ := hV d st res st2 r2 hinv hvm
                have hvis2 : isVisited st2 d = true := by
                  apply htar
                  · rw [hfind]
                    rfl
                  · rw [isMarked, hfind]
                    exact hdm'
                have hmark2 : isMarked st2 parent = true := by
                  rw [spec1.marks]
                  exact hmark
                obtain ⟨spec2, hrest⟩ :=
                  ih parent st2 r2 st' res' spec1.inv hmark2 h
                refine ⟨visitSpec_trans spec1 spec2, ?_⟩
                intro e he hdep hsome
                rcases List.mem_cons.mp he with rfl | he'
                · exact stEvolves_isVisited spec2.evolves hvis2
                · exact hrest e he' hdep hsome

theorem visitModule_spec : ∀ (fuel : Nat) (p : String) (st : ModState)
    (res : List String) (st' : ModState) (res' : List String),
    SortInv st res → visitModule fuel p st res = some (st', res') →
    VisitSpec st res st' res' ∧ ((findModule st p).isSome = true →
      isMarked st p = false → isVisited st' p = true) := by
  intro fuel
  induction fuel with
  | zero =>
      intro p st res st' res' _ h
      simp [visitModule] at h
  | succ n ih =>
      intro p st res st' res' hinv h
      cases hfind : findModule st p with
      | none =>
          simp only [visitModule, hfind, Option.some.injEq, Prod.mk.injEq] at h
          obtain ⟨rfl, rfl⟩ := h
          refine ⟨visitSpec_refl hinv, ?_⟩
          intro hsome _
          simp at hsome
      | some m =>
          obtain ⟨hmpath, hmmem⟩ := findModule_eq_some hfind
          by_cases hmk : m.temporaryMark = true
          · simp only [visitModule, hfind, hmk, if_true, Option.some.injEq,
              Prod.mk.injEq] at h
            obtain ⟨rfl, rfl⟩ := h
            refine ⟨visitSpec_refl hinv, ?_⟩
            intro _ hm
            rw [isMarked, hfind] at hm
            simp only [] at hm
            rw [hmk] at hm
            exact Bool.noConfusion hm
          · have hmk' : m.temporaryMark = false := by simpa using hmk
            by_cases hv : m.visited = true
            · simp only [visitModule, hfind, hmk', Bool.false_eq_true, if_false,
                hv, if_true, Option.some.injEq, Prod.mk.injEq] at h
              obtain ⟨rfl, rfl⟩ := h
              refine ⟨visitSpec_refl hinv, ?_⟩
              intro _ _
              rw [isVisited, hfind]
              exact hv
            · have hv' : m.visited = false := by simpa using hv
              simp only [visitModule, hfind, hmk', hv', Bool.false_eq_true,
                if_false] at h
              cases hvd : visitDeps n m.dependencies p
                  (updateModule st p markModule) res with
              | none =>
                  rw [hvd] at h
                  simp at h
              | some pr =>
                  obtain ⟨st2, r2⟩ := pr
                  rw [hvd] at h
                  simp only [Option.some.injEq, Prod.mk.injEq] at h
                  obtain ⟨rfl, rfl⟩ := h
                  have hxeq : ∀ x ∈ st, x.path = p → x = m := by
                    intro x hx hxp
                    have h1 : findModule st p = some x := by
                      rw [← hxp]
                      exact findModule_mem_nodup hinv.pathsNodup hx
                    rw [hfind] at h1
                    exact (Option.some.inj h1).symm
                  have hpathf : ∀ x, (markModule x).path = x.path := fun x => rfl
                  have hinv1 : SortInv (updateModule st p markModule) res := by
                    refine sortInv_update hinv hpathf (fun x => rfl)
                      (fun x _ _ _ => rfl) ?_
                    intro x hx hxp _
                    rw [hxeq x hx hxp]
                    exact hv'
                  have hev1 : StEvolves st (updateModule st p markModule) :=
                    stEvolves_update (fun x _ _ => modEvolves_mark x)
                  have hmka : isMarked (updateModule st p markModule) p = true := by
                    rw [isMarked, findModule_update_self hpathf, hfind]
                    rfl
                  have hmkb : ∀ q, q ≠ p →
                      isMarked (updateModule st p markModule) q =
                        isMarked st q := by
                    intro q hq
                    rw [isMarked, findModule_update_other hpathf hq, isMarked]
                  obtain ⟨spec1, hdc⟩ := visitDeps_spec n ih m.dependencies p
                    (updateModule st p markModule) res st2 r2 hinv1 hmka hvd
                  obtain ⟨m2, hfind2, hm2mk⟩ := isMarked_iff.mp
                    (by rw [spec1.marks p]; exact hmka)
                  have hm2vis : m2.visited = false :=
                    spec1.inv.markedUnvisited m2 (findModule_eq_some hfind2).2 hm2mk
                  have hpnotr2 : p ∉ r2 := by
                    intro hp
                    have hvp := spec1.inv.resVisited p hp
                    rw [isVisited, hfind2] at hvp
                    simp [hm2vis] at hvp
                  have hpathc : ∀ x, (commitModule x).path = x.path :=
                    fun x => rfl
                  have hxeq2 : ∀ x ∈ st2, x.path = p → x = m2 := by
                    intro x hx hxp
                    have h1 : findModule st2 p = some x := by
                      rw [← hxp]
                      exact findModule_mem_nodup spec1.inv.pathsNodup hx
                    rw [hfind2] at h1
                    exact (Option.some.inj h1).symm
                  have hdep1 : depsOf (updateModule st p markModule) p =
                      m.dependencies := by
                    rw [depsOf, findModule_update_self hpathf, hfind]
                    rfl
                  refine ⟨⟨?_, ?_, ?_, ?_⟩, ?_⟩
                  · exact stEvolves_trans (stEvolves_trans hev1 spec1.evolves)
                      (stEvolves_update (fun x _ _ => modEvolves_commit x))
                  · intro q
                    by_cases hq : q = p
                    · subst hq
                      rw [isMarked, findModule_update_self hpathc, hfind2,
                        isMarked, hfind]
                      simp [commitModule, hmk']
                    · rw [isMarked, findModule_update_other hpathc hq,
                        ← isMarked, spec1.marks q, hmkb q hq]
                  · -- SortInv st3 (r2 ++ [p])
                    refine ⟨?_, ?_, ?_, ?_, ?_, ?_⟩
                    · rw [pathsOf_update hpathc]
                      exact spec1.inv.pathsNodup
                    · simp [List.nodup_append, spec1.inv.resNodup, hpnotr2]
                    · intro q hq
                      rcases List.mem_append.mp hq with hq' | hq'
                      · have hqp : q ≠ p := fun he => hpnotr2 (he ▸ hq')
                        rw [isVisited, findModule_update_other hpathc hqp,
                          ← isVisited]
                        exact spec1.inv.resVisited q hq'
                      · simp at hq'
                        subst hq'
                        rw [isVisited, findModule_update_self hpathc, hfind2]
                        rfl
                    · intro m' hm' hv''
                      obtain ⟨x, hx, he⟩ := mem_updateModule hm'
                      by_cases hxp : x.path = p
                      · have hb : (x.path == p) = true := by simp [hxp]
                        rw [he, if_pos hb]
                        have : (commitModule x).path = p := by
                          rw [hpathc]
                          exact hxp
                        rw [this]
                        simp
                      · have hb : (x.path == p) = false := by simp [hxp]
                        rw [he, if_neg (by simp [hb])] at hv'' ⊢
                        exact List.mem_append_left _
                          (spec1.inv.visitedRes x hx hv'')
                    · intro m' hm' hmk''
                      obtain ⟨x, hx, he⟩ := mem_updateModule hm'
                      by_cases hxp : x.path = p
                      · have hb : (x.path == p) = true := by simp [hxp]
                        rw [he, if_pos hb] at hmk''
                        cases hmk''
                      · have hb : (x.path == p) = false := by simp [hxp]
                        rw [he, if_neg (by simp [hb])] at hmk'' ⊢
                        exact spec1.inv.markedUnvisited x hx hmk''
                    · intro m' hm' hv'' d hd hsome
                      have hsome2 : (findModule st2 d).isSome = true := by
                        rw [← isSome_update hpathc]
                        exact hsome
                      obtain ⟨x, hx, he⟩ := mem_updateModule hm'
                      by_cases hxp : x.path = p
                      · have hxm2 := hxeq2 x hx hxp
                        subst hxm2
                        have hb : (x.path == p) = true := by simp [hxp]
                        rw [he, if_pos hb] at hd ⊢
                        have hdx : d ∈ x.dependencies := hd
                        have hdep2 : d ∈ depsOf st2 p := by
                          rw [depsOf, hfind2]
                          exact hdx
                        have hdsnap : d ∈ m.dependencies := by
                          rw [← hdep1]
                          exact stEvolves_depsOf spec1.evolves p hdep2
                        have hvis2d : isVisited st2 d = true :=
                          hdc d hdsnap hdep2 hsome2
                        obtain ⟨dd, hdd, hddv⟩ := isVisited_iff.mp hvis2d
                        have hdr2 : d ∈ r2 := by
                          have hmem := spec1.inv.visitedRes dd
                            (findModule_eq_some hdd).2 hddv
                          rw [(findModule_eq_some hdd).1] at hmem
                          exact hmem
                        have hmp : (commitModule x).path = p := by
                          rw [hpathc]
                          exact hxp
                        rw [hmp]
                        exact pushedBefore_last hdr2
                      · have hb : (x.path == p) = false := by simp [hxp]
                        rw [he, if_neg (by simp [hb])] at hv'' hd ⊢
                        exact pushedBefore_append
                          (spec1.inv.postorder x hx hv'' d hd hsome2)
                  · obtain ⟨d1, e1⟩ := spec1.ext
                    exact ⟨d1 ++ [p], by rw [e1, List.append_assoc]⟩
                  · intro _ _
                    rw [isVisited, findModule_update_self hpathc, hfind2]
                    rfl

theorem topoLoop_spec : ∀ (ps : List String) (st : ModState)
    (res : List String) (st' : ModState) (res' : List String),
    SortInv st res → (∀ q, isMarked st q = false) →
    topologicalSortLoop ps st res = some (st', res') →
    VisitSpec st res st' res' ∧ (∀ q, isMarked st' q = false) ∧
      ∀ p ∈ ps, (findModule st p).isSome = true → isVisited st' p = true := by
  intro ps
  induction ps with
  | nil =>
      intro st res st' res' hinv hmks h
      simp only [topologicalSortLoop, Option.some.injEq, Prod.mk.injEq] at h
      obtain ⟨rfl, rfl⟩ := h
      refine ⟨visitSpec_refl hinv, hmks, ?_⟩
      intro p hp
      simp at hp
  | cons p rest ih =>
      intro st res st' res' hinv hmks h
      by_cases hvis : isVisited st p = true
      · simp only [topologicalSortLoop, hvis, if_true] at h
        obtain ⟨spec, hmks', hall⟩ := ih st res st' res' hinv hmks h
        refine ⟨spec, hmks', ?_⟩
        intro q hq hqsome
        rcases List.mem_cons.mp hq with rfl | hq'
        · exact stEvolves_isVisited spec.evolves hvis
        · exact hall q hq' hqsome
      · have hvis' : isVisited st p = false := by simpa using hvis
        simp only [topologicalSortLoop, hvis', Bool.false_eq_true, if_false] at h
        cases hvm : visitModule (st.length + 1) p st res with
        | none =>
            rw [hvm] at h
            simp at h
        | some pr =>
            obtain ⟨st2, r2⟩ := pr
            rw [hvm] at h
            obtain ⟨spec1, htar⟩ := visitModule_spec _ p st res st2 r2 hinv hvm
            have hmks2 : ∀ q, isMarked st2 q = false :=
              fun q => (spec1.marks q).trans (hmks q)
            obtain ⟨spec2, hmks', hall⟩ := ih st2 r2 st' res' spec1.inv hmks2 h
            refine ⟨visitSpec_trans spec1 spec2, hmks', ?_⟩
            intro q hq hqsome
            rcases List.mem_cons.mp hq with rfl | hq'
            · exact stEvolves_isVisited spec2.evolves (htar hqsome (hmks q))
            · apply hall q hq'
              rw [findModule_isSome, stEvolves_pathsOf spec1.evolves,
                ← findModule_isSome]
              exact hqsome

theorem pathsOf_filterMap_find (stF : ModState) : ∀ (resF : List String),
    (∀ q ∈ resF, (findModule stF q).isSome = true) →
    pathsOf (resF.filterMap (fun p => findModule stF p)) = resF := by
  intro resF
  induction resF with
  | nil => intro _; rfl
  | cons q rest ih =>
      intro hall
      have hq := hall q (List.mem_cons_self q rest)
      cases hfind : findModule stF q with
      | none => rw [hfind] at hq; simp at hq
      | some mq =>
          have hpath := (findModule_eq_some hfind).1
          simp only [List.filterMap_cons, hfind, pathsOf, List.map_cons]
          rw [show List.map (fun m => m.path)
              (rest.filterMap (fun p => findModule stF p)) =
              pathsOf (rest.filterMap (fun p => findModule stF p)) from rfl]
          rw [ih (fun x hx => hall x (List.mem_cons_of_mem q hx)), hpath]

theorem topologicalSort_spec {modules sorted : List ModuleDependency}
    (hnd : (pathsOf modules).Nodup)
    (h : topologicalSort modules = some sorted) :
    ∃ stF resF, SortInv stF resF ∧
      StEvolves (modules.map resetFlags) stF ∧
      (∀ p ∈ pathsOf modules, isVisited stF p = true) ∧
      sorted = (resF.filterMap (fun p => findModule stF p)).reverse := by
  rw [topologicalSort] at h
  have hreset : ∀ x : ModuleDependency, (resetFlags x).path = x.path :=
    fun x => rfl
  set st0 := modules.map resetFlags with hst0
  have hpaths0 : pathsOf st0 = pathsOf modules := pathsOf_map hreset
  have hinv0 : SortInv st0 [] := by
    refine ⟨by rw [hpaths0]; exact hnd, List.nodup_nil, ?_, ?_, ?_, ?_⟩
    · intro p hp
      simp at hp
    · intro m' hm' hv
      obtain ⟨x, _, he⟩ := List.mem_map.mp hm'
      rw [← he] at hv
      cases hv
    · intro m' hm' hmk
      obtain ⟨x, _, he⟩ := List.mem_map.mp hm'
      rw [← he] at hmk
      cases hmk
    · intro m' hm' hv
      obtain ⟨x, _, he⟩ := List.mem_map.mp hm'
      rw [← he] at hv
      cases hv
  have hmks0 : ∀ q, isMarked st0 q = false := by
    intro q
    rw [isMarked, findModule_map hreset]
    cases findModule modules q <;> rfl
  cases hloop : topologicalSortLoop (pathsOf st0) st0 [] with
  | none =>
      rw [hloop] at h
      simp at h
  | some pr =>
      obtain ⟨stF, resF⟩ := pr
      rw [hloop] at h
      simp only [Option.some.injEq] at h
      obtain ⟨spec, _, hall⟩ :=
        topoLoop_spec (pathsOf st0) st0 [] stF resF hinv0 hmks0 hloop
      refine ⟨stF, resF, spec.inv, spec.evolves, ?_, h.symm⟩
      intro p hp
      apply hall p (by rw [hpaths0]; exact hp)
      rw [findModule_isSome, hpaths0]
      exact hp

theorem nodup_split_unique {α : Type} {p : α} :
    ∀ {l pre suf pre' suf' : List α}, l.Nodup →
      l = pre ++ p :: suf → l = pre' ++ p :: suf' → pre = pre' := by
  intro l pre
  induction pre generalizing l with
  | nil =>
      intro suf pre' suf' hnd h1 h2
      cases pre' with
      | nil => rfl
      | cons y pre'' =>
          subst h1
          simp only [List.nil_append] at h2
          cases h2
          exfalso
          have hmem : p ∈ pre'' ++ p :: suf' :=
            List.mem_append_right _ (List.mem_cons_self p suf')
          have := (List.nodup_cons.mp hnd).1
          exact this hmem
  | cons x pre₂ ih =>
      intro suf pre' suf' hnd h1 h2
      cases pre' with
      | nil =>
          subst h2
          simp only [List.cons_append] at h1
          cases h1
          exfalso
          have hmem : p ∈ pre₂ ++ p :: suf :=
            List.mem_append_right _ (List.mem_cons_self p suf)
          have := (List.nodup_cons.mp hnd).1
          exact this hmem
      | cons y pre₂' =>
          subst h1
          simp only [List.cons_append, List.cons.injEq] at h2
          obtain ⟨rfl, h2'⟩ := h2
          have hnd' := (List.nodup_cons.mp hnd).2
          rw [ih hnd' rfl h2']

theorem sortInv_depsFirst {stF : ModState} {resF : List String}
    (hinv : SortInv stF resF) :
    ∀ pre p suf, resF = pre ++ p :: suf → ∀ d ∈ depsOf stF p,
      (findModule stF d).isSome = true → d ∈ pre := by
  intro pre p suf hsplit d hd hsome
  have hp : p ∈ resF := by
    rw [hsplit]
    exact List.mem_append_right _ (List.mem_cons_self p suf)
  have hvis := hinv.resVisited p hp
  obtain ⟨mp, hmp, hmpv⟩ := isVisited_iff.mp hvis
  have hdmp : d ∈ mp.dependencies := by
    rw [depsOf, hmp] at hd
    exact hd
  have hpb := hinv.postorder mp (findModule_eq_some hmp).2 hmpv d hdmp hsome
  rw [(findModule_eq_some hmp).1] at hpb
  obtain ⟨pre', suf', hsplit', hdpre'⟩ := hpb
  rw [nodup_split_unique hinv.resNodup hsplit hsplit']
  exact hdpre'

theorem sumDeps_memo (sqrt : Nat → Rat) (h : (0:Nat) ≤ 10) :
    ∀ (deps : List String) (st : AggState),
    (∀ d ∈ deps, d ∈ st.calculated ∧ d ∉ st.processing ∧
      ∃ md, findModule st.mods d = some md ∧ md.fileComplexity.isSome = true) →
    sumDependencyComplexities sqrt 0 h deps st =
      ((deps.map (memoAt st.mods)).sum, st) := by
  intro deps
  induction deps with
  | nil =>
      intro st _
      simp [sumDependencyComplexities]
  | cons d rest ih =>
      intro st hall
      obtain ⟨hcal, hnproc, md, hmd, hmdfc⟩ := hall d (List.mem_cons_self d rest)
      have hrest := fun x hx => hall x (List.mem_cons_of_mem d hx)
      simp only [sumDependencyComplexities, hmd]
      rw [if_neg hnproc]
      have hcalc1 : calculateDependencyComplexity sqrt (0 + 1) d st =
          (md.moduleComplexity.getD 0, st) := by
        simp only [calculateDependencyComplexity]
        rw [dif_neg (by omega)]
        simp only [hmd]
        have : md.fileComplexity.isNone = false := by
          cases hfc : md.fileComplexity
          · rw [hfc] at hmdfc; simp at hmdfc
          · rfl
        rw [this]
        simp only [Bool.false_eq_true, if_false]
        rw [if_pos hcal]
      rw [hcalc1, ih st hrest]
      simp only [List.map_cons, List.sum_cons]
      rw [memoAt, hmd]

theorem calcDep_step (sqrt : Nat → Rat) {st : AggState} {p : String}
    {m : ModuleDependency} {fc : ComplexityResult}
    (hproc : st.processing = [])
    (hm : findModule st.mods p = some m)
    (hfc : m.fileComplexity = some fc)
    (hnc : p ∉ st.calculated)
    (hdeps : ∀ d ∈ m.dependencies, d ∈ st.calculated ∧ d ≠ p ∧
      ∃ md, findModule st.mods d = some md ∧ md.fileComplexity.isSome = true) :
    (calculateDependencyComplexity sqrt 0 p st).1 =
        (fc.score + childScoreSum fc) +
          (if m.dependencies = [] then 0
           else ((m.dependencies.map (memoAt st.mods)).sum) * (1/2) /
             sqrt m.dependencies.length)
    ∧ (calculateDependencyComplexity sqrt 0 p st).2.mods =
        updateModule st.mods p (fun x =>
          { x with moduleComplexity := some (calculateDependencyComplexity sqrt 0 p st).1 })
    ∧ (calculateDependencyComplexity sqrt 0 p st).2.calculated =
        p :: st.calculated
    ∧ (calculateDependencyComplexity sqrt 0 p st).2.processing = [] := by
  have hfcnone : m.fileComplexity.isNone = false := by
    rw [hfc]
    rfl
  set v : Rat := (fc.score + childScoreSum fc) +
    (if m.dependencies = [] then 0
     else ((m.dependencies.map (memoAt st.mods)).sum) * (1/2) /
       sqrt m.dependencies.length) with hv
  have hst1 : ({ st with processing := p :: st.processing } : AggState) =
      { st with processing := [p] } := by
    rw [hproc]
  have hconds : ∀ d ∈ m.dependencies,
      d ∈ ({ st with processing := [p] } : AggState).calculated ∧
      d ∉ ({ st with processing := [p] } : AggState).processing ∧
      ∃ md, findModule ({ st with processing := [p] } : AggState).mods d
          = some md ∧ md.fileComplexity.isSome = true := by
    intro d hd
    obtain ⟨h1, h2, h3⟩ := hdeps d hd
    exact ⟨h1, by simp [h2], h3⟩
  have hmain : calculateDependencyComplexity sqrt 0 p st =
      (v, { mods := updateModule st.mods p
              (fun x => { x with moduleComplexity := some v })
            calculated := p :: st.calculated
            processing := [] }) := by
    simp only [calculateDependencyComplexity]
    rw [dif_neg (by omega)]
    simp only [hm, hfcnone, Bool.false_eq_true, if_false]
    rw [if_neg hnc, if_neg (by simp [hproc])]
    simp only [hfc]
    rw [hst1, sumDeps_memo sqrt _ m.dependencies _ hconds]
    simp only []
    have hfilter : ([p].filter (fun q => q != p)) = ([] : List String) := by
      simp
    cases hde : m.dependencies with
    | nil =>
        simp only [hde, List.length_nil]
        rw [hv]
        simp only [hde, if_pos rfl]
        norm_num [hfilter]
    | cons d0 drest =>
        simp only [hde, List.length_cons]
        have hpos : 0 < drest.length + 1 := Nat.succ_pos _
        rw [if_pos hpos, hv]
        simp only [hde, if_neg (List.cons_ne_nil d0 drest), List.length_cons]
        norm_num [hfilter]
  rw [hmain]
  exact ⟨rfl, rfl, rfl, rfl⟩

theorem findModule_map_proj {st : ModState} {p q : String}
    {f : ModuleDependency → ModuleDependency} {β : Type}
    (g : ModuleDependency → β)
    (hf : ∀ x, (f x).path = x.path) (hg : ∀ x, g (f x) = g x) :
    (findModule (updateModule st p f) q).map g = (findModule st q).map g := by
  by_cases h : q = p
  · subst h
    rw [findModule_update_self hf]
    cases findModule st q with
    | none => rfl
    | some m => simp [hg]
  · rw [findModule_update_other hf h]

theorem depsOf_ext {st st' : ModState} {q : String}
    (h : (findModule st' q).map (fun x => x.dependencies) =
      (findModule st q).map (fun x => x.dependencies)) :
    depsOf st' q = depsOf st q := by
  rw [depsOf, depsOf]
  cases h1 : findModule st q <;> cases h2 : findModule st' q <;>
    rw [h1, h2] at h <;> simp_all

theorem aggLoop_inv (sqrt : Nat → Rat) : ∀ (order : List String) (st : AggState),
    AggInv sqrt st →
    (∀ q ∈ st.calculated, q ∉ order) →
    (∀ p ∈ order, p ∈ pathsOf st.mods) →
    (∀ pre p suf, order = pre ++ p :: suf →
      ∀ d ∈ depsOf st.mods p, d ∈ pre ∨ d ∈ st.calculated) →
    order.Nodup →
    AggInv sqrt (calculateModuleComplexityLoop sqrt order st) ∧
    (∀ q, q ∈ order ∨ q ∈ st.calculated →
      q ∈ (calculateModuleComplexityLoop sqrt order st).calculated) ∧
    pathsOf (calculateModuleComplexityLoop sqrt order st).mods =
      pathsOf st.mods ∧
    (∀ q, (findModule (calculateModuleComplexityLoop sqrt order st).mods q).map
        (fun x => x.fileComplexity) =
      (findModule st.mods q).map (fun x => x.fileComplexity)) ∧
    (∀ q, (findModule (calculateModuleComplexityLoop sqrt order st).mods q).map
        (fun x => x.dependencies) =
      (findModule st.mods q).map (fun x => x.dependencies)) := by
  intro order
  induction order with
  | nil =>
      intro st hinv _ _ _ _
      rw [calculateModuleComplexityLoop]
      refine ⟨hinv, ?_, rfl, fun _ => rfl, fun _ => rfl⟩
      intro q hq
      rcases hq with hq | hq
      · simp at hq
      · exact hq
  | cons p rest ih =>
      intro st hinv hdis hex hdf hnd
      have hnc : p ∉ st.calculated :=
        fun hc => hdis p hc (List.mem_cons_self p rest)
      simp only [calculateModuleComplexityLoop, if_neg hnc]
      have hpin : p ∈ pathsOf st.mods := hex p (List.mem_cons_self p rest)
      obtain ⟨m, hm⟩ := Option.isSome_iff_exists.mp (findModule_isSome.mpr hpin)
      obtain ⟨fc, hfc⟩ := Option.isSome_iff_exists.mp
        (hinv.fcSome m (findModule_eq_some hm).2)
      have hdepsSplit : ∀ d ∈ m.dependencies, d ∈ st.calculated := by
        intro d hd
        have hds := hdf [] p rest rfl d (by rw [depsOf, hm]; exact hd)
        rcases hds with hds | hds
        · simp at hds
        · exact hds
      have hdeps : ∀ d ∈ m.dependencies, d ∈ st.calculated ∧ d ≠ p ∧
          ∃ md, findModule st.mods d = some md ∧
            md.fileComplexity.isSome = true := by
        intro d hd
        have h1 := hdepsSplit d hd
        have h2 : d ≠ p := fun he => hnc (he ▸ h1)
        obtain ⟨md, hmd⟩ := Option.isSome_iff_exists.mp
          (findModule_isSome.mpr (hinv.calcSub d h1))
        exact ⟨h1, h2, md, hmd, hinv.fcSome md (findModule_eq_some hmd).2⟩
      obtain ⟨hval, hmods2, hcal2, hproc2⟩ :=
        calcDep_step sqrt hinv.procEmpty hm hfc hnc hdeps
      set v := (calculateDependencyComplexity sqrt 0 p st).1 with hv
      set st2 := (calculateDependencyComplexity sqrt 0 p st).2 with hst2
      set F := (fun x : ModuleDependency =>
        { x with moduleComplexity := some v }) with hF
      have hFpath : ∀ x, (F x).path = x.path := by
        intro x
        rw [hF]
      have hFfc : ∀ x, (F x).fileComplexity = x.fileComplexity := by
        intro x
        rw [hF]
      have hFdeps : ∀ x, (F x).dependencies = x.dependencies := by
        intro x
        rw [hF]
      have hpaths2 : pathsOf st2.mods = pathsOf st.mods := by
        rw [hmods2]
        exact pathsOf_update hFpath
      have hfc2 : ∀ q, (findModule st2.mods q).map (fun x => x.fileComplexity)
          = (findModule st.mods q).map (fun x => x.fileComplexity) := by
        intro q
        rw [hmods2]
        exact findModule_map_proj _ hFpath hFfc
      have hdeps2 : ∀ q, (findModule st2.mods q).map (fun x => x.dependencies)
          = (findModule st.mods q).map (fun x => x.dependencies) := by
        intro q
        rw [hmods2]
        exact findModule_map_proj _ hFpath hFdeps
      have hdepsOf2 : ∀ q, depsOf st2.mods q = depsOf st.mods q :=
        fun q => depsOf_ext (hdeps2 q)
      have hmemo2 : ∀ d, d ≠ p → memoAt st2.mods d = memoAt st.mods d := by
        intro d hd
        rw [hmods2, memoAt, findModule_update_other hFpath hd, memoAt]
      have hxeqm : ∀ x ∈ st.mods, x.path = p → x = m := by
        intro x hx hxp
        have h1 : findModule st.mods x.path = some x :=
          findModule_mem_nodup hinv.pathsNodup hx
        rw [hxp, hm] at h1
        exact (Option.some.inj h1).symm
      have hinv2 : AggInv sqrt st2 := by
        refine ⟨hproc2, by rw [hpaths2]; exact hinv.pathsNodup, ?_, ?_, ?_, ?_⟩
        · intro m' hm'
          rw [hmods2] at hm'
          obtain ⟨x, hx, he⟩ := mem_updateModule hm'
          by_cases hxp : x.path = p
          · rw [he, if_pos (by simp [hxp]), hFfc]
            exact hinv.fcSome x hx
          · rw [he, if_neg (by simp [hxp])]
            exact hinv.fcSome x hx
        · intro q hq
          rw [hcal2] at hq
          rw [hpaths2]
          rcases List.mem_cons.mp hq with rfl | hq'
          · exact hpin
          · exact hinv.calcSub q hq'
        · intro m' hm' hmp d hd
          rw [hcal2] at hmp ⊢
          rw [hmods2] at hm'
          obtain ⟨x, hx, he⟩ := mem_updateModule hm'
          have hdx : m'.dependencies = x.dependencies := by
            by_cases hxp : x.path = p
            · rw [he, if_pos (by simp [hxp]), hFdeps]
            · rw [he, if_neg (by simp [hxp])]
          have hpx : m'.path = x.path := by
            by_cases hxp : x.path = p
            · rw [he, if_pos (by simp [hxp]), hFpath]
            · rw [he, if_neg (by simp [hxp])]
          rw [hdx] at hd
          rw [hpx] at hmp
          rcases List.mem_cons.mp hmp with hxp | hold
          · have hxm := hxeqm x hx hxp
            rw [hxm] at hd
            exact List.mem_cons_of_mem _ (hdepsSplit d hd)
          · have hxnp : x.path ≠ p := fun he' => hnc (he' ▸ hold)
            exact List.mem_cons_of_mem _ (hinv.depsCalc x hx hold d hd)
        · intro m' hm' hmp
          rw [hcal2] at hmp
          rw [hmods2] at hm'
          obtain ⟨x, hx, he⟩ := mem_updateModule hm'
          by_cases hxp : x.path = p
          · have hxm := hxeqm x hx hxp
            subst hxm
            rw [he, if_pos (by simp [hxp])]
            refine ⟨fc, by rw [hFfc]; exact hfc, ?_⟩
            have hmc : (F x).moduleComplexity = some v := by
              rw [hF]
            rw [hmc, hFdeps]
            congr 1
            rw [hval]
            have heq : List.map (memoAt st2.mods) x.dependencies =
                List.map (memoAt st.mods) x.dependencies :=
              List.map_congr_left (fun d hd => hmemo2 d (hdeps d hd).2.1)
            rw [heq]
          · rw [he, if_neg (by simp [hxp])] at hmp ⊢
            have hold : x.path ∈ st.calculated := by
              rcases List.mem_cons.mp hmp with h' | h'
              · exact absurd h' hxp
              · exact h'
            obtain ⟨fcx, hfcx, hform⟩ := hinv.formula x hx hold
            refine ⟨fcx, hfcx, ?_⟩
            rw [hform]
            have heq : List.map (memoAt st2.mods) x.dependencies =
                List.map (memoAt st.mods) x.dependencies :=
              List.map_congr_left (fun d hd => hmemo2 d
                (fun he' => hnc (he' ▸ hinv.depsCalc x hx hold d hd)))
            rw [heq]
      have hdis' : ∀ q ∈ st2.calculated, q ∉ rest := by
        intro q hq
        rw [hcal2] at hq
        rcases List.mem_cons.mp hq with rfl | hq'
        · exact (List.nodup_cons.mp hnd).1
        · intro hr
          exact hdis q hq' (List.mem_cons_of_mem _ hr)
      have hex' : ∀ q ∈ rest, q ∈ pathsOf st2.mods := by
        intro q hq
        rw [hpaths2]
        exact hex q (List.mem_cons_of_mem _ hq)
      have hdf' : ∀ pre q suf, rest = pre ++ q :: suf →
          ∀ d ∈ depsOf st2.mods q, d ∈ pre ∨ d ∈ st2.calculated := by
        intro pre q suf hsplit d hd
        rw [hdepsOf2] at hd
        have hds := hdf (p :: pre) q suf (by rw [hsplit]; rfl) d hd
        rw [hcal2]
        rcases hds with hmem | hmem
        · rcases List.mem_cons.mp hmem with rfl | hpre
          · exact Or.inr (List.mem_cons_self _ _)
          · exact Or.inl hpre
        · exact Or.inr (List.mem_cons_of_mem _ hmem)
      obtain ⟨hinvF, hmemF, hpathsF, hfcF, hdepsF⟩ :=
        ih st2 hinv2 hdis' hex' hdf' (List.nodup_cons.mp hnd).2
      refine ⟨hinvF, ?_, hpathsF.trans hpaths2,
        fun q => (hfcF q).trans (hfc2 q),
        fun q => (hdepsF q).trans (hdeps2 q)⟩
      intro q hq
      rcases hq with hq | hq
      · rcases List.mem_cons.mp hq with rfl | hq'
        · apply hmemF
          right
          rw [hcal2]
          exact List.mem_cons_self _ _
        · exact hmemF q (Or.inl hq')
      · apply hmemF
        right
        rw [hcal2]
        exact List.mem_cons_of_mem _ hq

theorem buildModules_paths_sublist (contents : List (String × SourceFileAst)) :
    ∀ fps : List String, (pathsOf (buildModules contents fps)).Sublist fps := by
  intro fps
  induction fps with
  | nil => simp [buildModules, pathsOf]
  | cons fp rest ih =>
      rw [buildModules]
      cases contents.find? (fun pr => pr.1 == fp) with
      | none => exact ih.cons fp
      | some pr =>
          simp only [pathsOf, List.map_cons]
          exact (ih.cons₂ fp)

theorem buildModules_facts (contents : List (String × SourceFileAst)) :
    ∀ fps : List String, ∀ m ∈ buildModules contents fps,
      m.fileComplexity.isSome = true ∧ m.visited = false ∧
        m.temporaryMark = false := by
  intro fps
  induction fps with
  | nil =>
      intro m hm
      simp [buildModules] at hm
  | cons fp rest ih =>
      intro m hm
      rw [buildModules] at hm
      cases hfp : contents.find? (fun pr => pr.1 == fp) with
      | none =>
          rw [hfp] at hm
          exact ih m hm
      | some pr =>
          rw [hfp] at hm
          rcases List.mem_cons.mp hm with rfl | hm'
          · exact ⟨rfl, rfl, rfl⟩
          · exact ih m hm'

theorem calculateModulesComplexity_eq (sqrt : Nat → Rat)
    (filePaths : List String)
    (fileContents : List (String × SourceFileAst)) :
    calculateModulesComplexity sqrt filePaths fileContents =
      (topologicalSort ((buildModules fileContents filePaths).map
        (restrictDeps (pathsOf (buildModules fileContents filePaths))))).map
        (fun sorted => (calculateModuleComplexity sqrt sorted).map toResult) := by
  rw [calculateModulesComplexity]
  cases topologicalSort ((buildModules fileContents filePaths).map
      (restrictDeps (pathsOf (buildModules fileContents filePaths)))) with
  | none => rfl
  | some sorted => rfl

theorem calculateModuleComplexity_eq (sqrt : Nat → Rat)
    (sorted : List ModuleDependency) :
    calculateModuleComplexity sqrt sorted =
      (calculateModuleComplexityLoop sqrt
        (pathsOf (sorted.map initComplexity)).reverse
        { mods := sorted.map initComplexity
          calculated := []
          processing := [] }).mods := by
  rw [calculateModuleComplexity]

theorem pipeline_core (sqrt : Nat → Rat) (modules : List ModuleDependency)
    (hnd : (pathsOf modules).Nodup)
    (hfc : ∀ m ∈ modules, m.fileComplexity.isSome = true)
    (out : List ModuleComplexityResult)
    (h : (topologicalSort (modules.map (restrictDeps (pathsOf modules)))).map
      (fun sorted => (calculateModuleComplexity sqrt sorted).map toResult) =
        some out) :
    ∀ r ∈ out,
      (∀ d ∈ r.dependencies, d ∈ pathsOf modules)
      ∧ ∃ fc, r.details = some fc ∧ r.fileComplexity = fc.score ∧
        r.moduleComplexity = (fc.score + childScoreSum fc) +
          (if r.dependencies = [] then 0
           else ((r.dependencies.map (fun d =>
               ((out.find? (fun x => x.path == d)).map
                 (fun x => x.moduleComplexity)).getD 0)).sum)
             * (1/2) / sqrt r.dependencies.length) := by
  set known := pathsOf modules with hknown
  set M2 := modules.map (restrictDeps known) with hM2
  cases hsort : topologicalSort M2 with
  | none =>
      rw [hsort] at h
      simp at h
  | some sorted =>
  rw [hsort] at h
  simp only [Option.map_some', Option.some.injEq] at h
  have hrdpath : ∀ x, (restrictDeps known x).path = x.path := fun x => rfl
  have hM2paths : pathsOf M2 = known := by
    rw [hM2, pathsOf_map hrdpath, hknown]
  have hM2nd : (pathsOf M2).Nodup := by
    rw [hM2paths, hknown]
    exact hnd
  have hM2fc : ∀ m ∈ M2, m.fileComplexity.isSome = true := by
    intro m hm
    rw [hM2] at hm
    obtain ⟨x, hx, he⟩ := List.mem_map.mp hm
    rw [← he]
    exact hfc x hx
  have hM2deps : ∀ m ∈ M2, ∀ d ∈ m.dependencies, d ∈ known := by
    intro m hm d hd
    rw [hM2] at hm
    obtain ⟨x, hx, he⟩ := List.mem_map.mp hm
    rw [← he] at hd
    have hd' := List.mem_filter.mp hd
    simpa using hd'.2
  obtain ⟨stF, resF, hinvF, hevF, hvisF, hsorted⟩ := topologicalSort_spec hM2nd hsort
  have hM20paths : pathsOf (M2.map resetFlags) = pathsOf M2 :=
    pathsOf_map (fun x => rfl)
  have hstFpaths : pathsOf stF = known := by
    rw [stEvolves_pathsOf hevF, hM20paths, hM2paths]
  have hstFfc : ∀ m ∈ stF, m.fileComplexity.isSome = true := by
    intro m hm
    obtain ⟨y, hy, hev⟩ := stEvolves_mem hevF hm
    obtain ⟨x, hx, he⟩ := List.mem_map.mp hy
    rw [hev.2.1, ← he]
    exact hM2fc x hx
  have hstFdeps : ∀ m ∈ stF, ∀ d ∈ m.dependencies, d ∈ known := by
    intro m hm d hd
    obtain ⟨y, hy, hev⟩ := stEvolves_mem hevF hm
    have hdy : d ∈ y.dependencies := hev.2.2.2.2.1 hd
    obtain ⟨x, hx, he⟩ := List.mem_map.mp hy
    rw [← he] at hdy
    exact hM2deps x hx d hdy
  have hresF_some : ∀ q ∈ resF, (findModule stF q).isSome = true := by
    intro q hq
    obtain ⟨mq, hmq, _⟩ := isVisited_iff.mp (hinvF.resVisited q hq)
    rw [hmq]
    rfl
  have hsorted_paths : pathsOf sorted = resF.reverse := by
    rw [hsorted]
    rw [show pathsOf ((resF.filterMap (fun p => findModule stF p)).reverse) =
      (pathsOf (resF.filterMap (fun p => findModule stF p))).reverse from
      by rw [pathsOf, pathsOf, List.map_reverse]]
    rw [pathsOf_filterMap_find stF resF hresF_some]
  have hsorted_nd : (pathsOf sorted).Nodup := by
    rw [hsorted_paths, List.nodup_reverse]
    exact hinvF.resNodup
  have hsorted_mem : ∀ x ∈ sorted, x ∈ stF := by
    intro x hx
    rw [hsorted, List.mem_reverse] at hx
    obtain ⟨q, _, hfind⟩ := List.mem_filterMap.mp hx
    exact (findModule_eq_some hfind).2
  have hfind_sorted : ∀ q ∈ resF, findModule sorted q = findModule stF q := by
    intro q hq
    obtain ⟨mq, hmq⟩ := Option.isSome_iff_exists.mp (hresF_some q hq)
    have hmem : mq ∈ sorted := by
      rw [hsorted, List.mem_reverse]
      exact List.mem_filterMap.mpr ⟨q, hq, hmq⟩
    have hfound := findModule_mem_nodup hsorted_nd hmem
    rw [(findModule_eq_some hmq).1] at hfound
    rw [hfound, hmq]
  rw [calculateModuleComplexity_eq] at h
  set st0 := sorted.map initComplexity with hst0
  have hicpath : ∀ x, (initComplexity x).path = x.path := fun x => rfl
  have hst0paths : pathsOf st0 = pathsOf sorted := by
    rw [hst0]
    exact pathsOf_map hicpath
  have horder : (pathsOf st0).reverse = resF := by
    rw [hst0paths, hsorted_paths, List.reverse_reverse]
  rw [horder] at h
  have hfind_st0 : ∀ q, findModule st0 q =
      (findModule sorted q).map initComplexity := by
    intro q
    rw [hst0]
    exact findModule_map hicpath
  set A0 : AggState := { mods := st0, calculated := [], processing := [] } with hA0
  have hA0mods : A0.mods = st0 := rfl
  have hA0cal : A0.calculated = [] := rfl
  have hinv0 : AggInv sqrt A0 := by
    refine ⟨rfl, ?_, ?_, ?_, ?_, ?_⟩
    · rw [hA0mods, hst0paths]
      exact hsorted_nd
    · intro m hm
      rw [hA0mods, hst0] at hm
      obtain ⟨x, hx, he⟩ := List.mem_map.mp hm
      rw [← he]
      exact hstFfc x (hsorted_mem x hx)
    · intro q hq
      rw [hA0cal] at hq
      simp at hq
    · intro m _ hmp
      rw [hA0cal] at hmp
      simp at hmp
    · intro m _ hmp
      rw [hA0cal] at hmp
      simp at hmp
  have hdis0 : ∀ q ∈ A0.calculated, q ∉ resF := by
    intro q hq
    rw [hA0cal] at hq
    simp at hq
  have hex0 : ∀ p ∈ resF, p ∈ pathsOf A0.mods := by
    intro p hp
    rw [hA0mods, hst0paths, hsorted_paths, List.mem_reverse]
    exact hp
  have hdf0 : ∀ pre q suf, resF = pre ++ q :: suf →
      ∀ d ∈ depsOf A0.mods q, d ∈ pre ∨ d ∈ A0.calculated := by
    intro pre q suf hsplit d hd
    left
    have hqres : q ∈ resF := by
      rw [hsplit]
      exact List.mem_append_right _ (List.mem_cons_self q suf)
    have hdeq : depsOf st0 q = depsOf stF q := by
      rw [depsOf, hfind_st0 q, hfind_sorted q hqres, depsOf]
      cases findModule stF q <;> rfl
    rw [hA0mods, hdeq] at hd
    have hdknown : d ∈ known := by
      obtain ⟨mq, hmq⟩ := Option.isSome_iff_exists.mp (hresF_some q hqres)
      rw [depsOf, hmq] at hd
      exact hstFdeps mq (findModule_eq_some hmq).2 d hd
    have hdsome : (findModule stF d).isSome = true := by
      rw [findModule_isSome, hstFpaths]
      exact hdknown
    exact sortInv_depsFirst hinvF pre q suf hsplit d hd hdsome
  obtain ⟨hinvL, hmemL, hpathsL, hfcL, hdepsL⟩ :=
    aggLoop_inv sqrt resF A0 hinv0 hdis0 hex0 hdf0 hinvF.resNodup
  set FA := calculateModuleComplexityLoop sqrt resF A0 with hFA
  intro r hr
  rw [← h] at hr
  obtain ⟨m, hmF, hre⟩ := List.mem_map.mp hr
  have hmres : m.path ∈ resF := by
    have h1 : m.path ∈ pathsOf FA.mods := mem_pathsOf.mpr ⟨m, hmF, rfl⟩
    rw [hpathsL, hA0mods, hst0paths, hsorted_paths, List.mem_reverse] at h1
    exact h1
  have hmcalc : m.path ∈ FA.calculated := hmemL m.path (Or.inl hmres)
  obtain ⟨fc, hfcm, hmc⟩ := hinvL.formula m hmF hmcalc
  have hFnd : (pathsOf FA.mods).Nodup := by
    rw [hpathsL, hA0mods, hst0paths]
    exact hsorted_nd
  have hfm : findModule FA.mods m.path = some m := findModule_mem_nodup hFnd hmF
  have hdepsm : ∀ d ∈ m.dependencies, d ∈ known := by
    intro d hd
    have hproj := hdepsL m.path
    rw [hfm, hA0mods] at hproj
    cases hf0 : findModule st0 m.path with
    | none =>
        rw [hf0] at hproj
        simp at hproj
    | some m0 =>
        rw [hf0] at hproj
        simp only [Option.map_some', Option.some.injEq] at hproj
        have hf0' := hf0
        rw [hfind_st0] at hf0'
        cases hfs : findModule sorted m.path with
        | none =>
            rw [hfs] at hf0'
            simp at hf0'
        | some ms =>
            rw [hfs] at hf0'
            simp only [Option.map_some'] at hf0'
            have hms_mem : ms ∈ stF := hsorted_mem ms (findModule_eq_some hfs).2
            apply hstFdeps ms hms_mem
            have hdeq2 : m.dependencies = ms.dependencies := by
              rw [hproj, ← Option.some.inj hf0']
              rfl
            rw [← hdeq2]
            exact hd
  constructor
  · intro d hd
    have hrd : r.dependencies = m.dependencies := by
      rw [← hre]
      rfl
    rw [hrd] at hd
    exact hdepsm d hd
  · refine ⟨fc, ?_, ?_, ?_⟩
    · rw [← hre]
      exact hfcm
    · rw [← hre]
      show initScore m = fc.score
      rw [initScore, hfcm]
    · have hlookup : ∀ d, ((out.find? (fun x => x.path == d)).map
          (fun x => x.moduleComplexity)).getD 0 = memoAt FA.mods d := by
        intro d
        rw [← h, List.find?_map]
        rw [show ((fun x : ModuleComplexityResult => x.path == d) ∘ toResult) =
          (fun y : ModuleDependency => y.path == d) from rfl]
        rw [memoAt]
        cases hfd : findModule FA.mods d with
        | none =>
            rw [show List.find? (fun y : ModuleDependency => y.path == d)
              FA.mods = none from hfd]
            rfl
        | some md =>
            rw [show List.find? (fun y : ModuleDependency => y.path == d)
              FA.mods = some md from hfd]
            rfl
      rw [← hre]
      show m.moduleComplexity.getD 0 = _
      rw [hmc]
      simp only [Option.getD_some]
      rw [show (toResult m).dependencies = m.dependencies from rfl]
      by_cases hde : m.dependencies = []
      · rw [if_pos hde, if_pos hde]
      · rw [if_neg hde, if_neg hde]
        have hmapeq : m.dependencies.map (fun d =>
            ((out.find? (fun x => x.path == d)).map
              (fun x => x.moduleComplexity)).getD 0) =
            m.dependencies.map (memoAt FA.mods) :=
          List.map_congr_left (fun d _ => hlookup d)
        rw [hmapeq]

theorem pipeline_facts (sqrt : Nat → Rat) (filePaths : List String)
    (fileContents : List (String × SourceFileAst))
    (hnodup : filePaths.Nodup)
    (out : List ModuleComplexityResult)
    (h : calculateModulesComplexity sqrt filePaths fileContents = some out) :
    ∀ r ∈ out,
      (∀ d ∈ r.dependencies, d ∈ pathsOf (buildModules fileContents filePaths))
      ∧ ∃ fc, r.details = some fc ∧ r.fileComplexity = fc.score ∧
        r.moduleComplexity = (fc.score + childScoreSum fc) +
          (if r.dependencies = [] then 0
           else ((r.dependencies.map (fun d =>
               ((out.find? (fun x => x.path == d)).map
                 (fun x => x.moduleComplexity)).getD 0)).sum)
             * (1/2) / sqrt r.dependencies.length) := by
  apply pipeline_core sqrt (buildModules fileContents filePaths)
  · exact List.Nodup.sublist (buildModules_paths_sublist fileContents filePaths)
      hnodup
  · exact fun m hm => (buildModules_facts fileContents filePaths m hm).1
  · rw [← calculateModulesComplexity_eq]
    exact h

/-- C4: for every module of a successful multi-file analysis over distinct
file paths, the reported aggregate `moduleComplexity` equals the file score
plus the sum of the scores of the file result's direct children, plus
`0.5 × (sum of the dependencies' aggregate complexities) / sqrt(number of
dependencies)` when the module has at least one dependency, and just the
file part when it has none (the dependency aggregates are read off the same
output list). -/
theorem module_aggregate_formula (sqrt : Nat → Rat) (filePaths : List String)
    (fileContents : List (String × SourceFileAst))
    (hnodup : filePaths.Nodup) (out : List ModuleComplexityResult)
    (h : calculateModulesComplexity sqrt filePaths fileContents = some out) :
    ∀ r ∈ out, ∃ fc, r.details = some fc ∧ r.fileComplexity = fc.score ∧
      r.moduleComplexity = (fc.score + childScoreSum fc) +
        (if r.dependencies = [] then 0
         else ((r.dependencies.map (fun d =>
             ((out.find? (fun x => x.path == d)).map
               (fun x => x.moduleComplexity)).getD 0)).sum)
           * (1/2) / sqrt r.dependencies.length) :=
  fun r hr => (pipeline_facts sqrt filePaths fileContents hnodup out h r hr).2

theorem module_aggregate_formula_witness :
    ∃ fc, aggOutX.details = some fc ∧ aggOutX.fileComplexity = fc.score ∧
      aggOutX.moduleComplexity = (fc.score + childScoreSum fc) +
        (if aggOutX.dependencies = [] then 0
         else ((aggOutX.dependencies.map (fun d =>
             (([aggOutX, aggOutY].find? (fun x => x.path == d)).map
               (fun x => x.moduleComplexity)).getD 0)).sum)
           * (1/2) / sqrtOne aggOutX.dependencies.length) := by
  have hfileX : calculateModuleFileComplexity aggFileX = aggDetailsX := by
    simp +decide [calculateModuleFileComplexity, analyzeImports,
      analyzeImportsList, importSymbolCount, countLetStmts, countLetStmt,
      aggFileX, aggDetailsX, Split.calculateFileComplexity,
      Split.scoreFileStatements, Split.calculateStatementComplexity,
      Split.calculateStatementComplexityWithPattern,
      Split.calculateStatementNodeComplexity, Split.selectStatementCalculator,
      fileStatementWeight, createComplexityContext, Stmt.nodeId, Stmt.kind]
    norm_num
  have hfileY : calculateModuleFileComplexity aggFileY = aggDetailsY := by
    simp +decide [calculateModuleFileComplexity, analyzeImports,
      analyzeImportsList, importSymbolCount, countLetStmts, countLetStmt,
      aggFileY, aggDetailsY, Split.calculateFileComplexity,
      Split.scoreFileStatements, Split.calculateStatementComplexity,
      Split.calculateStatementComplexityWithPattern,
      Split.calculateStatementNodeComplexity, Split.selectStatementCalculator,
      fileStatementWeight, createComplexityContext, Stmt.nodeId, Stmt.kind]
  have hbuild : buildModules aggContents ["x.ts", "y.ts"] =
      [{ path := "x.ts", dependencies := ["y.ts"],
         fileComplexity := some aggDetailsX, moduleComplexity := some 3,
         visited := false, temporaryMark := false },
       { path := "y.ts", dependencies := [],
         fileComplexity := some aggDetailsY, moduleComplexity := some 1,
         visited := false, temporaryMark := false }] := by
    simp +decide [buildModules, aggContents, hfileX, hfileY,
      show analyzeDependencies aggFileX "x.ts" = ["y.ts"] from by decide,
      show analyzeDependencies aggFileY "y.ts" = [] from by decide,
      aggDetailsX, aggDetailsY]
  have hpipe : calculateModulesComplexity sqrtOne ["x.ts", "y.ts"] aggContents
      = some [aggOutX, aggOutY] := by
    simp +decide [calculateModulesComplexity, hbuild, pathsOf,
      topologicalSort, topologicalSortLoop, visitModule, visitDeps,
      markModule, commitModule, pruneDep, resetFlags, restrictDeps,
      initComplexity, initScore, toResult,
      findModule, updateModule, isVisited,
      calculateModuleComplexity, calculateModuleComplexityLoop,
      calculateDependencyComplexity, sumDependencyComplexities,
      childScoreSum, aggDetailsX, aggDetailsY, aggOutX, aggOutY, sqrtOne]
    norm_num
  exact module_aggregate_formula sqrtOne ["x.ts", "y.ts"] aggContents
    (by decide) [aggOutX, aggOutY] hpipe aggOutX (by simp)

/-- C5: dependency extraction collects exactly the string-literal import
specifiers that start with a dot, resolving each against the importing
file's directory; segment normalization skips `.` and empty segments and
pops the collected prefix on `..`; resolution is the composition of the
directory join, normalization, the `.ts` extension default and the implicit
`index.ts` default applied when the resolved path ends in `/`; and every
dependency of a successful multi-file analysis is a known module path, so
resolved paths outside the known file set are silently dropped. -/
theorem dependency_resolution_contract :
    (∀ (filePath : String) (ss : List Stmt),
      analyzeDependenciesList filePath ss =
        ((ss.filterMap importSpecifierOf).filter
          (fun s => jsStartsWith s ".")).map (resolveImportPath filePath))
    ∧ (∀ (ps : List String) (p : String),
        (p ≠ "." → p ≠ "" → p ≠ ".." →
          normalizeParts (ps ++ [p]) = normalizeParts ps ++ [p])
        ∧ normalizeParts (ps ++ ["."]) = normalizeParts ps
        ∧ normalizeParts (ps ++ [""]) = normalizeParts ps
        ∧ normalizeParts (ps ++ [".."]) = (normalizeParts ps).dropLast)
    ∧ (∀ basePath importPath, resolveImportPath basePath importPath =
        defaultIndexFile (ensureTsExtension
          (normalizePath (dirnameOf basePath ++ importPath))))
    ∧ (∀ s, jsEndsWith s "/" = true → defaultIndexFile s = s ++ "index.ts")
    ∧ (∀ (sqrt : Nat → Rat) (filePaths : List String)
        (fileContents : List (String × SourceFileAst))
        (out : List ModuleComplexityResult), filePaths.Nodup →
        calculateModulesComplexity sqrt filePaths fileContents = some out →
        ∀ r ∈ out, ∀ d ∈ r.dependencies,
          d ∈ pathsOf (buildModules fileContents filePaths)) := by
  have hstep : ∀ (ps : List String) (p : String), normalizeParts (ps ++ [p]) =
      (if p = "." ∨ p = "" then normalizeParts ps
       else if p = ".." then (normalizeParts ps).dropLast
       else normalizeParts ps ++ [p]) := by
    intro ps p
    rw [normalizeParts, normalizeParts, List.foldl_append]
    rfl
  refine ⟨?_, ?_, ?_, ?_, ?_⟩
  · intro filePath ss
    induction ss with
    | nil => rfl
    | cons s rest ih =>
        rw [analyzeDependenciesList]
        cases hspec : importSpecifierOf s with
        | none => simp [List.filterMap_cons, hspec, ih]
        | some spec =>
            by_cases hdot : jsStartsWith spec "." = true
            · simp [List.filterMap_cons, hspec, hdot, List.filter_cons, ih]
            · have hdot' : jsStartsWith spec "." = false := by simpa using hdot
              simp [List.filterMap_cons, hspec, hdot', List.filter_cons, ih]
  · intro ps p
    refine ⟨?_, ?_, ?_, ?_⟩
    · intro h1 h2 h3
      rw [hstep]
      rw [if_neg (by simp [h1, h2]), if_neg h3]
    · rw [hstep]
      rw [if_pos (Or.inl rfl)]
    · rw [hstep]
      rw [if_pos (Or.inr rfl)]
    · rw [hstep]
      rw [if_neg (by simp), if_pos rfl]
  · intro basePath importPath
    rfl
  · intro s hs
    rw [defaultIndexFile, if_pos hs]
  · intro sqrt filePaths fileContents out hnodup h r hr d hd
    exact (pipeline_facts sqrt filePaths fileContents hnodup out h r hr).1 d hd

theorem dependency_resolution_contract_witness :
    "b.ts" ∈ pathsOf (buildModules dropContents ["a.ts", "b.ts"])
    ∧ normalizeParts (["a", "b"] ++ ["c"]) = normalizeParts ["a", "b"] ++ ["c"]
    ∧ defaultIndexFile "src/" = "src/" ++ "index.ts" := by
  have hfileA : calculateModuleFileComplexity dropFileA = dropDetailsA := by
    simp +decide [calculateModuleFileComplexity, analyzeImports,
      analyzeImportsList, importSymbolCount, countLetStmts, countLetStmt,
      dropFileA, dropDetailsA, Split.calculateFileComplexity,
      Split.scoreFileStatements, Split.calculateStatementComplexity,
      Split.calculateStatementComplexityWithPattern,
      Split.calculateStatementNodeComplexity, Split.selectStatementCalculator,
      fileStatementWeight, createComplexityContext, Stmt.nodeId, Stmt.kind]
    norm_num
  have hfileB : calculateModuleFileComplexity dropFileB = dropDetailsB := by
    simp +decide [calculateModuleFileComplexity, analyzeImports,
      analyzeImportsList, importSymbolCount, countLetStmts, countLetStmt,
      dropFileB, dropDetailsB, Split.calculateFileComplexity,
      Split.scoreFileStatements, Split.calculateStatementComplexity,
      Split.calculateStatementComplexityWithPattern,
      Split.calculateStatementNodeComplexity, Split.selectStatementCalculator,
      fileStatementWeight, createComplexityContext, Stmt.nodeId, Stmt.kind]
  have hbuild : buildModules dropContents ["a.ts", "b.ts"] =
      [{ path := "a.ts", dependencies := ["b.ts", "missing.ts"],
         fileComplexity := some dropDetailsA, moduleComplexity := some 6,
         visited := false, temporaryMark := false },
       { path := "b.ts", dependencies := [],
         fileComplexity := some dropDetailsB, moduleComplexity := some 1,
         visited := false, temporaryMark := false }] := by
    simp +decide [buildModules, dropContents, hfileA, hfileB,
      show analyzeDependencies dropFileA "a.ts" = ["b.ts", "missing.ts"]
        from by decide,
      show analyzeDependencies dropFileB "b.ts" = [] from by decide,
      dropDetailsA, dropDetailsB]
  have hpipe : calculateModulesComplexity sqrtOne ["a.ts", "b.ts"] dropContents
      = some [dropOutA, dropOutB] := by
    simp +decide [calculateModulesComplexity, hbuild, pathsOf,
      topologicalSort, topologicalSortLoop, visitModule, visitDeps,
      markModule, commitModule, pruneDep, resetFlags, restrictDeps,
      initComplexity, initScore, toResult,
      findModule, updateModule, isVisited,
      calculateModuleComplexity, calculateModuleComplexityLoop,
      calculateDependencyComplexity, sumDependencyComplexities,
      childScoreSum, dropDetailsA, dropDetailsB, dropOutA, dropOutB, sqrtOne]
    norm_num
  refine ⟨?_, ?_, ?_⟩
  · exact dependency_resolution_contract.2.2.2.2 sqrtOne ["a.ts", "b.ts"]
      dropContents [dropOutA, dropOutB] (by decide) hpipe dropOutA (by simp)
      "b.ts" (by simp [dropOutA])
  · exact (dependency_resolution_contract.2.1 ["a", "b"] "c").1
      (by decide) (by decide) (by decide)
  · exact dependency_resolution_contract.2.2.2.1 "src/" (by decide)

/-- C3: on the two-file import cycle (`a.ts` importing `b.ts` importing
`a.ts`) `calculateModulesComplexity` terminates with a defined result for
any square-root primitive: the DFS prunes the cyclic edge (`b.ts` ends with
no dependencies), and both modules get finite module complexities — `4` for
`b.ts` and `4 + 0.5 × 4 / sqrt 1` for `a.ts`. -/
theorem modules_cycle_terminates (sqrt : Nat → Rat) :
    calculateModulesComplexity sqrt ["a.ts", "b.ts"] cyclicContents =
      some
        [{ path := "a.ts", fileComplexity := 3,
           moduleComplexity := 4 + 4 * (1/2) / sqrt 1,
           dependencies := ["b.ts"], details := some cyclicDetails },
         { path := "b.ts", fileComplexity := 3, moduleComplexity := 4,
           dependencies := [], details := some cyclicDetails }] := by
  have hfileA : calculateModuleFileComplexity cyclicFileA = cyclicDetails := by
    simp +decide [calculateModuleFileComplexity, analyzeImports,
      analyzeImportsList, importSymbolCount, countLetStmts, countLetStmt,
      cyclicFileA, cyclicDetails, Split.calculateFileComplexity,
      Split.scoreFileStatements, Split.calculateStatementComplexity,
      Split.calculateStatementComplexityWithPattern,
      Split.calculateStatementNodeComplexity, Split.selectStatementCalculator,
      fileStatementWeight, createComplexityContext, Stmt.nodeId, Stmt.kind]
    norm_num
  have hfileB : calculateModuleFileComplexity cyclicFileB = cyclicDetails := by
    simp +decide [calculateModuleFileComplexity, analyzeImports,
      analyzeImportsList, importSymbolCount, countLetStmts, countLetStmt,
      cyclicFileB, cyclicDetails, Split.calculateFileComplexity,
      Split.scoreFileStatements, Split.calculateStatementComplexity,
      Split.calculateStatementComplexityWithPattern,
      Split.calculateStatementNodeComplexity, Split.selectStatementCalculator,
      fileStatementWeight, createComplexityContext, Stmt.nodeId, Stmt.kind]
    norm_num
  have hdepA : analyzeDependencies cyclicFileA "a.ts" = ["b.ts"] := by decide
  have hdepB : analyzeDependencies cyclicFileB "b.ts" = ["a.ts"] := by decide
  have hbuild : buildModules cyclicContents ["a.ts", "b.ts"] =
      [{ path := "a.ts", dependencies := ["b.ts"],
         fileComplexity := some cyclicDetails, moduleComplexity := some 3,
         visited := false, temporaryMark := false },
       { path := "b.ts", dependencies := ["a.ts"],
         fileComplexity := some cyclicDetails, moduleComplexity := some 3,
         visited := false, temporaryMark := false }] := by
    simp +decide [buildModules, cyclicContents, hfileA, hfileB, hdepA, hdepB,
      cyclicDetails]
  simp +decide [calculateModulesComplexity, hbuild, pathsOf,
    topologicalSort, topologicalSortLoop, visitModule, visitDeps,
    markModule, commitModule, pruneDep, resetFlags, restrictDeps,
    initComplexity, initScore, toResult,
    findModule, updateModule, isVisited,
    calculateModuleComplexity, calculateModuleComplexityLoop,
    calculateDependencyComplexity, sumDependencyComplexities,
    childScoreSum, cyclicDetails]
  norm_num

end Quality
